import Mathlib

/-!
Ragel code generator back end: the analysis pass, the packed action array,
the inline expander, the init routine, the host-language adapters and the
Graphviz generator.

A shallow embedding of `src/rlcodegen/fsmcodegen.cpp` (class `FsmCodeGen`) and
of `src/ragel/dotcodegen.cc` (class `InputData`, in the namespace `Dot`).

Conventions of the embedding.

* Objects that the analysis mutates through pointers (`Action`, `RedAction`)
  live in arenas (`cgd->actionList`, `redFsm->actionMap`); a pointer to one of
  them is its position in the arena.  Objects that are only read
  (`RedTransAp`, `RedTransEl`, the states of the Graphviz generator) are
  embedded by value.
* A nullable pointer is an `Option`.
* Every method of `FsmCodeGen` is a function `FsmCodeGen → FsmCodeGen` on the
  record of the object's fields; a method writing to `out` returns the text
  written, as a `String`; a method of the inline expander, which writes to its
  argument `ret` and may write to the member `out`, returns the sequence of
  its writes, each with the stream it goes to.
* The `int` counters are only ever incremented from zero, they are natural
  numbers here; identifiers and limits are unbounded integers; the
  `unsigned long long` result of `span` and the `unsigned long` conversion of a
  key are taken modulo `2 ^ 64`, the `int` shift `1 << pos` on 32 bits.
* Declarations of headers that are not among the sources (`numRefs`, `span`,
  `anyCurStateRef`, `calcIndexSize`) are modelled from the specification and
  marked so; methods whose bodies are not among the sources (the register
  names and the virtual methods of the code styles, `isPrintable`,
  `actionName`) are parameters.
* A method that can fail on an assertion returns an `Option`, `none` being
  the aborted call.
* The recognizer emitted by `writeExec`, whose body is not among the sources,
  and the reference interpreter are modelled from the specification and marked
  so.
-/

namespace Ragel

/-! # Part I: the embedding -/

/-! ## Data model -/

/-- The tag of an inline item (`InlineItem::Type`). -/
inductive InlineType where
  | Text | Goto | Call | Next | GotoExpr | CallExpr | NextExpr | Ret
  | PChar | Char | Hold | Exec | HoldTE | ExecTE | Curs | Targs | Entry
  | LmSwitch | LmSetActId | LmSetTokEnd | LmGetTokEnd | LmInitAct
  | LmInitTokStart | LmSetTokStart | SubAction | Break
  deriving DecidableEq, Repr

/-- A node of the inline tree.  `targState` is the id of the state pointed to,
`children` is the nullable pointer to the child list. -/
inductive InlineItem where
  | mk (type : InlineType) (data : String) (targState : Option Int)
      (lmId : Int) (offset : Int) (handlesError : Bool)
      (children : Option (List InlineItem))

namespace InlineItem

/-- Field `type`. -/
def type : InlineItem → InlineType
  | .mk t _ _ _ _ _ _ => t

/-- Field `handlesError`. -/
def handlesError : InlineItem → Bool
  | .mk _ _ _ _ _ h _ => h

/-- Field `children`. -/
def children : InlineItem → Option (List InlineItem)
  | .mk _ _ _ _ _ _ c => c

/-- An item that carries only its tag. -/
def leaf (t : InlineType) : InlineItem := .mk t "" none 0 0 false none

/-- An item with a tag and a child list. -/
def node (t : InlineType) (cs : List InlineItem) : InlineItem :=
  .mk t "" none 0 0 false (some cs)

end InlineItem

/-- A user action: its inline tree, the four reference counters and its id. -/
structure Action where
  inlineList : List InlineItem
  numTransRefs : Nat
  numToStateRefs : Nat
  numFromStateRefs : Nat
  numEofRefs : Nat
  actionId : Int

/-- Modelled from the spec: `Action::numRefs()`, declared in a header that is
not part of the sources; the spec calls it the total references of an action,
the sum of the transition, to-state, from-state and EOF counters. -/
def Action.numRefs (a : Action) : Nat :=
  a.numTransRefs + a.numToStateRefs + a.numFromStateRefs + a.numEofRefs

/-- An entry of an `ActionTable`: the ordering key and the pointer to the
action. -/
structure ActionTableEl where
  key : Int
  value : Nat
  deriving DecidableEq, Repr

/-- An element of `redFsm->actionMap`: an action table (`key`) together with
its reference counters and flags. -/
structure RedAction where
  key : List ActionTableEl
  actListId : Int
  location : Int
  numTransRefs : Nat
  numToStateRefs : Nat
  numFromStateRefs : Nat
  numEofRefs : Nat
  bAnyNextStmt : Bool
  bAnyCurStateRef : Bool
  bAnyBreakStmt : Bool
  deriving DecidableEq, Repr

/-- A reduced transition: target state id and the pointer to its action
table. -/
structure RedTransAp where
  targ : Option Int
  action : Option Nat
  id : Int
  deriving DecidableEq, Repr

/-- An element of a transition list of a state. -/
structure RedTransEl where
  lowKey : Int
  highKey : Int
  value : RedTransAp
  deriving DecidableEq, Repr

/-- An element of `stateCondList`. -/
structure StateCond where
  lowKey : Int
  highKey : Int
  condSpaceId : Int
  deriving DecidableEq, Repr

/-- A state of the reduced machine. -/
structure RedStateAp where
  outSingle : List RedTransEl
  outRange : List RedTransEl
  defTrans : Option RedTransAp
  condList : Option (List Int)
  transList : Option (List RedTransAp)
  lowKey : Int
  highKey : Int
  condLowKey : Int
  condHighKey : Int
  stateCondList : List StateCond
  toStateAction : Option Nat
  fromStateAction : Option Nat
  eofAction : Option Nat
  id : Int
  bAnyRegCurStateRef : Bool
  deriving DecidableEq, Repr

/-- The reduced machine. -/
structure RedFsmAp where
  stateList : List RedStateAp
  actionMap : List RedAction
  transSet : List RedTransAp
  nextStateId : Int
  startState : Option Int
  errState : Option Int
  firstFinState : Option Int
  deriving DecidableEq, Repr

/-- An element of `cgd->condSpaceList`. -/
structure CondSpace where
  condSpaceId : Int
  deriving DecidableEq, Repr

/-- The part of `CodeGenData` the analysis reads and writes. -/
structure CodeGenData where
  actionList : List Action
  condSpaceList : List CondSpace
  hasLongestMatch : Bool

/-- The fields of `FsmCodeGen`. -/
structure FsmCodeGen where
  cgd : CodeGenData
  redFsm : RedFsmAp
  bAnyToStateActions : Bool
  bAnyFromStateActions : Bool
  bAnyRegActions : Bool
  bAnyEofActions : Bool
  bAnyActionGotos : Bool
  bAnyActionCalls : Bool
  bAnyActionRets : Bool
  bAnyRegActionRets : Bool
  bAnyRegActionByValControl : Bool
  bAnyRegNextStmt : Bool
  bAnyRegCurStateRef : Bool
  bAnyRegBreak : Bool
  bAnyLmSwitchError : Bool
  bAnyConditions : Bool
  maxState : Int
  maxSingleLen : Int
  maxRangeLen : Int
  maxKeyOffset : Int
  maxIndexOffset : Int
  maxIndex : Int
  maxActListId : Int
  maxActionLoc : Int
  maxActArrItem : Int
  maxSpan : Nat
  maxCondSpan : Nat
  maxFlatIndexOffset : Int
  maxCondOffset : Int
  maxCondLen : Int
  maxCondSpaceId : Int
  maxCondIndexOffset : Int
  maxCond : Int
  useIndicies : Bool

/-- The constructor `FsmCodeGen::FsmCodeGen`: every flag false.  The limits
are not initialised by the constructor, they are zero here. -/
def FsmCodeGen.init (cgd : CodeGenData) (redFsm : RedFsmAp) : FsmCodeGen :=
  { cgd := cgd, redFsm := redFsm,
    bAnyToStateActions := false, bAnyFromStateActions := false,
    bAnyRegActions := false, bAnyEofActions := false,
    bAnyActionGotos := false, bAnyActionCalls := false,
    bAnyActionRets := false, bAnyRegActionRets := false,
    bAnyRegActionByValControl := false, bAnyRegNextStmt := false,
    bAnyRegCurStateRef := false, bAnyRegBreak := false,
    bAnyLmSwitchError := false, bAnyConditions := false,
    maxState := 0, maxSingleLen := 0, maxRangeLen := 0, maxKeyOffset := 0,
    maxIndexOffset := 0, maxIndex := 0, maxActListId := 0, maxActionLoc := 0,
    maxActArrItem := 0, maxSpan := 0, maxCondSpan := 0,
    maxFlatIndexOffset := 0, maxCondOffset := 0, maxCondLen := 0,
    maxCondSpaceId := 0, maxCondIndexOffset := 0, maxCond := 0,
    useIndicies := false }

/-! ## Writing through a pointer -/

/-- The write `p->field = f(p->field)` on the arena cell `i`; a position
outside the arena is no pointer and nothing is written. -/
def updAt {α : Type} (f : α → α) : Nat → List α → List α
  | _, [] => []
  | 0, x :: xs => f x :: xs
  | i + 1, x :: xs => x :: updAt f i xs

/-! ## `findFinalActionRefs` -/

/-- The four classes of reference counters. -/
inductive RefClass where
  | trans | toState | fromState | eof
  deriving DecidableEq, Repr

/-- The statement `numXRefs += 1` on an action, for the counter of class `c`. -/
def Action.incRefs (c : RefClass) (a : Action) : Action :=
  match c with
  | .trans => { a with numTransRefs := a.numTransRefs + 1 }
  | .toState => { a with numToStateRefs := a.numToStateRefs + 1 }
  | .fromState => { a with numFromStateRefs := a.numFromStateRefs + 1 }
  | .eof => { a with numEofRefs := a.numEofRefs + 1 }

/-- The statement `numXRefs += 1` on an action table, for the counter of
class `c`. -/
def RedAction.incRefs (c : RefClass) (a : RedAction) : RedAction :=
  match c with
  | .trans => { a with numTransRefs := a.numTransRefs + 1 }
  | .toState => { a with numToStateRefs := a.numToStateRefs + 1 }
  | .fromState => { a with numFromStateRefs := a.numFromStateRefs + 1 }
  | .eof => { a with numEofRefs := a.numEofRefs + 1 }

/-- The inner loop `for item in table->key: item->value->numXRefs += 1`. -/
def refItems (c : RefClass) (items : List ActionTableEl) (acts : List Action) :
    List Action :=
  items.foldl (fun acts item => updAt (Action.incRefs c) item.value acts) acts

/-- The block that the source repeats for each slot:
`table->numXRefs += 1; for item in table->key: item->value->numXRefs += 1`,
where `table` is the non-null pointer `ra` into the action map. -/
def refAction (c : RefClass) (g : FsmCodeGen) (ra : Nat) : FsmCodeGen :=
  match g.redFsm.actionMap[ra]? with
  | none => g
  | some table =>
    { g with
      redFsm := { g.redFsm with
        actionMap := updAt (RedAction.incRefs c) ra g.redFsm.actionMap }
      cgd := { g.cgd with actionList := refItems c table.key g.cgd.actionList } }

/-- The guarded block for a nullable action-table pointer. -/
def refActionOpt (c : RefClass) (g : FsmCodeGen) : Option Nat → FsmCodeGen
  | none => g
  | some ra => refAction c g ra

/-- The body of the state loop of `findFinalActionRefs`. -/
def findFinalActionRefsState (g : FsmCodeGen) (st : RedStateAp) : FsmCodeGen :=
  let g := st.outSingle.foldl (fun g rtel => refActionOpt .trans g rtel.value.action) g
  let g := st.outRange.foldl (fun g rtel => refActionOpt .trans g rtel.value.action) g
  let g := match st.defTrans with
    | none => g
    | some t => refActionOpt .trans g t.action
  let g := refActionOpt .toState g st.toStateAction
  let g := refActionOpt .fromState g st.fromStateAction
  refActionOpt .eof g st.eofAction

/-- `FsmCodeGen::findFinalActionRefs`. -/
def findFinalActionRefs (g : FsmCodeGen) : FsmCodeGen :=
  g.redFsm.stateList.foldl findFinalActionRefsState g

/-! ## `assignActionIds` -/

/-- The loop of `assignActionIds`, with the local `nextActionId`. -/
def assignActionIdsLoop : Int → List Action → List Action
  | _, [] => []
  | nextActionId, act :: rest =>
    if act.numRefs > 0 then
      { act with actionId := nextActionId } :: assignActionIdsLoop (nextActionId + 1) rest
    else
      act :: assignActionIdsLoop nextActionId rest

/-- `FsmCodeGen::assignActionIds`. -/
def assignActionIds (g : FsmCodeGen) : FsmCodeGen :=
  { g with cgd := { g.cgd with actionList := assignActionIdsLoop 0 g.cgd.actionList } }

/-! ## Reference counts, as the specification words them -/

/-- The counter of class `c` of an action. -/
def Action.refs (c : RefClass) (a : Action) : Nat :=
  match c with
  | .trans => a.numTransRefs
  | .toState => a.numToStateRefs
  | .fromState => a.numFromStateRefs
  | .eof => a.numEofRefs

/-- The counter of class `c` of the action at position `a` of the action
list. -/
def refsAt (c : RefClass) (acts : List Action) (a : Nat) : Nat :=
  match acts[a]? with
  | some x => x.refs c
  | none => 0

/-- The action pointers listed by the table a nullable pointer designates. -/
def tableOf (actionMap : List RedAction) : Option Nat → List Nat
  | none => []
  | some ra =>
    match actionMap[ra]? with
    | none => []
    | some table => table.key.map (fun item => item.value)

/-- The action-table pointers of the slots of class `c` of a state. -/
def RedStateAp.slotTables (c : RefClass) (st : RedStateAp) : List (Option Nat) :=
  match c with
  | .trans =>
    st.outSingle.map (fun rtel => rtel.value.action)
      ++ st.outRange.map (fun rtel => rtel.value.action)
      ++ (match st.defTrans with
          | none => []
          | some t => [t.action])
  | .toState => [st.toStateAction]
  | .fromState => [st.fromStateAction]
  | .eof => [st.eofAction]

/-- Every slot of class `c` of the machine, state after state. -/
def RedFsmAp.slotTables (c : RefClass) (fsm : RedFsmAp) : List (Option Nat) :=
  (fsm.stateList.map (RedStateAp.slotTables c)).flatten

/-- The number of slots of class `c` whose action table references the
action `a`. -/
def numSlotsReferencing (c : RefClass) (fsm : RedFsmAp) (a : Nat) : Nat :=
  ((fsm.slotTables c).filter (fun ra => decide (a ∈ tableOf fsm.actionMap ra))).length

/-- The number of entries that point to the action `a`, over the action
tables of all slots of class `c`. -/
def numEntriesReferencing (c : RefClass) (fsm : RedFsmAp) (a : Nat) : Nat :=
  ((fsm.slotTables c).map (fun ra => (tableOf fsm.actionMap ra).count a)).sum

/-- A code generator whose reference counters are all zero. -/
@[reducible] def CountersZero (g : FsmCodeGen) : Prop :=
  ∀ act ∈ g.cgd.actionList, act.numRefs = 0

/-- No action table lists an action twice. -/
def TablesNodup (fsm : RedFsmAp) : Prop :=
  ∀ table ∈ fsm.actionMap, (table.key.map (fun item => item.value)).Nodup

/-- An action without references. -/
def Action.fresh (il : List InlineItem) : Action :=
  { inlineList := il, numTransRefs := 0, numToStateRefs := 0,
    numFromStateRefs := 0, numEofRefs := 0, actionId := -1 }

/-- An action table without references. -/
def RedAction.fresh (key : List ActionTableEl) (actListId location : Int) : RedAction :=
  { key := key, actListId := actListId, location := location,
    numTransRefs := 0, numToStateRefs := 0, numFromStateRefs := 0,
    numEofRefs := 0, bAnyNextStmt := false, bAnyCurStateRef := false,
    bAnyBreakStmt := false }

/-- A state without transitions, conditions or actions. -/
def RedStateAp.bare (id : Int) : RedStateAp :=
  { outSingle := [], outRange := [], defTrans := none, condList := none,
    transList := none, lowKey := 0, highKey := 0, condLowKey := 0,
    condHighKey := 0, stateCondList := [], toStateAction := none,
    fromStateAction := none, eofAction := none, id := id,
    bAnyRegCurStateRef := false }

/-- The machine `'a' @A @A`: the only transition carries a table that lists
the action `A` twice, under two orderings. -/
def exTwice : FsmCodeGen :=
  FsmCodeGen.init
    { actionList := [Action.fresh []], condSpaceList := [], hasLongestMatch := false }
    { stateList :=
        [ { RedStateAp.bare 0 with
            outSingle := [⟨97, 97, ⟨some 1, some 0, 0⟩⟩] },
          RedStateAp.bare 1 ],
      actionMap := [RedAction.fresh [⟨0, 0⟩, ⟨1, 0⟩] 0 0],
      transSet := [⟨some 1, some 0, 0⟩],
      nextStateId := 2, startState := some 0, errState := none,
      firstFinState := some 1 }

/-- The same machine with the table hooked as the to-state, from-state and
EOF action of the final state. -/
def exTwiceHooks : FsmCodeGen :=
  FsmCodeGen.init
    { actionList := [Action.fresh []], condSpaceList := [], hasLongestMatch := false }
    { stateList :=
        [ { RedStateAp.bare 0 with
            outSingle := [⟨97, 97, ⟨some 1, none, 0⟩⟩] },
          { RedStateAp.bare 1 with
            toStateAction := some 0, fromStateAction := some 0,
            eofAction := some 0 } ],
      actionMap := [RedAction.fresh [⟨0, 0⟩, ⟨1, 0⟩] 0 0],
      transSet := [⟨some 1, none, 0⟩],
      nextStateId := 2, startState := some 0, errState := none,
      firstFinState := some 1 }

/-- A machine whose final state hooks a table with the single action `A` as
to-state, from-state and EOF action. -/
def exHooks : FsmCodeGen :=
  FsmCodeGen.init
    { actionList := [Action.fresh []], condSpaceList := [], hasLongestMatch := false }
    { stateList :=
        [ { RedStateAp.bare 0 with
            outSingle := [⟨97, 97, ⟨some 1, none, 0⟩⟩] },
          { RedStateAp.bare 1 with
            toStateAction := some 0, fromStateAction := some 0,
            eofAction := some 0 } ],
      actionMap := [RedAction.fresh [⟨0, 0⟩] 0 0],
      transSet := [⟨some 1, none, 0⟩],
      nextStateId := 2, startState := some 0, errState := none,
      firstFinState := some 1 }

/-- The machine `/a+b/` with the action `A` on the `b` transition. -/
def exAPlusB : FsmCodeGen :=
  FsmCodeGen.init
    { actionList := [Action.fresh []], condSpaceList := [], hasLongestMatch := false }
    { stateList :=
        [ { RedStateAp.bare 0 with
            outSingle := [⟨97, 97, ⟨some 1, none, 0⟩⟩] },
          { RedStateAp.bare 1 with
            outSingle := [⟨97, 97, ⟨some 1, none, 0⟩⟩, ⟨98, 98, ⟨some 2, some 0, 1⟩⟩] },
          RedStateAp.bare 2 ],
      actionMap := [RedAction.fresh [⟨0, 0⟩] 0 0],
      transSet := [⟨some 1, none, 0⟩, ⟨some 2, some 0, 1⟩],
      nextStateId := 3, startState := some 0, errState := none,
      firstFinState := some 2 }

/-! ## Auxiliary definitions: reference counting -/

/-- What the reference-counting steps leave untouched: the tables of the
action map and the length of the action list. -/
def RefInv (keys : List (List ActionTableEl)) (n : Nat) (g : FsmCodeGen) : Prop :=
  g.redFsm.actionMap.map (fun t => t.key) = keys ∧ g.cgd.actionList.length = n

/-- The action pointers of the table at `ra`, read from the tables alone. -/
def tableIn (keys : List (List ActionTableEl)) : Option Nat → List Nat
  | none => []
  | some r =>
    match keys[r]? with
    | none => []
    | some k => k.map (fun item => item.value)

/-- The entries pointing to `a` in the given tables. -/
def entriesIn (keys : List (List ActionTableEl)) (a : Nat) (ras : List (Option Nat)) : Nat :=
  (ras.map (fun ra => (tableIn keys ra).count a)).sum

/-! ## Auxiliary definitions: ranks of referenced actions -/

/-- An action with positive total references. -/
def Action.referenced (a : Action) : Bool := decide (0 < a.numRefs)

/-- The rank of position `j` among the referenced actions: how many
referenced actions stand before it in the action list. -/
def refRank (acts : List Action) (j : Nat) : Nat :=
  ((acts.take j).filter Action.referenced).length

/-! ## `ACTIONS_ARRAY` -/

/-- The read `item->value->actionId` through the action pointer `p`. -/
def actionIdAt (acts : List Action) (p : Nat) : Int :=
  match acts[p]? with
  | some a => a.actionId
  | none => 0

/-- The inner loop of `ACTIONS_ARRAY` over the items of one action table;
`actLast` is `act.last()`, the state is the text written so far and the local
`totalActions`. -/
def ACTIONS_ARRAY_items (acts : List Action) (actLast : Bool) :
    List ActionTableEl → String × Nat → String × Nat
  | [], s => s
  | item :: rest, (out, totalActions) =>
    let out := out ++ toString (actionIdAt acts item.value)
    let out := if !(actLast && rest.isEmpty) then out ++ ", " else out
    let out := if totalActions % 8 == 7 then out ++ "\n\t" else out
    ACTIONS_ARRAY_items acts actLast rest (out, totalActions + 1)

/-- The outer loop of `ACTIONS_ARRAY` over the action-table map. -/
def ACTIONS_ARRAY_tables (acts : List Action) :
    List RedAction → String × Nat → String × Nat
  | [], s => s
  | act :: rest, (out, totalActions) =>
    let out := out ++ toString act.key.length ++ ", "
    let out := if totalActions % 8 == 7 then out ++ "\n\t" else out
    ACTIONS_ARRAY_tables acts rest
      (ACTIONS_ARRAY_items acts rest.isEmpty act.key (out, totalActions + 1))

/-- `FsmCodeGen::ACTIONS_ARRAY`: the text written to `out`. -/
def ACTIONS_ARRAY (g : FsmCodeGen) : String :=
  (ACTIONS_ARRAY_tables g.cgd.actionList g.redFsm.actionMap ("\t0, ", 1)).1 ++ "\n"

/-! ## Reading the text back -/

/-- Where the reader stands inside an element of a comma-separated list:
nothing but blanks so far, a minus sign, inside the digits, or blanks after
the digits. -/
inductive Tok where
  | fresh
  | sign
  | num (neg : Bool) (v : Nat)
  | done (v : Int)
  deriving DecidableEq, Repr

/-- The integer spelled by a sign and a magnitude. -/
def signed (neg : Bool) (v : Nat) : Int := if neg then -(v : Int) else (v : Int)

/-- Blank characters between the elements of the list. -/
def isBlank (c : Char) : Bool := c == ' ' || c == '\t' || c == '\n'

/-- One character of a comma-separated list of decimal integers: the
integers read so far and the position inside the current element; `none`
when the text is not such a list.  An element holding only blanks stands for
no integer. -/
def scanChar : Option (List Int × Tok) → Char → Option (List Int × Tok)
  | none, _ => none
  | some (acc, tok), c =>
    if c.isDigit then
      match tok with
      | .fresh => some (acc, .num false (c.toNat - 48))
      | .sign => some (acc, .num true (c.toNat - 48))
      | .num neg v => some (acc, .num neg (10 * v + (c.toNat - 48)))
      | .done _ => none
    else if c = '-' then
      match tok with
      | .fresh => some (acc, .sign)
      | _ => none
    else if c = ',' then
      match tok with
      | .fresh => some (acc, .fresh)
      | .sign => none
      | .num neg v => some (acc ++ [signed neg v], .fresh)
      | .done v => some (acc ++ [v], .fresh)
    else if isBlank c then
      match tok with
      | .fresh => some (acc, .fresh)
      | .sign => none
      | .num neg v => some (acc, .done (signed neg v))
      | .done v => some (acc, .done v)
    else none

/-- The end of the text closes the last element. -/
def scanEnd : Option (List Int × Tok) → Option (List Int)
  | none => none
  | some (acc, .fresh) => some acc
  | some (_, .sign) => none
  | some (acc, .num neg v) => some (acc ++ [signed neg v])
  | some (acc, .done v) => some (acc ++ [v])

/-- The integers of a text read as a comma-separated list. -/
def readInts (cs : List Char) : Option (List Int) :=
  scanEnd (cs.foldl scanChar (some ([], .fresh)))

/-- The lines of a text: every newline ends a line, and text after the last
newline is a line of its own. -/
def linesOf : List Char → List (List Char)
  | [] => []
  | c :: cs =>
    if c = '\n' then [] :: linesOf cs
    else
      match linesOf cs with
      | [] => [[c]]
      | l :: ls => (c :: l) :: ls

/-- The sequence of integers the packed action array holds: the reserved 0
and then, for each action table in action-map order, its length and the ids
of its actions in table order. -/
def actionsArraySpec (g : FsmCodeGen) : List Int :=
  0 :: (g.redFsm.actionMap.map (fun table =>
    (table.key.length : Int)
      :: table.key.map (fun item => actionIdAt g.cgd.actionList item.value))).flatten

/-- A machine with `n` action tables of one action each (id 0);
`ACTIONS_ARRAY` writes `2 * n + 1` integers for it. -/
def exTables (n : Nat) : FsmCodeGen :=
  FsmCodeGen.init
    { actionList := [{ Action.fresh [] with numTransRefs := 1, actionId := 0 }],
      condSpaceList := [], hasLongestMatch := false }
    { stateList := [RedStateAp.bare 0],
      actionMap := List.replicate n (RedAction.fresh [⟨0, 0⟩] 0 0),
      transSet := [], nextStateId := 1, startState := some 0, errState := none,
      firstFinState := none }

/-! ## Auxiliary definitions: decimal numerals under the reader -/

/-- The characters `out << v` writes for an integer. -/
def intChars (v : Int) : List Char := (toString v).data

/-! ## Auxiliary definitions: the two loops of `ACTIONS_ARRAY` as one sequence of items -/

/-- The items the inner loop writes: the integer, and whether `", "` follows
it. -/
def flatItems (acts : List Action) (actLast : Bool) : List ActionTableEl → List (Int × Bool)
  | [] => []
  | item :: rest =>
    (actionIdAt acts item.value, !(actLast && rest.isEmpty)) :: flatItems acts actLast rest

/-- The items the outer loop writes. -/
def flatTables (acts : List Action) : List RedAction → List (Int × Bool)
  | [] => []
  | act :: rest =>
    ((act.key.length : Int), true) :: (flatItems acts rest.isEmpty act.key ++ flatTables acts rest)

/-- The characters written for a sequence of items, `t` being the value of
`totalActions` before the first of them. -/
def emitC : Nat → List (Int × Bool) → List Char
  | _, [] => []
  | t, (v, c) :: r =>
    intChars v ++ (if c then [',', ' '] else []) ++ (if t % 8 = 7 then ['\n', '\t'] else [])
      ++ emitC (t + 1) r

/-- Only the last item may lack the `", "`. -/
def CommaOK : List (Int × Bool) → Prop
  | [] => True
  | (_, c) :: r => (r ≠ [] → c = true) ∧ CommaOK r

/-! ## Auxiliary definitions: eight integers to a line -/

/-- The number of integers on a line. -/
def numInts (line : List Char) : Option Nat := (readInts line).map List.length

/-- Every line but the last holds exactly eight integers, the last one at
most eight. -/
def WrappedAtEight (ls : List (List Char)) : Prop :=
  (∀ l ∈ ls.dropLast, numInts l = some 8)
    ∧ ∃ l k, ls.getLast? = some l ∧ numInts l = some k ∧ k ≤ 8

/-! ## `setValueLimits` -/

/-- Modelled from the spec: `keyOps->span`, declared in a header that is not
part of the sources; the spec gives it as `(high - low + 1)` returned as an
unsigned long long. -/
def span (low high : Int) : Nat := ((high - low + 1) % 2 ^ 64).toNat

/-- The loop of `setValueLimits` over `cgd->condSpaceList`. -/
def setValueLimitsCondSpaces (g : FsmCodeGen) : FsmCodeGen :=
  g.cgd.condSpaceList.foldl (fun g csi =>
    if csi.condSpaceId > g.maxCondSpaceId then { g with maxCondSpaceId := csi.condSpaceId }
    else g) g

/-- The body of the state loop of `setValueLimits`; `last` is `st.last()`.
The statements of the body write distinct fields, each from its own old value
and the state, so the body is one record update, field by field in source
order. -/
def setValueLimitsState (g : FsmCodeGen) (st : RedStateAp) (last : Bool) : FsmCodeGen :=
  { g with
    maxCondLen :=
      if (st.stateCondList.length : Int) > g.maxCondLen then st.stateCondList.length
      else g.maxCondLen
    maxSingleLen :=
      if (st.outSingle.length : Int) > g.maxSingleLen then st.outSingle.length
      else g.maxSingleLen
    maxRangeLen :=
      if (st.outRange.length : Int) > g.maxRangeLen then st.outRange.length
      else g.maxRangeLen
    maxCondOffset :=
      if !last then g.maxCondOffset + st.stateCondList.length else g.maxCondOffset
    maxKeyOffset :=
      if !last then g.maxKeyOffset + (st.outSingle.length + st.outRange.length * 2)
      else g.maxKeyOffset
    maxIndexOffset :=
      if !last then g.maxIndexOffset + (st.outSingle.length + st.outRange.length + 1)
      else g.maxIndexOffset
    maxCondSpan :=
      if st.condList.isSome then
        if span st.condLowKey st.condHighKey > g.maxCondSpan then
          span st.condLowKey st.condHighKey
        else g.maxCondSpan
      else g.maxCondSpan
    maxSpan :=
      if st.transList.isSome then
        if span st.lowKey st.highKey > g.maxSpan then span st.lowKey st.highKey
        else g.maxSpan
      else g.maxSpan
    maxCondIndexOffset :=
      if !last then
        if st.condList.isSome then
          g.maxCondIndexOffset + span st.condLowKey st.condHighKey
        else g.maxCondIndexOffset
      else g.maxCondIndexOffset
    maxFlatIndexOffset :=
      if !last then
        (if st.transList.isSome then g.maxFlatIndexOffset + span st.lowKey st.highKey
          else g.maxFlatIndexOffset) + 1
      else g.maxFlatIndexOffset }

/-- The loop of `setValueLimits` over `redFsm->stateList`. -/
def setValueLimitsStates : FsmCodeGen → List RedStateAp → FsmCodeGen
  | g, [] => g
  | g, st :: rest => setValueLimitsStates (setValueLimitsState g st rest.isEmpty) rest

/-- The inner loop of `setValueLimits` over the items of an action table. -/
def setValueLimitsItems (g : FsmCodeGen) (key : List ActionTableEl) : FsmCodeGen :=
  key.foldl (fun g item =>
    if actionIdAt g.cgd.actionList item.value > g.maxActArrItem then
      { g with maxActArrItem := actionIdAt g.cgd.actionList item.value }
    else g) g

/-- The body of the loop of `setValueLimits` over `redFsm->actionMap`. -/
def setValueLimitsTable (g : FsmCodeGen) (table : RedAction) : FsmCodeGen :=
  let g := if table.actListId + 1 > g.maxActListId then
      { g with maxActListId := table.actListId + 1 } else g
  let g := if table.location + 1 > g.maxActionLoc then
      { g with maxActionLoc := table.location + 1 } else g
  let g := if (table.key.length : Int) > g.maxActArrItem then
      { g with maxActArrItem := table.key.length } else g
  setValueLimitsItems g table.key

/-- `FsmCodeGen::setValueLimits`. -/
def setValueLimits (g : FsmCodeGen) : FsmCodeGen :=
  let g := { g with
    maxSingleLen := 0, maxRangeLen := 0, maxKeyOffset := 0, maxIndexOffset := 0,
    maxActListId := 0, maxActionLoc := 0, maxActArrItem := 0, maxSpan := 0,
    maxCondSpan := 0, maxFlatIndexOffset := 0, maxCondOffset := 0, maxCondLen := 0,
    maxCondSpaceId := 0, maxCondIndexOffset := 0 }
  let g := { g with
    maxIndex := g.redFsm.transSet.length
    maxCond := g.cgd.condSpaceList.length }
  let g := { g with maxState := g.redFsm.nextStateId - 1 }
  let g := setValueLimitsCondSpaces g
  let g := setValueLimitsStates g g.redFsm.stateList
  g.redFsm.actionMap.foldl setValueLimitsTable g

/-- The reduced machine of `/a/`: start state 0 with one single transition on
`'a'` to the final state 1, one transition in `transSet`, no actions; no
state has a flat transition list. -/
def exA : FsmCodeGen :=
  FsmCodeGen.init
    { actionList := [], condSpaceList := [], hasLongestMatch := false }
    { stateList :=
        [ { RedStateAp.bare 0 with
            outSingle := [⟨97, 97, ⟨some 1, none, 0⟩⟩],
            lowKey := 97, highKey := 97 },
          RedStateAp.bare 1 ],
      actionMap := [],
      transSet := [⟨some 1, none, 0⟩],
      nextStateId := 2, startState := some 0, errState := none,
      firstFinState := some 1 }

/-- The reduced machine of `/[a-z]/` with its flat transition list: the start
state has one range transition `'a'..'z'` to the final state. -/
def exAZ : FsmCodeGen :=
  FsmCodeGen.init
    { actionList := [], condSpaceList := [], hasLongestMatch := false }
    { stateList :=
        [ { RedStateAp.bare 0 with
            outRange := [⟨97, 122, ⟨some 1, none, 0⟩⟩],
            transList := some (List.replicate 26 ⟨some 1, none, 0⟩),
            lowKey := 97, highKey := 122 },
          RedStateAp.bare 1 ],
      actionMap := [],
      transSet := [⟨some 1, none, 0⟩],
      nextStateId := 2, startState := some 0, errState := none,
      firstFinState := some 1 }

/-! ## Auxiliary definitions: the state loop of `setValueLimits` -/

/-- The limits the state loop computes, with the machine it reads. -/
def stateLimits (g : FsmCodeGen) : RedFsmAp × Int × Int × Int × Nat × Int × Int × Int × Int :=
  (g.redFsm, g.maxSingleLen, g.maxRangeLen, g.maxCondLen, g.maxSpan, g.maxKeyOffset,
    g.maxIndexOffset, g.maxCondOffset, g.maxIndex)

/-! ## Auxiliary definitions: the span of a flat state -/

/-- The span of the keys of a state, counted only when the state has a flat
transition list. -/
def flatSpan (st : RedStateAp) : Nat :=
  if st.transList.isSome then span st.lowKey st.highKey else 0

/-! ## `analyzeAction`, `analyzeActionList`, `analyzeMachine` -/

/-- The first block of the loop body of `analyzeAction`: the flags set by
items of referenced actions. -/
def analyzeActionRefd (act : Action) (item : InlineItem) (g : FsmCodeGen) : FsmCodeGen :=
  if act.numRefs > 0 then
    if item.type = .Goto ∨ item.type = .GotoExpr then { g with bAnyActionGotos := true }
    else if item.type = .Call ∨ item.type = .CallExpr then { g with bAnyActionCalls := true }
    else if item.type = .Ret then { g with bAnyActionRets := true }
    else g
  else g

/-- The second block of the loop body of `analyzeAction`: the flags set by
items of regular actions.  The six statements write six distinct flags, each
from the item alone, so the block is one record update, flag by flag in
source order. -/
def analyzeActionReg (act : Action) (item : InlineItem) (g : FsmCodeGen) : FsmCodeGen :=
  if act.numTransRefs > 0 ∨ act.numToStateRefs > 0 ∨ act.numFromStateRefs > 0 then
    { g with
      bAnyRegActionRets := if item.type = .Ret then true else g.bAnyRegActionRets
      bAnyRegNextStmt :=
        if item.type = .Next ∨ item.type = .NextExpr then true else g.bAnyRegNextStmt
      bAnyRegActionByValControl :=
        if item.type = .CallExpr ∨ item.type = .GotoExpr then true
        else g.bAnyRegActionByValControl
      bAnyRegCurStateRef := if item.type = .Curs then true else g.bAnyRegCurStateRef
      bAnyRegBreak := if item.type = .Break then true else g.bAnyRegBreak
      bAnyLmSwitchError :=
        if item.type = .LmSwitch ∧ item.handlesError = true then true
        else g.bAnyLmSwitchError }
  else g

mutual
/-- `FsmCodeGen::analyzeAction`: the loop over an inline list. -/
def analyzeAction (act : Action) : FsmCodeGen → List InlineItem → FsmCodeGen
  | g, [] => g
  | g, item :: rest => analyzeAction act (analyzeActionItem act g item) rest
/-- The body of the loop of `analyzeAction` for one item, with the recursion
into its children. -/
def analyzeActionItem (act : Action) : FsmCodeGen → InlineItem → FsmCodeGen
  | g, .mk type data targState lmId offset handlesError none =>
    analyzeActionReg act (.mk type data targState lmId offset handlesError none)
      (analyzeActionRefd act (.mk type data targState lmId offset handlesError none) g)
  | g, .mk type data targState lmId offset handlesError (some children) =>
    analyzeAction act
      (analyzeActionReg act (.mk type data targState lmId offset handlesError (some children))
        (analyzeActionRefd act
          (.mk type data targState lmId offset handlesError (some children)) g))
      children
end

mutual
/-- `FsmCodeGen::analyzeActionList`: the flags of one reduced action table. -/
def analyzeActionList : RedAction → List InlineItem → RedAction
  | redAct, [] => redAct
  | redAct, item :: rest => analyzeActionList (analyzeActionListItem redAct item) rest
/-- The body of the loop of `analyzeActionList` for one item. -/
def analyzeActionListItem : RedAction → InlineItem → RedAction
  | redAct, .mk type _ _ _ _ _ children =>
    let redAct := if type = .Next ∨ type = .NextExpr then
        { redAct with bAnyNextStmt := true } else redAct
    let redAct := if type = .Curs then { redAct with bAnyCurStateRef := true } else redAct
    let redAct := if type = .Break then { redAct with bAnyBreakStmt := true } else redAct
    match children with
    | none => redAct
    | some cs => analyzeActionList redAct cs
end

/-- The read `act->value->inlineList` through the action pointer `p`. -/
def inlineListAt (acts : List Action) (p : Nat) : List InlineItem :=
  match acts[p]? with
  | some a => a.inlineList
  | none => []

/-- Modelled from the spec: `RedAction::anyCurStateRef()`, declared in a
header that is not part of the sources; it tells whether the actions of the
table reference the current state, the flag `bAnyCurStateRef` set by
`analyzeActionList`. -/
def RedAction.anyCurStateRef (a : RedAction) : Bool := a.bAnyCurStateRef

/-- The test `trans->action != 0 && trans->action->anyCurStateRef()`. -/
def transCurStateRef (g : FsmCodeGen) (t : RedTransAp) : Bool :=
  match t.action with
  | none => false
  | some ra =>
    match g.redFsm.actionMap[ra]? with
    | none => false
    | some table => table.anyCurStateRef

/-- The body of the state loop of `analyzeMachine`, on the state. -/
def analyzeMachineState (g : FsmCodeGen) (st : RedStateAp) : RedStateAp :=
  let st := st.outSingle.foldl (fun st rtel =>
    if transCurStateRef g rtel.value then { st with bAnyRegCurStateRef := true } else st) st
  let st := st.outRange.foldl (fun st rtel =>
    if transCurStateRef g rtel.value then { st with bAnyRegCurStateRef := true } else st) st
  match st.defTrans with
  | none => st
  | some t => if transCurStateRef g t then { st with bAnyRegCurStateRef := true } else st

/-- Modelled from the spec: `calcIndexSize`, a virtual method whose overrides
are not part of the sources; the index-size decider stores one layout choice,
a deterministic function `decider` of the computed bounds. -/
def calcIndexSize (decider : FsmCodeGen → Bool) (g : FsmCodeGen) : FsmCodeGen :=
  { g with useIndicies := decider g }

/-- The first statements of the body of the loop of `analyzeMachine` over
`cgd->actionList`: the kinds of actions that occur.  Four distinct flags are
written, each from the action alone. -/
def analyzeMachineKinds (g : FsmCodeGen) (act : Action) : FsmCodeGen :=
  { g with
    bAnyToStateActions := if act.numToStateRefs > 0 then true else g.bAnyToStateActions
    bAnyFromStateActions := if act.numFromStateRefs > 0 then true else g.bAnyFromStateActions
    bAnyEofActions := if act.numEofRefs > 0 then true else g.bAnyEofActions
    bAnyRegActions := if act.numTransRefs > 0 then true else g.bAnyRegActions }

/-- The loop of `analyzeMachine` over `cgd->actionList`. -/
def analyzeMachineActions (g : FsmCodeGen) : FsmCodeGen :=
  g.cgd.actionList.foldl (fun g act =>
    analyzeAction act (analyzeMachineKinds g act) act.inlineList) g

/-- The loop of `analyzeMachine` over `redFsm->actionMap`. -/
def analyzeMachineTables (g : FsmCodeGen) : FsmCodeGen :=
  { g with
    redFsm := { g.redFsm with
      actionMap := g.redFsm.actionMap.map (fun redAct =>
        redAct.key.foldl (fun redAct act =>
          analyzeActionList redAct (inlineListAt g.cgd.actionList act.value)) redAct) } }

/-- The loop of `analyzeMachine` over `redFsm->stateList`. -/
def analyzeMachineStates (g : FsmCodeGen) : FsmCodeGen :=
  { g with
    redFsm := { g.redFsm with stateList := g.redFsm.stateList.map (analyzeMachineState g) }
    bAnyConditions :=
      if g.redFsm.stateList.any (fun st => decide (st.stateCondList.length > 0)) then true
      else g.bAnyConditions }

/-- `FsmCodeGen::analyzeMachine`. -/
def analyzeMachine (decider : FsmCodeGen → Bool) (g : FsmCodeGen) : FsmCodeGen :=
  let g := findFinalActionRefs g
  let g := analyzeMachineActions g
  let g := analyzeMachineTables g
  let g := analyzeMachineStates g
  let g := assignActionIds g
  let g := setValueLimits g
  calcIndexSize decider g

mutual
/-- Some item of the list, at any nesting depth, has a tag satisfying `p`. -/
def hasItem (p : InlineType → Bool) : List InlineItem → Bool
  | [] => false
  | item :: rest => itemHas p item || hasItem p rest
/-- The item or one of its descendants has a tag satisfying `p`. -/
def itemHas (p : InlineType → Bool) : InlineItem → Bool
  | .mk type _ _ _ _ _ none => p type
  | .mk type _ _ _ _ _ (some children) => p type || hasItem p children
end

/-- The tags `Goto` and `GotoExpr`. -/
def isGoto (t : InlineType) : Bool := t = .Goto || t = .GotoExpr

/-- The tags `Call` and `CallExpr`. -/
def isCall (t : InlineType) : Bool := t = .Call || t = .CallExpr

/-- The tag `Ret`. -/
def isRet (t : InlineType) : Bool := t = .Ret

/-- The total number of references to the action `a` in the machine, over
all four classes of slots. -/
def totalRefs (fsm : RedFsmAp) (a : Nat) : Nat :=
  numEntriesReferencing .trans fsm a + numEntriesReferencing .toState fsm a
    + numEntriesReferencing .fromState fsm a + numEntriesReferencing .eof fsm a

/-- A machine whose only referenced action holds a `Goto` inside a nested
sub-action, and whose unreferenced action holds a `Call`. -/
def exNested : FsmCodeGen :=
  FsmCodeGen.init
    { actionList :=
        [ Action.fresh [InlineItem.leaf .Text,
            InlineItem.node .SubAction [InlineItem.node .SubAction [InlineItem.leaf .Goto]]],
          Action.fresh [InlineItem.leaf .Call] ],
      condSpaceList := [], hasLongestMatch := false }
    { stateList :=
        [ { RedStateAp.bare 0 with
            outSingle := [⟨97, 97, ⟨some 1, some 0, 0⟩⟩] },
          RedStateAp.bare 1 ],
      actionMap := [RedAction.fresh [⟨0, 0⟩] 0 0],
      transSet := [⟨some 1, some 0, 0⟩],
      nextStateId := 2, startState := some 0, errState := none,
      firstFinState := some 1 }

/-! ## Auxiliary definitions: the flags of referenced actions -/

/-- The three flags `analyzeAction` sets for referenced actions. -/
def actionFlags (g : FsmCodeGen) : Bool × Bool × Bool :=
  (g.bAnyActionGotos, g.bAnyActionCalls, g.bAnyActionRets)

/-- What `findFinalActionRefs` leaves untouched besides the tables: the three
flags and the inline trees of the actions. -/
def refFrame (g : FsmCodeGen) : (Bool × Bool × Bool) × List (List InlineItem) :=
  (actionFlags g, g.cgd.actionList.map (fun act => act.inlineList))

/-! ## The flags of regular actions, as the specification words them -/

mutual
/-- Some item of the list, at any nesting depth, satisfies `p`. -/
def hasNode (p : InlineItem → Bool) : List InlineItem → Bool
  | [] => false
  | item :: rest => nodeHas p item || hasNode p rest
/-- The item or one of its descendants satisfies `p`. -/
def nodeHas (p : InlineItem → Bool) : InlineItem → Bool
  | .mk type data targState lmId offset handlesError none =>
    p (.mk type data targState lmId offset handlesError none)
  | .mk type data targState lmId offset handlesError (some children) =>
    p (.mk type data targState lmId offset handlesError (some children))
      || hasNode p children
end

/-- The item that raises `bAnyRegActionRets`: a `Ret`. -/
def trigRet (item : InlineItem) : Bool := item.type = .Ret

/-- The items that raise `bAnyRegNextStmt`: `Next` and `NextExpr`. -/
def trigNext (item : InlineItem) : Bool := item.type = .Next || item.type = .NextExpr

/-- The items that raise `bAnyRegActionByValControl`: `CallExpr` and
`GotoExpr`. -/
def trigByVal (item : InlineItem) : Bool := item.type = .CallExpr || item.type = .GotoExpr

/-- The item that raises `bAnyRegCurStateRef`: a `Curs`. -/
def trigCurs (item : InlineItem) : Bool := item.type = .Curs

/-- The item that raises `bAnyRegBreak`: a `Break`. -/
def trigBreak (item : InlineItem) : Bool := item.type = .Break

/-- The item that raises `bAnyLmSwitchError`: an `LmSwitch` that handles the
error. -/
def trigLmError (item : InlineItem) : Bool := item.type = .LmSwitch && item.handlesError

/-- The number of references to the action `a` from transition, to-state and
from-state slots: the references that make an action a regular one. -/
def regularRefs (fsm : RedFsmAp) (a : Nat) : Nat :=
  numEntriesReferencing .trans fsm a + numEntriesReferencing .toState fsm a
    + numEntriesReferencing .fromState fsm a

/-- Every action of the list that holds an item `trig`, at any depth, is
referenced from EOF slots only or not at all. -/
def OnlyEofOrUnreferenced (trig : InlineItem → Bool) (g : FsmCodeGen) : Prop :=
  ∀ (a : Nat) (act : Action), g.cgd.actionList[a]? = some act →
    hasNode trig act.inlineList = true → regularRefs g.redFsm a = 0

/-- The six flags `analyzeAction` sets for regular actions. -/
def regFlags (g : FsmCodeGen) : Bool × Bool × Bool × Bool × Bool × Bool :=
  (g.bAnyRegActionRets, g.bAnyRegNextStmt, g.bAnyRegActionByValControl,
    g.bAnyRegCurStateRef, g.bAnyRegBreak, g.bAnyLmSwitchError)

/-- The test of the second block of `analyzeAction`. -/
def Action.regular (act : Action) : Bool :=
  decide (act.numTransRefs > 0 ∨ act.numToStateRefs > 0 ∨ act.numFromStateRefs > 0)

/-- A machine whose `Ret`, `Next`, `GotoExpr`, `Curs`, `Break` and
error-handling `LmSwitch` all sit in an action hooked as EOF action only,
next to a regular action that holds only text. -/
def exEofOnly : FsmCodeGen :=
  FsmCodeGen.init
    { actionList :=
        [ Action.fresh [InlineItem.leaf .Text],
          Action.fresh [InlineItem.leaf .Ret, InlineItem.leaf .Next,
            InlineItem.node .SubAction [InlineItem.node .GotoExpr [], InlineItem.leaf .Curs],
            InlineItem.leaf .Break,
            .mk .LmSwitch "" none 0 0 true (some [])] ],
      condSpaceList := [], hasLongestMatch := false }
    { stateList :=
        [ { RedStateAp.bare 0 with
            outSingle := [⟨97, 97, ⟨some 1, some 0, 0⟩⟩] },
          { RedStateAp.bare 1 with eofAction := some 1 } ],
      actionMap := [RedAction.fresh [⟨0, 0⟩] 0 0, RedAction.fresh [⟨0, 1⟩] 1 2],
      transSet := [⟨some 1, some 0, 0⟩],
      nextStateId := 2, startState := some 0, errState := none,
      firstFinState := some 1 }

/-! ## The inline expander -/

/-- The stream a piece of text is written to: the argument `ret` of the
expander or the member `out` of the code generator. -/
inductive Dest where
  | ret
  | out
  deriving DecidableEq, Repr

/-- The effect of an emitting method: the pieces of text written, in order,
each with the stream it goes to. -/
abbrev Writes := List (Dest × String)

/-- The statement `ret << s`. -/
def toRet (s : String) : Writes := [(Dest.ret, s)]

/-- The statement `out << s`. -/
def toOut (s : String) : Writes := [(Dest.out, s)]

/-- The concatenation of pieces of text. -/
def concat : List String → String
  | [] => ""
  | s :: rest => s ++ concat rest

/-- The text the stream `ret` receives when it is a stream of its own. -/
def retText (ws : Writes) : String :=
  concat ((ws.filter (fun w => w.1 = Dest.ret)).map (fun w => w.2))

/-- The text the member `out` receives when `ret` is a stream of its own. -/
def outText (ws : Writes) : String :=
  concat ((ws.filter (fun w => w.1 = Dest.out)).map (fun w => w.2))

/-- The text written when `ret` is the member `out` itself. -/
def allText (ws : Writes) : String := concat (ws.map (fun w => w.2))

/-- The read `*p` through a pointer the source takes to be non-null; `d`
stands for the undefined read through a null pointer. -/
def deref {α : Type} (d : α) : Option α → α
  | none => d
  | some x => x

/-- The methods the expander calls and whose bodies are not in
`fsmcodegen.cpp`: the register names declared in the header, and the virtual
methods that the code styles and host languages override.  A virtual method
that takes `ret` returns what it writes. -/
structure Host where
  P : String
  TOKEND : String
  TOKSTART : String
  ACT : String
  NULL_ITEM : String
  GET_KEY : String
  GOTO : Int → Bool → Writes
  CALL : Int → Int → Bool → Writes
  NEXT : Int → Bool → Writes
  RET : Bool → Writes
  CURS : Bool → Writes
  TARGS : Bool → Int → Writes
  GOTO_EXPR : InlineItem → Bool → Writes
  CALL_EXPR : InlineItem → Int → Bool → Writes
  NEXT_EXPR : InlineItem → Bool → Writes
  BREAK : Int → Writes

namespace InlineItem

/-- Field `data`. -/
def data : InlineItem → String
  | .mk _ d _ _ _ _ _ => d

/-- Field `targState`, as the id of the state pointed to. -/
def targState : InlineItem → Option Int
  | .mk _ _ t _ _ _ _ => t

/-- Field `lmId`. -/
def lmId : InlineItem → Int
  | .mk _ _ _ l _ _ _ => l

/-- Field `offset`. -/
def offset : InlineItem → Int
  | .mk _ _ _ _ o _ _ => o

end InlineItem

/-- `FsmCodeGen::EXEC`; `inner` is what the call of `INLINE_LIST` on the
children writes. -/
def EXEC (h : Host) (inner : Writes) : Writes :=
  toRet ("\x7b" ++ h.P ++ " = ((") ++ inner ++ toRet "))-1;\x7d"

/-- `FsmCodeGen::EXECTE`. -/
def EXECTE (h : Host) (inner : Writes) : Writes :=
  toRet ("\x7b" ++ h.TOKEND ++ " = ((") ++ inner ++ toRet "));\x7d"

/-- The body of the loop of `LM_SWITCH` for one child `lma`; `inner` is what
the call of `INLINE_LIST` on the children of `lma` writes. -/
def LM_SWITCH_arm (lmId : Int) (inner : Writes) : Writes :=
  toRet ("\tcase " ++ toString lmId ++ ":\n") ++ toRet "\t\x7b" ++ inner ++ toRet "\x7d\n"
    ++ toRet "\tbreak;\n"

/-- `FsmCodeGen::LM_SWITCH`; `arms` is what the loop over the children
writes. -/
def LM_SWITCH (h : Host) (redFsm : RedFsmAp) (handlesError : Bool) (arms : Writes)
    (inFinish : Bool) : Writes :=
  toRet "\tswitch( act ) \x7b\n"
    ++ (if handlesError then
          toRet ("\tcase 0: " ++ h.TOKEND ++ " = " ++ h.TOKSTART ++ "; ")
            ++ h.GOTO (deref 0 redFsm.errState) inFinish ++ toRet "\n"
        else [])
    ++ arms
    ++ toRet "\tdefault: break;\n\t\x7d\n\t"

/-- `FsmCodeGen::SET_ACT`. -/
def SET_ACT (h : Host) (item : InlineItem) : Writes :=
  toRet (h.ACT ++ " = " ++ toString item.lmId ++ ";")

/-- `FsmCodeGen::SET_TOKEND`: the beginning of the statement goes to `ret`,
the offset and the semicolon go to `out`. -/
def SET_TOKEND (h : Host) (item : InlineItem) : Writes :=
  toRet (h.TOKEND ++ " = " ++ h.P)
    ++ (if item.offset ≠ 0 then toOut ("+" ++ toString item.offset) else [])
    ++ toOut ";"

/-- `FsmCodeGen::GET_TOKEND`. -/
def GET_TOKEND (h : Host) : Writes := toRet h.TOKEND

/-- `FsmCodeGen::INIT_TOKSTART`. -/
def INIT_TOKSTART (h : Host) : Writes := toRet (h.TOKSTART ++ " = " ++ h.NULL_ITEM ++ ";")

/-- `FsmCodeGen::INIT_ACT`. -/
def INIT_ACT (h : Host) : Writes := toRet (h.ACT ++ " = 0;")

/-- `FsmCodeGen::SET_TOKSTART`. -/
def SET_TOKSTART (h : Host) : Writes := toRet (h.TOKSTART ++ " = " ++ h.P ++ ";")

/-- `FsmCodeGen::SUB_ACTION`; `len` is `item->children->length()`. -/
def SUB_ACTION (len : Nat) (inner : Writes) : Writes :=
  if len > 0 then toRet "\x7b" ++ inner ++ toRet "\x7d" else []

mutual
/-- `FsmCodeGen::INLINE_LIST`: the loop over an inline list. -/
def INLINE_LIST (h : Host) (redFsm : RedFsmAp) (targState : Int) (inFinish : Bool) :
    List InlineItem → Writes
  | [] => []
  | item :: rest =>
    INLINE_ITEM h redFsm targState inFinish item
      ++ INLINE_LIST h redFsm targState inFinish rest
/-- The body of the loop of `INLINE_LIST`: the switch on the type of the
item. -/
def INLINE_ITEM (h : Host) (redFsm : RedFsmAp) (targState : Int) (inFinish : Bool) :
    InlineItem → Writes
  | .mk type data targ lmId offset handlesError children =>
    match type with
    | .Text => toRet data
    | .Goto => h.GOTO (deref 0 targ) inFinish
    | .Call => h.CALL (deref 0 targ) targState inFinish
    | .Next => h.NEXT (deref 0 targ) inFinish
    | .Ret => h.RET inFinish
    | .PChar => toRet h.P
    | .Char => toRet h.GET_KEY
    | .Hold => toRet (h.P ++ "--;")
    | .Exec => EXEC h (INLINE_CHILDREN h redFsm targState inFinish children)
    | .HoldTE => toRet (h.TOKEND ++ "--;")
    | .ExecTE => EXECTE h (INLINE_CHILDREN h redFsm targState inFinish children)
    | .Curs => h.CURS inFinish
    | .Targs => h.TARGS inFinish targState
    | .Entry => toRet (toString (deref 0 targ))
    | .GotoExpr =>
      h.GOTO_EXPR (.mk type data targ lmId offset handlesError children) inFinish
    | .CallExpr =>
      h.CALL_EXPR (.mk type data targ lmId offset handlesError children) targState inFinish
    | .NextExpr =>
      h.NEXT_EXPR (.mk type data targ lmId offset handlesError children) inFinish
    | .LmSwitch =>
      LM_SWITCH h redFsm handlesError (LM_SWITCH_arms h redFsm targState inFinish children)
        inFinish
    | .LmSetActId => SET_ACT h (.mk type data targ lmId offset handlesError children)
    | .LmSetTokEnd => SET_TOKEND h (.mk type data targ lmId offset handlesError children)
    | .LmGetTokEnd => GET_TOKEND h
    | .LmInitTokStart => INIT_TOKSTART h
    | .LmInitAct => INIT_ACT h
    | .LmSetTokStart => SET_TOKSTART h
    | .SubAction =>
      SUB_ACTION (deref [] children).length
        (INLINE_CHILDREN h redFsm targState inFinish children)
    | .Break => h.BREAK targState
/-- The call `INLINE_LIST( ret, item->children, targState, inFinish )`. -/
def INLINE_CHILDREN (h : Host) (redFsm : RedFsmAp) (targState : Int) (inFinish : Bool) :
    Option (List InlineItem) → Writes
  | none => []
  | some children => INLINE_LIST h redFsm targState inFinish children
/-- The loop of `LM_SWITCH` over `*item->children`. -/
def LM_SWITCH_arms (h : Host) (redFsm : RedFsmAp) (targState : Int) (inFinish : Bool) :
    Option (List InlineItem) → Writes
  | none => []
  | some children => LM_SWITCH_loop h redFsm targState inFinish children
/-- The loop of `LM_SWITCH`, child after child. -/
def LM_SWITCH_loop (h : Host) (redFsm : RedFsmAp) (targState : Int) (inFinish : Bool) :
    List InlineItem → Writes
  | [] => []
  | lma :: rest =>
    LM_SWITCH_child h redFsm targState inFinish lma
      ++ LM_SWITCH_loop h redFsm targState inFinish rest
/-- The body of the loop of `LM_SWITCH` for the child `lma`. -/
def LM_SWITCH_child (h : Host) (redFsm : RedFsmAp) (targState : Int) (inFinish : Bool) :
    InlineItem → Writes
  | .mk _ _ _ lmId _ _ children =>
    LM_SWITCH_arm lmId (INLINE_CHILDREN h redFsm targState inFinish children)
end

/-- A host with the register names of the C code generator and with control
transfers spelled as plain text. -/
def exHost : Host :=
  { P := "p", TOKEND := "tokend", TOKSTART := "tokstart", ACT := "act",
    NULL_ITEM := "0", GET_KEY := "(*p)",
    GOTO := fun id _ => toRet ("goto st" ++ toString id ++ ";"),
    CALL := fun id _ _ => toRet ("call st" ++ toString id ++ ";"),
    NEXT := fun id _ => toRet ("cs = " ++ toString id ++ ";"),
    RET := fun _ => toRet "ret;",
    CURS := fun _ => toRet "(_ps)",
    TARGS := fun _ t => toRet (toString t),
    GOTO_EXPR := fun _ _ => toRet "gotoexpr;",
    CALL_EXPR := fun _ _ _ => toRet "callexpr;",
    NEXT_EXPR := fun _ _ => toRet "nextexpr;",
    BREAK := fun _ => toRet "break;" }

/-- The machine of the examples of the expander: its error state is the
state 0. -/
def exLmFsm : RedFsmAp :=
  { stateList := [RedStateAp.bare 0, RedStateAp.bare 1], actionMap := [], transSet := [],
    nextStateId := 2, startState := some 1, errState := some 0, firstFinState := none }

/-- A text item. -/
def InlineItem.text (s : String) : InlineItem := .mk .Text s none 0 0 false none

/-- An `LmSwitch` that handles the error, with the two children `lmId = 1`
and `lmId = 2`. -/
def exLmSwitch : InlineItem :=
  .mk .LmSwitch "" none 0 0 true
    (some [ .mk .SubAction "" none 1 0 false (some [InlineItem.text "a();"]),
            .mk .SubAction "" none 2 0 false (some [InlineItem.text "b();"]) ])

/-- An `LmSetTokEnd` item with the given offset. -/
def InlineItem.setTokEnd (offset : Int) : InlineItem :=
  .mk .LmSetTokEnd "" none 0 offset false none

/-- The arm of the switch for the child `lma`, as text: the case label, the
expansion of the child's inline list inside one pair of braces, and the
break; `text` reads the text off a sequence of writes. -/
def lmArmText (text : Writes → String) (h : Host) (redFsm : RedFsmAp) (targState : Int)
    (inFinish : Bool) (lma : InlineItem) : String :=
  "\tcase " ++ toString lma.lmId ++ ":\n" ++ "\t\x7b"
    ++ text (INLINE_CHILDREN h redFsm targState inFinish lma.children) ++ "\x7d\n"
    ++ "\tbreak;\n"

/-- The switch of an `LmSwitch` item, as text: the head, the `case 0` arm
when the item handles the error, the arms of the children in child order,
the default arm and the closing brace. -/
def lmSwitchText (text : Writes → String) (h : Host) (redFsm : RedFsmAp) (targState : Int)
    (inFinish : Bool) (handlesError : Bool) (children : List InlineItem) : String :=
  "\tswitch( act ) \x7b\n"
    ++ (if handlesError then
          "\tcase 0: " ++ h.TOKEND ++ " = " ++ h.TOKSTART ++ "; "
            ++ text (h.GOTO (deref 0 redFsm.errState) inFinish) ++ "\n"
        else "")
    ++ concat (children.map (lmArmText text h redFsm targState inFinish))
    ++ "\tdefault: break;\n\t\x7d\n\t"

/-! ## The Graphviz generator: data model

A shallow embedding of `src/ragel/dotcodegen.cc` (class `InputData`), which
works on the machine before reduction.  The classes of this part are those of
the front end; they live in the namespace `Dot`. -/

namespace Dot

/-- An action of the front end, given by the text its method `actionName`
writes (the method is declared in a header that is not part of the
sources). -/
structure Action where
  actionName : String
  deriving DecidableEq, Repr

/-- A condition space: the set of its condition actions, in order. -/
structure CondSpace where
  condSet : List Action
  deriving DecidableEq, Repr

/-- What the generator reads through a pointer to a target state: its number
and its to-state action table. -/
structure ToState where
  stateNum : Int
  toStateActionTable : List Action
  deriving DecidableEq, Repr

/-- A condition transition (`CondAp`); an action table is the list of its
actions in table order. -/
structure CondAp where
  lowKey : Int
  toState : Option ToState
  actionTable : List Action
  deriving DecidableEq, Repr

/-- A transition (`TransAp`) with its list of condition transitions. -/
structure TransAp where
  lowKey : Int
  highKey : Int
  condSpace : Option CondSpace
  ctList : List CondAp
  deriving DecidableEq, Repr

/-- A state (`StateAp`); `stateNum` is `alg.stateNum`, `isFinState` the
result of the method of that name. -/
structure StateAp where
  stateNum : Int
  outList : List TransAp
  fromStateActionTable : List Action
  eofActionTable : List Action
  isFinState : Bool
  deriving DecidableEq, Repr

/-- An element of the entry map: the name id and the number of the state
pointed to. -/
structure EntryMapEl where
  key : Int
  value : Int
  deriving DecidableEq, Repr

/-- The machine (`FsmAp`); `startState` is the number of the start state. -/
structure FsmAp where
  startState : Option Int
  entryPoints : List EntryMapEl
  stateList : List StateAp
  deriving DecidableEq, Repr

/-- A name instance with its nullable name and its nullable parent. -/
inductive NameInst where
  | mk (name : Option String) (parent : Option NameInst)

/-- The part of `ParseData` the generator reads. -/
structure ParseData where
  sectionName : String
  sectionGraph : FsmAp
  nameIndex : Int → NameInst

/-- The alphabet operations `keyOps`; `isPrintable` is the method
`Key::isPrintable`, declared in a header that is not part of the sources. -/
structure KeyOps where
  isSigned : Bool
  isPrintable : Int → Bool

/-- The fields of `InputData` the generator reads; `pd` is
`dotGenParser->pd`. -/
structure InputData where
  displayPrintables : Bool
  keyOps : KeyOps
  pd : ParseData

/-! ## `KEY` -/

/-- The conversion `(char) key.getVal()`: the low byte of the key. -/
def cVal (key : Int) : Char := Char.ofNat (key % 256).toNat

/-- The switch of `KEY` on the character `cVal`. -/
def keyGlyph (cVal : Char) : String :=
  if cVal = '"' ∨ cVal = '\\' then "'\\" ++ String.singleton cVal ++ "'"
  else if cVal = '\x07' then "'\\\\a'"
  else if cVal = '\x08' then "'\\\\b'"
  else if cVal = '\t' then "'\\\\t'"
  else if cVal = '\n' then "'\\\\n'"
  else if cVal = '\x0b' then "'\\\\v'"
  else if cVal = '\x0c' then "'\\\\f'"
  else if cVal = '\r' then "'\\\\r'"
  else if cVal = ' ' then "SP"
  else "'" ++ String.singleton cVal ++ "'"

/-- The conversion `(unsigned long) key.getVal()`, on 64 bits. -/
def asUnsigned (key : Int) : Nat := (key % 2 ^ 64).toNat

/-- The else branch of `KEY`: the key as a number. -/
def keyNumber (d : InputData) (key : Int) : String :=
  if d.keyOps.isSigned then toString key else toString (asUnsigned key)

/-- `InputData::KEY`: the text written to `out`. -/
def KEY (d : InputData) (key : Int) : String :=
  if d.displayPrintables && d.keyOps.isPrintable key then keyGlyph (cVal key)
  else keyNumber d key

/-! ## `ONCHAR` -/

/-- The `int` value `1 << pos`, converted to `long`, as the compilers for
x86 compute it: the count is taken modulo 32 and bit 31 is the sign bit.  The
C standard defines the shift for `pos < 31` only, where it is `2 ^ pos`. -/
def shl1 (pos : Nat) : Int := if pos % 32 < 31 then 2 ^ (pos % 32) else -(2 ^ 31)

/-- The loop of `ONCHAR` over the condition set; `pos` is `csi.pos()`. -/
def ONCHAR_conds (condVals : Int) : Nat → List Action → String
  | _, [] => ""
  | pos, csi :: rest =>
    (if Int.land condVals (shl1 pos) ≠ 0 then "" else "!")
      ++ csi.actionName
      ++ (if !rest.isEmpty then ", " else "")
      ++ ONCHAR_conds condVals (pos + 1) rest

/-- `InputData::ONCHAR`: the text written to `out`. -/
def ONCHAR (d : InputData) (lowKey highKey : Int) (condSpace : Option CondSpace)
    (condVals : Int) : String :=
  KEY d lowKey
    ++ (if highKey ≠ lowKey then ".." ++ KEY d highKey else "")
    ++ (match condSpace with
        | none => ""
        | some cs => "(" ++ ONCHAR_conds condVals 0 cs.condSet ++ ")")

/-! ## `TRANS_ACTION`, `ACTION`, `makeNameInst` -/

/-- The inner loop of `TRANS_ACTION` over the actions of the table `a` of
`n`. -/
def TRANS_ACTION_items (n a : Nat) : List Action → String
  | [] => ""
  | action :: rest =>
    action.actionName
      ++ (if a + 1 < n ∨ !rest.isEmpty then ", " else "")
      ++ TRANS_ACTION_items n a rest

/-- The outer loop of `TRANS_ACTION` over `actionTables[a]`, `a < n`. -/
def TRANS_ACTION_tables (n : Nat) : Nat → List (List Action) → String
  | _, [] => ""
  | a, table :: rest => TRANS_ACTION_items n a table ++ TRANS_ACTION_tables n (a + 1) rest

/-- `InputData::TRANS_ACTION`: the text written to `out`. -/
def TRANS_ACTION (fromState : StateAp) (trans : CondAp) : String :=
  let actionTables : List (List Action) :=
    (if fromState.fromStateActionTable.length ≠ 0 then [fromState.fromStateActionTable]
      else [])
    ++ (if trans.actionTable.length ≠ 0 then [trans.actionTable] else [])
    ++ (match trans.toState with
        | none => []
        | some targ =>
          if targ.toStateActionTable.length ≠ 0 then [targ.toStateActionTable] else [])
  (if actionTables.length > 0 then " / " else "")
    ++ TRANS_ACTION_tables actionTables.length 0 actionTables

/-- The loop of `ACTION` over the action table. -/
def ACTION_items : List Action → String
  | [] => ""
  | action :: rest =>
    action.actionName ++ (if !rest.isEmpty then ", " else "") ++ ACTION_items rest

/-- `InputData::ACTION`: the text written to `out`. -/
def ACTION (actionTable : List Action) : String := " / " ++ ACTION_items actionTable

/-- `InputData::makeNameInst`: the string `res` after the call and the
returned flag. -/
def makeNameInst (res : String) : NameInst → String × Bool
  | .mk name none =>
    match name with
    | some nm => (res ++ nm, true)
    | none => (res, false)
  | .mk name (some parent) =>
    match name with
    | some nm =>
      ((if (makeNameInst res parent).2 then (makeNameInst res parent).1 ++ "_"
        else (makeNameInst res parent).1) ++ nm, true)
    | none => makeNameInst res parent

/-! ## `writeTransList`, `writeDot` -/

/-- The body of the inner loop of `writeTransList`: one edge. -/
def writeTransList_edge (d : InputData) (state : StateAp) (tel : TransAp) (ctel : CondAp) :
    String :=
  "\t" ++ toString state.stateNum ++ " -> "
    ++ (match ctel.toState with
        | none => "err_" ++ toString state.stateNum
        | some targ => toString targ.stateNum)
    ++ " [ label = \""
    ++ ONCHAR d tel.lowKey tel.highKey tel.condSpace ctel.lowKey
    ++ TRANS_ACTION state ctel
    ++ "\" ];\n"

/-- `InputData::writeTransList`: `out` after the call. -/
def writeTransList (d : InputData) (out : String) (state : StateAp) : String :=
  state.outList.foldl (fun out tel =>
    tel.ctList.foldl (fun out ctel => out ++ writeTransList_edge d state tel ctel) out) out

/-- The flag `needsErr` of `writeDot` for a state: some condition transition
of the state has no target.  (The `break` of the source leaves the inner loop
once the flag is set.) -/
def needsErr (st : StateAp) : Bool :=
  st.outList.any (fun tel => tel.ctList.any (fun ctel => ctel.toState.isNone))

/-- `InputData::writeDot`: the text written to `out`. -/
def writeDot (d : InputData) : String :=
  let pd := d.pd
  let graph := pd.sectionGraph
  let out := "digraph " ++ pd.sectionName ++ " \x7b\n" ++ "\trankdir=LR;\n"
  let out := out ++ "\tnode [ shape = point ];\n"
  let out := if graph.startState.isSome then out ++ "\tENTRY;\n" else out
  let out := graph.entryPoints.foldl (fun out en =>
    out ++ ("\ten_" ++ toString en.value ++ ";\n")) out
  let out := graph.stateList.foldl (fun out st =>
    if st.eofActionTable.length > 0 then out ++ ("\teof_" ++ toString st.stateNum ++ ";\n")
    else out) out
  let out := out ++ "\tnode [ shape = circle, height = 0.2 ];\n"
  let out := graph.stateList.foldl (fun out st =>
    if needsErr st then out ++ ("\terr_" ++ toString st.stateNum ++ " [ label=\"\"];\n")
    else out) out
  let out := out ++ "\tnode [ fixedsize = true, height = 0.65, shape = doublecircle ];\n"
  let out := graph.stateList.foldl (fun out st =>
    if st.isFinState then out ++ ("\t" ++ toString st.stateNum ++ ";\n") else out) out
  let out := out ++ "\tnode [ shape = circle ];\n"
  let out := graph.stateList.foldl (fun out st => writeTransList d out st) out
  let out := match graph.startState with
    | some start => out ++ ("\tENTRY -> " ++ toString start ++ " [ label = \"IN\" ];\n")
    | none => out
  let out := graph.entryPoints.foldl (fun out en =>
    out ++ ("\ten_" ++ toString en.value ++ " -> " ++ toString en.value
      ++ " [ label = \"" ++ (makeNameInst "" (pd.nameIndex en.key)).1 ++ "\" ];\n")) out
  let out := graph.stateList.foldl (fun out st =>
    if st.eofActionTable.length ≠ 0 then
      out ++ ("\t" ++ toString st.stateNum ++ " -> eof_" ++ toString st.stateNum
        ++ " [ label = \"EOF" ++ ACTION st.eofActionTable ++ "\" ];\n")
    else out) out
  out ++ "\x7d\n"

end Dot

namespace Dot

/-- The characters the switch of `KEY` treats apart: the double quote, the
backslash, the seven C escapes and the space. -/
def specialChars : List Char :=
  ['"', '\\', '\x07', '\x08', '\t', '\n', '\x0b', '\x0c', '\r', ' ']

/-- An alphabet with the printable keys of ASCII: the C escapes 7 to 13 and
the characters from the space to the tilde. -/
def exKeys (displayPrintables isSigned : Bool) : InputData :=
  { displayPrintables := displayPrintables,
    keyOps :=
      { isSigned := isSigned,
        isPrintable := fun k => decide ((7 ≤ k ∧ k ≤ 13) ∨ (32 ≤ k ∧ k ≤ 126)) },
    pd :=
      { sectionName := "m",
        sectionGraph := { startState := none, entryPoints := [], stateList := [] },
        nameIndex := fun _ => .mk none none } }

end Dot
namespace Dot

/-- A reader of the labels `KEY` writes for printable keys: `SP`, a quoted
character, a quoted character after one backslash, a quoted letter after two
backslashes. -/
def parseLabel (l : List Char) : Option Int :=
  match l with
  | [a, b] => if a = 'S' ∧ b = 'P' then some 32 else none
  | [q1, c, q2] => if q1 = '\'' ∧ q2 = '\'' then some (c.toNat : Int) else none
  | [q1, b, c, q2] =>
    if q1 = '\'' ∧ b = '\\' ∧ q2 = '\'' then some (c.toNat : Int) else none
  | [q1, b1, b2, x, q2] =>
    if q1 = '\'' ∧ b1 = '\\' ∧ b2 = '\\' ∧ q2 = '\'' then
      if x = 'a' then some 7
      else if x = 'b' then some 8
      else if x = 't' then some 9
      else if x = 'n' then some 10
      else if x = 'v' then some 11
      else if x = 'f' then some 12
      else if x = 'r' then some 13
      else none
    else none
  | _ => none

/-- The values of a `long` of 64 bits, the type of a key. -/
def inLong (k : Int) : Prop := -(2 ^ 63) ≤ k ∧ k < 2 ^ 63

end Dot

namespace Dot

/-- The pieces of text `l` separated by `sep`, with no separator after the
last. -/
def joinWith (sep : String) : List String → String
  | [] => ""
  | [s] => s
  | s :: t :: rest => s ++ sep ++ joinWith sep (t :: rest)

/-- The name of the condition at position `i` of the condition set, with a
`!` in front exactly when bit `i` of `condVals` is 0. -/
def condName (condVals : Int) (i : Nat) (a : Action) : String :=
  (if condVals.testBit i then "" else "!") ++ a.actionName

/-- The label of a transition as the specification words it: the key or the
range of keys, followed, when there is a condition space, by the
parenthesised list of its condition names. -/
def onCharSpec (d : InputData) (lowKey highKey : Int) (condSpace : Option CondSpace)
    (condVals : Int) : String :=
  (if highKey = lowKey then KEY d lowKey else KEY d lowKey ++ ".." ++ KEY d highKey)
    ++ (match condSpace with
        | none => ""
        | some cs =>
          "(" ++ joinWith ", " (cs.condSet.enum.map (fun p => condName condVals p.1 p.2))
            ++ ")")

/-- A condition space with the two conditions `c0` and `c1`. -/
def exCondSpace : CondSpace := { condSet := [⟨"c0"⟩, ⟨"c1"⟩] }

end Dot

namespace Dot

/-! ## The statements of the Graphviz document -/

/-- The four `node [ ... ]` lines of the document. -/
inductive NodeAttr where
  | point
  | smallCircle
  | doubleCircle
  | circle
  deriving DecidableEq, Repr

/-- A statement of the document `writeDot` writes. -/
inductive DotStmt where
  | digraph (name : String)
  | nodeAttr (a : NodeAttr)
  | entryNode
  | enNode (n : Int)
  | eofNode (n : Int)
  | errNode (n : Int)
  | finalNode (n : Int)
  | trans (src : Int) (dst : Option Int) (label : String)
  | entryEdge (n : Int)
  | enEdge (n : Int) (name : String)
  | eofEdge (n : Int) (label : String)
  | close
  deriving DecidableEq, Repr

/-- The text of a `node [ ... ]` line. -/
def NodeAttr.render : NodeAttr → String
  | .point => "\tnode [ shape = point ];\n"
  | .smallCircle => "\tnode [ shape = circle, height = 0.2 ];\n"
  | .doubleCircle => "\tnode [ fixedsize = true, height = 0.65, shape = doublecircle ];\n"
  | .circle => "\tnode [ shape = circle ];\n"

/-- The text of a statement, as `writeDot` and `writeTransList` spell it. -/
def DotStmt.render : DotStmt → String
  | .digraph name => "digraph " ++ name ++ " \x7b\n" ++ "\trankdir=LR;\n"
  | .nodeAttr a => a.render
  | .entryNode => "\tENTRY;\n"
  | .enNode n => "\ten_" ++ toString n ++ ";\n"
  | .eofNode n => "\teof_" ++ toString n ++ ";\n"
  | .errNode n => "\terr_" ++ toString n ++ " [ label=\"\"];\n"
  | .finalNode n => "\t" ++ toString n ++ ";\n"
  | .trans src dst label =>
    "\t" ++ toString src ++ " -> "
      ++ (match dst with
          | none => "err_" ++ toString src
          | some targ => toString targ)
      ++ " [ label = \"" ++ label ++ "\" ];\n"
  | .entryEdge n => "\tENTRY -> " ++ toString n ++ " [ label = \"IN\" ];\n"
  | .enEdge n name =>
    "\ten_" ++ toString n ++ " -> " ++ toString n ++ " [ label = \"" ++ name ++ "\" ];\n"
  | .eofEdge n label =>
    "\t" ++ toString n ++ " -> eof_" ++ toString n ++ " [ label = \"" ++ label ++ "\" ];\n"
  | .close => "\x7d\n"

/-- The edge statements of a state, in the order of `writeTransList`. -/
def transStmts (d : InputData) (st : StateAp) : List DotStmt :=
  (st.outList.map (fun tel =>
    tel.ctList.map (fun ctel =>
      DotStmt.trans st.stateNum (ctel.toState.map (fun targ => targ.stateNum))
        (ONCHAR d tel.lowKey tel.highKey tel.condSpace ctel.lowKey
          ++ TRANS_ACTION st ctel)))).flatten

/-- The declarations of the pseudo-nodes `ENTRY`, `en_<id>` and `eof_<id>`, in
the order `writeDot` writes them. -/
def pseudoDecls (d : InputData) : List DotStmt :=
  (if d.pd.sectionGraph.startState.isSome then [DotStmt.entryNode] else [])
    ++ d.pd.sectionGraph.entryPoints.map (fun en => DotStmt.enNode en.value)
    ++ (d.pd.sectionGraph.stateList.filter
          (fun st => decide (st.eofActionTable.length > 0))).map
        (fun st => DotStmt.eofNode st.stateNum)

/-- The declarations of the pseudo-nodes `err_<id>`. -/
def errDecls (d : InputData) : List DotStmt :=
  (d.pd.sectionGraph.stateList.filter needsErr).map (fun st => DotStmt.errNode st.stateNum)

/-- The declarations of the final states. -/
def finalDecls (d : InputData) : List DotStmt :=
  (d.pd.sectionGraph.stateList.filter (fun st => st.isFinState)).map
    (fun st => DotStmt.finalNode st.stateNum)

/-- The edges: those of the states, the one into the start state, those of
the entry points and those to the EOF pseudo-nodes. -/
def edgeStmts (d : InputData) : List DotStmt :=
  (d.pd.sectionGraph.stateList.map (transStmts d)).flatten
    ++ (match d.pd.sectionGraph.startState with
        | some start => [DotStmt.entryEdge start]
        | none => [])
    ++ d.pd.sectionGraph.entryPoints.map (fun en =>
        DotStmt.enEdge en.value (makeNameInst "" (d.pd.nameIndex en.key)).1)
    ++ (d.pd.sectionGraph.stateList.filter
          (fun st => decide (st.eofActionTable.length ≠ 0))).map
        (fun st => DotStmt.eofEdge st.stateNum ("EOF" ++ ACTION st.eofActionTable))

/-- The statements of the document, in the order `writeDot` writes them. -/
def dotStmts (d : InputData) : List DotStmt :=
  [DotStmt.digraph d.pd.sectionName, DotStmt.nodeAttr .point]
    ++ pseudoDecls d
    ++ [DotStmt.nodeAttr .smallCircle]
    ++ errDecls d
    ++ [DotStmt.nodeAttr .doubleCircle]
    ++ finalDecls d
    ++ [DotStmt.nodeAttr .circle]
    ++ edgeStmts d
    ++ [DotStmt.close]

/-- The `node [ ... ]` line in force at each statement: every statement
paired with the nearest `node [ ... ]` line before it. -/
def governed : Option NodeAttr → List DotStmt → List (DotStmt × Option NodeAttr)
  | _, [] => []
  | cur, .nodeAttr a :: rest => (.nodeAttr a, cur) :: governed (some a) rest
  | cur, s :: rest => (s, cur) :: governed cur rest

/-- The declarations of the pseudo-nodes `ENTRY`, `en_<id>` and
`eof_<id>`. -/
def DotStmt.isPointPseudo : DotStmt → Bool
  | .entryNode => true
  | .enNode _ => true
  | .eofNode _ => true
  | _ => false

/-- The declarations of the pseudo-nodes `err_<id>`. -/
def DotStmt.isErrNode : DotStmt → Bool
  | .errNode _ => true
  | _ => false

/-- The declarations of final states. -/
def DotStmt.isFinalNode : DotStmt → Bool
  | .finalNode _ => true
  | _ => false

/-- The edges; the states that are not final are first named in an edge. -/
def DotStmt.isEdge : DotStmt → Bool
  | .trans _ _ _ => true
  | .entryEdge _ => true
  | .enEdge _ _ => true
  | .eofEdge _ _ => true
  | _ => false

/-- The `node [ ... ]` line `a` in force suits the statement `s`: `point` for
`ENTRY`, `en_<id>` and `eof_<id>`, the small circle for `err_<id>`, the double
circle for a final state and the circle for an edge. -/
def Suits (s : DotStmt) (a : Option NodeAttr) : Prop :=
  (s.isPointPseudo = true → a = some .point)
    ∧ (s.isErrNode = true → a = some .smallCircle)
    ∧ (s.isFinalNode = true → a = some .doubleCircle)
    ∧ (s.isEdge = true → a = some .circle)

/-- A statement other than a `node [ ... ]` line. -/
def DotStmt.isPlain : DotStmt → Bool
  | .nodeAttr _ => false
  | _ => true

/-- A machine with the start state 0, which has a transition on `'a'` to the
final state 1 and a transition on `'b'` without target, and an EOF action
`E` on the final state. -/
def exDot : InputData :=
  { displayPrintables := true,
    keyOps :=
      { isSigned := true,
        isPrintable := fun k => decide ((7 ≤ k ∧ k ≤ 13) ∨ (32 ≤ k ∧ k ≤ 126)) },
    pd :=
      { sectionName := "m",
        sectionGraph :=
          { startState := some 0,
            entryPoints := [],
            stateList :=
              [ { stateNum := 0,
                  outList :=
                    [ { lowKey := 97, highKey := 97, condSpace := none,
                        ctList := [{ lowKey := 0, toState := some ⟨1, []⟩, actionTable := [] }] },
                      { lowKey := 98, highKey := 98, condSpace := none,
                        ctList := [{ lowKey := 0, toState := none, actionTable := [] }] } ],
                  fromStateActionTable := [], eofActionTable := [], isFinState := false },
                { stateNum := 1, outList := [], fromStateActionTable := [],
                  eofActionTable := [⟨"E"⟩], isFinState := true } ] },
        nameIndex := fun _ => .mk none none } }

end Dot

/-! ## Auxiliary definitions: the input of `setValueLimits` -/

/-- What `setValueLimits` reads and does not write: the action list, the
reduced machine, and the limit `maxState` once it is set. -/
def limitsInput (g : FsmCodeGen) : List Action × RedFsmAp × Int :=
  (g.cgd.actionList, g.redFsm, g.maxState)

/-! ## `ERROR_STATE`, `FIRST_FINAL_STATE` -/

/-- `FsmCodeGen::ERROR_STATE`: the returned string; `redFsm->errState` is read
for its id only. -/
def ERROR_STATE (g : FsmCodeGen) : String :=
  match g.redFsm.errState with
  | some errState => toString errState
  | none => "-1"

/-- `FsmCodeGen::FIRST_FINAL_STATE`: the returned string. -/
def FIRST_FINAL_STATE (g : FsmCodeGen) : String :=
  match g.redFsm.firstFinState with
  | some firstFinState => toString firstFinState
  | none => toString g.redFsm.nextStateId

/-- The code generator of the machine of the expander examples, whose error
state is the state 0 and which has no final state. -/
def exErr : FsmCodeGen :=
  FsmCodeGen.init { actionList := [], condSpaceList := [], hasLongestMatch := false } exLmFsm

/-! ## The host-language adapters -/

/-- The statement `assert( c )` with assertions compiled in: the program goes
on when `c` holds and is aborted otherwise (`none`). -/
def assert (c : Bool) : Option Unit := if c then some () else none

namespace CCodeGen

/-- `CCodeGen::PTR_CONST`. -/
def PTR_CONST : String := "const "

/-- `CCodeGen::UINT`. -/
def UINT : String := "unsigned int"

/-- `CCodeGen::NULL_ITEM`. -/
def NULL_ITEM : String := "0"

/-- `CCodeGen::POINTER`. -/
def POINTER : String := " *"

end CCodeGen

namespace DCodeGen

/-- `DCodeGen::NULL_ITEM`. -/
def NULL_ITEM : String := "null"

/-- `DCodeGen::POINTER`. -/
def POINTER : String := "* "

/-- `DCodeGen::PTR_CONST`. -/
def PTR_CONST : String := ""

/-- `DCodeGen::UINT`. -/
def UINT : String := "uint"

end DCodeGen

namespace JavaCodeGen

/-- `JavaCodeGen::PTR_CONST`: the assertion fails before the `return`. -/
def PTR_CONST : Option String := do
  assert false
  return "final"

/-- `JavaCodeGen::UINT`: the assertion fails before the `return`. -/
def UINT : Option String := do
  assert false
  return "long"

/-- `JavaCodeGen::NULL_ITEM`. -/
def NULL_ITEM : String := "-1"

/-- `JavaCodeGen::POINTER`: the assertion fails before the `return`. -/
def POINTER : Option String := do
  assert false
  return " *"

end JavaCodeGen

/-- The three adapters of `fsmcodegen.cpp`: the classes `CCodeGen`, `DCodeGen`
and `JavaCodeGen`, which override the virtual methods of `FsmCodeGen`. -/
inductive Adapter where
  | C
  | D
  | Java
  deriving DecidableEq, Repr

namespace Adapter

/-- The virtual call `POINTER()` on an adapter: the token returned, or `none`
when the call is aborted by an assertion. -/
def POINTER : Adapter → Option String
  | .C => some CCodeGen.POINTER
  | .D => some DCodeGen.POINTER
  | .Java => JavaCodeGen.POINTER

/-- The virtual call `PTR_CONST()` on an adapter. -/
def PTR_CONST : Adapter → Option String
  | .C => some CCodeGen.PTR_CONST
  | .D => some DCodeGen.PTR_CONST
  | .Java => JavaCodeGen.PTR_CONST

/-- The virtual call `UINT()` on an adapter. -/
def UINT : Adapter → Option String
  | .C => some CCodeGen.UINT
  | .D => some DCodeGen.UINT
  | .Java => JavaCodeGen.UINT

/-- The virtual call `NULL_ITEM()` on an adapter; no adapter fails on it. -/
def NULL_ITEM : Adapter → String
  | .C => CCodeGen.NULL_ITEM
  | .D => DCodeGen.NULL_ITEM
  | .Java => JavaCodeGen.NULL_ITEM

end Adapter

/-! ## `writeOutInit` -/

/-- `FsmCodeGen::anyActionCalls`, an accessor of the header: the flag
`bAnyActionCalls`. -/
def anyActionCalls (g : FsmCodeGen) : Bool := g.bAnyActionCalls

/-- `FsmCodeGen::anyActionRets`, an accessor of the header: the flag
`bAnyActionRets`. -/
def anyActionRets (g : FsmCodeGen) : Bool := g.bAnyActionRets

/-- The strings returned by the methods `CS()`, `START()` and `TOP()`, which
name the current state, the start state and the top of the call stack in the
generated code (`START` and `TOP` are declared in the header). -/
structure InitNames where
  CS : String
  START : String
  TOP : String

/-- `FsmCodeGen::writeOutInit`: the text written to `out`. -/
def writeOutInit (h : Host) (nm : InitNames) (g : FsmCodeGen) : String :=
  let out := "\t\x7b\n"
  let out := out ++ "\t" ++ nm.CS ++ " = " ++ nm.START ++ ";\n"
  let out := if anyActionCalls g || anyActionRets g then
      out ++ "\t" ++ nm.TOP ++ " = 0;\n" else out
  let out := if g.cgd.hasLongestMatch then
      out ++ "\t" ++ h.TOKSTART ++ " = " ++ h.NULL_ITEM ++ ";\n"
        ++ "\t" ++ h.TOKEND ++ " = " ++ h.NULL_ITEM ++ ";\n"
        ++ "\t" ++ h.ACT ++ " = 0;\n"
    else out
  out ++ "\t\x7d\n"

/-- The registers the init routine writes. -/
inductive Reg where
  | cs
  | top
  | tokstart
  | tokend
  | act
  deriving DecidableEq, Repr

/-- The values the init routine assigns: the start state, the literal `0`
and the null item of the adapter. -/
inductive InitVal where
  | start
  | zero
  | nullItem
  deriving DecidableEq, Repr

/-- A line of the init routine: the braces and the assignments. -/
inductive InitStmt where
  | opening
  | assign (r : Reg) (v : InitVal)
  | closing
  deriving DecidableEq, Repr

/-- The name of a register in the generated code. -/
def Reg.name (h : Host) (nm : InitNames) : Reg → String
  | .cs => nm.CS
  | .top => nm.TOP
  | .tokstart => h.TOKSTART
  | .tokend => h.TOKEND
  | .act => h.ACT

/-- The text of a value in the generated code. -/
def InitVal.render (h : Host) (nm : InitNames) : InitVal → String
  | .start => nm.START
  | .zero => "0"
  | .nullItem => h.NULL_ITEM

/-- The text of a line of the init routine, as `writeOutInit` spells it. -/
def InitStmt.render (h : Host) (nm : InitNames) : InitStmt → String
  | .opening => "\t\x7b\n"
  | .assign r v => "\t" ++ r.name h nm ++ " = " ++ v.render h nm ++ ";\n"
  | .closing => "\t\x7d\n"

/-- The lines of the init routine, in the order `writeOutInit` writes
them. -/
def initStmts (g : FsmCodeGen) : List InitStmt :=
  [InitStmt.opening, InitStmt.assign .cs .start]
    ++ (if anyActionCalls g || anyActionRets g then [InitStmt.assign .top .zero] else [])
    ++ (if g.cgd.hasLongestMatch then
          [InitStmt.assign .tokstart .nullItem, InitStmt.assign .tokend .nullItem,
            InitStmt.assign .act .zero]
        else [])
    ++ [InitStmt.closing]

/-- The host of the examples with the null item of the given adapter. -/
def exHostOf (a : Adapter) : Host := { exHost with NULL_ITEM := a.NULL_ITEM }

/-- The names of the C code generator without access expression. -/
def exNames : InitNames := { CS := "cs", START := "m_start", TOP := "top" }

/-- A code generator for a machine with a longest-match construct whose
actions hold no call and no return. -/
def exLm : FsmCodeGen :=
  FsmCodeGen.init { actionList := [], condSpaceList := [], hasLongestMatch := true } exLmFsm

/-- The text `text` holds the line that assigns `0` to the register spelled
`name`, as `writeOutInit` lays its lines out. -/
def zeroes (name : String) (text : String) : Prop :=
  ("\t" ++ name ++ " = 0;").toList ∈ linesOf text.toList

instance (name text : String) : Decidable (zeroes name text) := by
  unfold zeroes
  exact inferInstance

namespace Dot

/-- The declarations of the pseudo-nodes: `ENTRY`, `en_<id>`, `eof_<id>` and
`err_<id>`. -/
def DotStmt.isPseudoNode (s : DotStmt) : Bool := s.isPointPseudo || s.isErrNode

/-- The part of the document a statement belongs to: the heading (0), the
declarations of the pseudo-nodes with their two `node [ ... ]` lines (1), the
declarations of the final states with their `node [ ... ]` line (2), the
edges with their `node [ ... ]` line (3) and the closing brace (4). -/
def DotStmt.stage : DotStmt → Nat
  | .digraph _ => 0
  | .nodeAttr .point => 1
  | .nodeAttr .smallCircle => 1
  | .entryNode => 1
  | .enNode _ => 1
  | .eofNode _ => 1
  | .errNode _ => 1
  | .nodeAttr .doubleCircle => 2
  | .finalNode _ => 2
  | .nodeAttr .circle => 3
  | .trans _ _ _ => 3
  | .entryEdge _ => 3
  | .enEdge _ _ => 3
  | .eofEdge _ _ => 3
  | .close => 4

end Dot

namespace Dot

/-- The action names of a transition out of `fromState`, in the order the
specification gives them: those of the from-state action table of the source
state, those of the action table of the transition and those of the to-state
action table of the destination state; an absent destination has none. -/
def transActionNames (fromState : StateAp) (trans : CondAp) : List String :=
  (fromState.fromStateActionTable ++ trans.actionTable
    ++ (match trans.toState with
        | none => []
        | some targ => targ.toStateActionTable)).map (fun a => a.actionName)

/-- The action part of the label of a transition as the specification words
it: nothing when there is no action name, and otherwise ` / ` followed by the
names joined by `, `. -/
def transActionSpec (fromState : StateAp) (trans : CondAp) : String :=
  if transActionNames fromState trans = [] then ""
  else " / " ++ joinWith ", " (transActionNames fromState trans)

/-- The entry of `actionTables` for a table: the table when it is not empty. -/
def tableEntry (table : List Action) : List (List Action) :=
  if table.length ≠ 0 then [table] else []

/-- A state with the from-state action `F`. -/
def exFrom : StateAp :=
  { stateNum := 0, outList := [], fromStateActionTable := [⟨"F"⟩], eofActionTable := [],
    isFinState := false }

/-- A transition with the actions `A` and `B` to a state with the to-state
action `T`. -/
def exCond : CondAp :=
  { lowKey := 0, toState := some ⟨1, [⟨"T"⟩]⟩, actionTable := [⟨"A"⟩, ⟨"B"⟩] }

end Dot

/-! ## The emitted recognizer and the reference interpreter

The body of `CSharpFTabCodeGen::writeExec` is not part of the sources (only
its declaration in `ftabcodegen.h` is); the recognizer it emits is modelled
from the specification, and so is the reference interpreter the
specification compares it with.  User actions are text of the host language;
the two models follow the transitions only, as for the machines of regular
expressions the specification speaks of. -/

/-- Modelled from the spec: the reference interpreter, which is not part of
the sources.  The transition of a state of the reduced machine on a key: the
single transition on that key, else the range transition whose range holds
the key, else the default transition. -/
def RedStateAp.transOn (st : RedStateAp) (c : Int) : Option RedTransAp :=
  match st.outSingle.find? (fun el => decide (el.lowKey = c)) with
  | some el => some el.value
  | none =>
    match st.outRange.find? (fun el => decide (el.lowKey ≤ c ∧ c ≤ el.highKey)) with
    | some el => some el.value
    | none => st.defTrans

/-- Modelled from the spec: the reference interpreter.  One step from the
state with id `cs` on the key `c`: the destination of the transition, `none`
when there is no such state, no transition or no destination. -/
def refStep (fsm : RedFsmAp) (cs : Int) (c : Int) : Option Int :=
  match fsm.stateList.find? (fun st => decide (st.id = cs)) with
  | none => none
  | some st =>
    match st.transOn c with
    | none => none
    | some t => t.targ

/-- Modelled from the spec: the reference interpreter.  The run over the
input from the state `cs`. -/
def refRun (fsm : RedFsmAp) : Int → List Int → Option Int
  | cs, [] => some cs
  | cs, c :: rest =>
    match refStep fsm cs c with
    | none => none
    | some next => refRun fsm next rest

/-- Modelled from the spec: the final states of the reduced machine, which
`form a suffix starting at first-final`. -/
def RedFsmAp.isFinal (fsm : RedFsmAp) (cs : Int) : Bool :=
  match fsm.firstFinState with
  | some first => decide (first ≤ cs)
  | none => false

/-- Modelled from the spec: the reference interpreter accepts the input when
the run from the start state ends in a final state. -/
def refAccepts (fsm : RedFsmAp) (input : List Int) : Bool :=
  match fsm.startState with
  | none => false
  | some start =>
    match refRun fsm start input with
    | none => false
    | some cs => fsm.isFinal cs

/-- Modelled from the spec: the tables of the indirect encoding for one
state, emitted by the absent `writeData`: the `sorted single-key and range-key
arrays` (a range is a `low, high` pair), and the destinations of the slots of
the state, one for each single key, one for each range and `the per-state
default slot`. -/
structure StateTable where
  singleKeys : List Int
  rangeKeys : List (Int × Int)
  targs : List Int
  deriving DecidableEq, Repr

/-- The integer `ERROR_STATE` writes: the id of the error state, or `-1`. -/
def errorId (fsm : RedFsmAp) : Int :=
  match fsm.errState with
  | some errState => errState
  | none => -1

/-- The integer `FIRST_FINAL_STATE` writes: the id of the first final state,
or `nextStateId`. -/
def firstFinalId (fsm : RedFsmAp) : Int :=
  match fsm.firstFinState with
  | some firstFinState => firstFinState
  | none => fsm.nextStateId

/-- Modelled from the spec: the destination written into a slot for a
transition; a transition without destination leads to the error state. -/
def slotTarg (fsm : RedFsmAp) (trans : Option RedTransAp) : Int :=
  match trans with
  | none => errorId fsm
  | some t =>
    match t.targ with
    | none => errorId fsm
    | some targ => targ

/-- Modelled from the spec: the tables of one state of the reduced
machine. -/
def makeTable (fsm : RedFsmAp) (st : RedStateAp) : StateTable :=
  { singleKeys := st.outSingle.map (fun el => el.lowKey),
    rangeKeys := st.outRange.map (fun el => (el.lowKey, el.highKey)),
    targs := st.outSingle.map (fun el => slotTarg fsm (some el.value))
      ++ st.outRange.map (fun el => slotTarg fsm (some el.value))
      ++ [slotTarg fsm st.defTrans] }

/-- Modelled from the spec: the `binary search` of the single keys between
the positions `lo` and `hi`; `fuel` bounds the number of halvings. -/
def binSearch (keys : List Int) (c : Int) : Nat → Nat → Nat → Option Nat
  | 0, _, _ => none
  | fuel + 1, lo, hi =>
    if lo < hi then
      if c < keys.getD (lo + (hi - lo) / 2) 0 then
        binSearch keys c fuel lo (lo + (hi - lo) / 2)
      else if c > keys.getD (lo + (hi - lo) / 2) 0 then
        binSearch keys c fuel (lo + (hi - lo) / 2 + 1) hi
      else some (lo + (hi - lo) / 2)
    else none

/-- Modelled from the spec: the `binary search` of the ranges between the
positions `lo` and `hi`. -/
def rangeSearch (ranges : List (Int × Int)) (c : Int) : Nat → Nat → Nat → Option Nat
  | 0, _, _ => none
  | fuel + 1, lo, hi =>
    if lo < hi then
      if c < (ranges.getD (lo + (hi - lo) / 2) (0, 0)).1 then
        rangeSearch ranges c fuel lo (lo + (hi - lo) / 2)
      else if c > (ranges.getD (lo + (hi - lo) / 2) (0, 0)).2 then
        rangeSearch ranges c fuel (lo + (hi - lo) / 2 + 1) hi
      else some (lo + (hi - lo) / 2)
    else none

/-- Modelled from the spec: the dispatch of the emitted recognizer for one
state: the slot of the key found among the single keys, else the slot of the
range found, else the default slot, and the destination written there. -/
def dispatch (error : Int) (t : StateTable) (c : Int) : Int :=
  match binSearch t.singleKeys c (t.singleKeys.length + 1) 0 t.singleKeys.length with
  | some i => t.targs.getD i error
  | none =>
    match rangeSearch t.rangeKeys c (t.rangeKeys.length + 1) 0 t.rangeKeys.length with
    | some j => t.targs.getD (t.singleKeys.length + j) error
    | none => t.targs.getD (t.singleKeys.length + t.rangeKeys.length) error

/-- Modelled from the spec: the execute routine emitted by the absent
`writeExec`, `a loop over the input whose body dispatches on cs`; the loop is
left when the error state is entered.  The result is the last value of
`cs`. -/
def execLoop (error : Int) (tables : List StateTable) : Int → List Int → Int
  | cs, [] => cs
  | cs, c :: rest =>
    if dispatch error (tables.getD cs.toNat ⟨[], [], []⟩) c = error then error
    else execLoop error tables (dispatch error (tables.getD cs.toNat ⟨[], [], []⟩) c) rest

/-- Modelled from the spec: the emitted recognizer: the init routine `sets
cs := start`, the execute routine runs over the input, and the input is
accepted when `cs` is at least the first final state, `the lower bound of the
contiguous final range`. -/
def emittedAccepts (fsm : RedFsmAp) (input : List Int) : Bool :=
  match fsm.startState with
  | none => false
  | some start =>
    decide (execLoop (errorId fsm) (fsm.stateList.map (makeTable fsm)) start input
      ≥ firstFinalId fsm)

/-- The transitions of a state: the single ones, the range ones and the
default one. -/
def RedStateAp.allTrans (st : RedStateAp) : List RedTransAp :=
  st.outSingle.map (fun el => el.value) ++ st.outRange.map (fun el => el.value)
    ++ (match st.defTrans with
        | none => []
        | some t => [t])

/-- The invariants of the reduced machine the specification lists in its
data model and iteration orders: the states stand in the list by ascending
id and their ids are dense in `[0, nextStateId)`; the single keys of a state
ascend and its ranges ascend without overlap; the start state, the first
final state, the error state and every destination are states of the machine;
the error state, when there is one, is not final and has no transition. -/
def RedFsmAp.WellFormed (fsm : RedFsmAp) : Prop :=
  fsm.stateList.map (fun st => st.id)
      = (List.range fsm.stateList.length).map (fun (i : Nat) => (i : Int))
    ∧ fsm.nextStateId = fsm.stateList.length
    ∧ (∃ start, fsm.startState = some start ∧ 0 ≤ start ∧ start < fsm.nextStateId)
    ∧ (∀ first, fsm.firstFinState = some first → 0 ≤ first ∧ first < fsm.nextStateId)
    ∧ (∀ st ∈ fsm.stateList,
        (st.outSingle.map (fun el => el.lowKey)).Pairwise (fun a b => a < b)
          ∧ st.outRange.Pairwise (fun a b => a.highKey < b.lowKey)
          ∧ (∀ el ∈ st.outRange, el.lowKey ≤ el.highKey)
          ∧ ∀ t ∈ st.allTrans, ∀ targ, t.targ = some targ →
              0 ≤ targ ∧ targ < fsm.nextStateId)
    ∧ ∀ err, fsm.errState = some err →
        0 ≤ err ∧ err < fsm.nextStateId
          ∧ (∀ first, fsm.firstFinState = some first → err < first)
          ∧ ∀ st ∈ fsm.stateList, st.id = err →
              st.outSingle = [] ∧ st.outRange = [] ∧ st.defTrans = none

instance (fsm : RedFsmAp) : Decidable fsm.WellFormed := by
  unfold RedFsmAp.WellFormed
  exact inferInstance

/-- A reduced machine for digits, then `a`, then lower-case letters: the
error state 0 without transition, the start state 1 with the single
transition on `a` to the final state 2, the range transition `0..9` to
itself and no default transition, and the final state 2 with the range
transition `a..z` to itself. -/
def exRecog : RedFsmAp :=
  { stateList :=
      [ RedStateAp.bare 0,
        { RedStateAp.bare 1 with
          outSingle := [⟨97, 97, ⟨some 2, none, 0⟩⟩],
          outRange := [⟨48, 57, ⟨some 1, none, 1⟩⟩],
          lowKey := 48, highKey := 97 },
        { RedStateAp.bare 2 with
          outRange := [⟨97, 122, ⟨some 2, none, 2⟩⟩],
          lowKey := 97, highKey := 122 } ],
    actionMap := [],
    transSet := [⟨some 2, none, 0⟩, ⟨some 1, none, 1⟩, ⟨some 2, none, 2⟩],
    nextStateId := 3, startState := some 1, errState := some 0,
    firstFinState := some 2 }

namespace Dot

/-- The names, null or not, on the path from the root ancestor down to a
name instance. -/
def NameInst.path : NameInst → List (Option String)
  | .mk name none => [name]
  | .mk name (some parent) => parent.path ++ [name]

/-- The names that are not null on the path from the root ancestor down to a
name instance, in that order. -/
def NameInst.names (nameInst : NameInst) : List String :=
  nameInst.path.filterMap (fun name => name)

/-- The name instance `c` with the parent `b`, which is without name and has
the parent `a`, which is without name and is a child of the root `main`. -/
def exNameInst : NameInst :=
  .mk (some "c") (some (.mk none (some (.mk (some "a") (some (.mk (some "main") none))))))

/-- A chain of two name instances without name. -/
def exNoName : NameInst := .mk none (some (.mk none none))

end Dot

/-- A host for a machine with the access expression `fsm->`: the registers
`act`, `tokend` and `tokstart` are spelled through it. -/
def exAccessHost : Host :=
  { exHost with TOKEND := "fsm->tokend", TOKSTART := "fsm->tokstart", ACT := "fsm->act" }

/-- An `LmSetActId` item with the given id. -/
def InlineItem.setAct (lmId : Int) : InlineItem := .mk .LmSetActId "" none lmId 0 false none

namespace Dot

/-- A condition space with the 33 conditions `c0` to `c32`. -/
def exCondSpace33 : CondSpace :=
  { condSet := (List.range 33).map (fun i => ⟨"c" ++ toString i⟩) }

end Dot

/-! # Part II: theorems -/

/-! ## Proofs: reference counting -/

theorem updAt_length {α : Type} (f : α → α) (i : Nat) (l : List α) :
    (updAt f i l).length = l.length := by
  induction l generalizing i with
  | nil => cases i <;> rfl
  | cons x xs ih =>
    cases i with
    | zero => rfl
    | succ i => simp [updAt, ih]

theorem updAt_getElem? {α : Type} (f : α → α) (i j : Nat) (l : List α) :
    (updAt f i l)[j]? = if i = j then l[j]?.map f else l[j]? := by
  induction l generalizing i j with
  | nil => cases i <;> simp [updAt]
  | cons x xs ih =>
    cases i with
    | zero =>
      cases j with
      | zero => simp [updAt]
      | succ j => simp [updAt]
    | succ i =>
      cases j with
      | zero => simp [updAt]
      | succ j => simp [updAt, ih]

theorem updAt_map_eq {α β : Type} (f : α → α) (p : α → β) (h : ∀ x, p (f x) = p x)
    (i : Nat) (l : List α) : (updAt f i l).map p = l.map p := by
  induction l generalizing i with
  | nil => cases i <;> rfl
  | cons x xs ih =>
    cases i with
    | zero => simp [updAt, h]
    | succ i => simp [updAt, ih]

theorem Action.refs_incRefs (c d : RefClass) (x : Action) :
    (x.incRefs c).refs d = x.refs d + if c = d then 1 else 0 := by
  cases c <;> cases d <;> simp [Action.incRefs, Action.refs]

theorem refsAt_updAt (c d : RefClass) (j a : Nat) (acts : List Action)
    (ha : a < acts.length) :
    refsAt d (updAt (Action.incRefs c) j acts) a
      = refsAt d acts a + if c = d ∧ j = a then 1 else 0 := by
  unfold refsAt
  rw [updAt_getElem?]
  have hx : acts[a]? = some acts[a] := List.getElem?_eq_getElem ha
  by_cases hj : j = a
  · subst hj
    simp only [hx, if_true, Option.map_some', Action.refs_incRefs, and_true]
  · simp [hj, hx]

theorem refItems_length (c : RefClass) (items : List ActionTableEl) (acts : List Action) :
    (refItems c items acts).length = acts.length := by
  unfold refItems
  induction items generalizing acts with
  | nil => rfl
  | cons it rest ih => simp only [List.foldl_cons]; rw [ih, updAt_length]

theorem refsAt_refItems (c d : RefClass) (items : List ActionTableEl) (a : Nat)
    (acts : List Action) (ha : a < acts.length) :
    refsAt d (refItems c items acts) a
      = refsAt d acts a
        + if c = d then (items.map (fun item => item.value)).count a else 0 := by
  unfold refItems
  induction items generalizing acts with
  | nil => simp
  | cons it rest ih =>
    simp only [List.foldl_cons, List.map_cons]
    rw [ih _ (by rw [updAt_length]; exact ha), refsAt_updAt c d _ _ _ ha, List.count_cons]
    by_cases hc : c = d
    · by_cases hv : it.value = a
      · simp [hc, hv]; omega
      · simp [hc, hv]
    · simp [hc]

theorem RedAction.key_incRefs (c : RefClass) (t : RedAction) : (t.incRefs c).key = t.key := by
  cases c <;> rfl

theorem tableOf_keys (m : List RedAction) (ra : Option Nat) :
    tableOf m ra = tableIn (m.map (fun t => t.key)) ra := by
  cases ra with
  | none => rfl
  | some r =>
    simp only [tableOf, tableIn, List.getElem?_map]
    cases m[r]? <;> rfl

theorem refActionOpt_inv (c : RefClass) (keys : List (List ActionTableEl)) (n : Nat)
    (g : FsmCodeGen) (ra : Option Nat) (hg : RefInv keys n g) :
    RefInv keys n (refActionOpt c g ra) := by
  obtain ⟨hk, hn⟩ := hg
  cases ra with
  | none => exact ⟨hk, hn⟩
  | some r =>
    simp only [refActionOpt, refAction]
    cases hr : g.redFsm.actionMap[r]? with
    | none => exact ⟨hk, hn⟩
    | some table =>
      refine ⟨?_, ?_⟩
      · simp only
        rw [updAt_map_eq _ _ (RedAction.key_incRefs c)]
        exact hk
      · simp only
        rw [refItems_length]
        exact hn

/-- The effect of one guarded block on the counter of class `d` of the
action `a`. -/
theorem refActionOpt_refs (c d : RefClass) (keys : List (List ActionTableEl)) (n : Nat)
    (g : FsmCodeGen) (ra : Option Nat) (a : Nat) (ha : a < n) (hg : RefInv keys n g) :
    refsAt d (refActionOpt c g ra).cgd.actionList a
      = refsAt d g.cgd.actionList a
        + if c = d then (tableIn keys ra).count a else 0 := by
  obtain ⟨hk, hn⟩ := hg
  rw [← hk, ← tableOf_keys]
  cases ra with
  | none => simp [refActionOpt, tableOf]
  | some r =>
    simp only [refActionOpt, refAction, tableOf]
    cases hr : g.redFsm.actionMap[r]? with
    | none => simp
    | some table =>
      simp only
      exact refsAt_refItems c d table.key a g.cgd.actionList (by rw [hn]; exact ha)

theorem foldl_inv {β : Type} (P : FsmCodeGen → Prop)
    (step : FsmCodeGen → β → FsmCodeGen) (hstep : ∀ g x, P g → P (step g x))
    (xs : List β) (g : FsmCodeGen) (hg : P g) : P (xs.foldl step g) := by
  induction xs generalizing g with
  | nil => exact hg
  | cons x rest ih => exact ih _ (hstep g x hg)

/-- Accumulation of the per-step effects over a loop. -/
theorem foldl_refs_acc {β : Type} (P : FsmCodeGen → Prop) (m : FsmCodeGen → Nat)
    (step : FsmCodeGen → β → FsmCodeGen) (w : β → Nat)
    (hinv : ∀ g x, P g → P (step g x))
    (hstep : ∀ g x, P g → m (step g x) = m g + w x)
    (xs : List β) (g : FsmCodeGen) (hg : P g) :
    m (xs.foldl step g) = m g + (xs.map w).sum := by
  induction xs generalizing g with
  | nil => simp
  | cons x rest ih =>
    simp only [List.foldl_cons, List.map_cons, List.sum_cons]
    rw [ih (step g x) (hinv g x hg), hstep g x hg]
    omega

theorem entriesIn_append (keys : List (List ActionTableEl)) (a : Nat) (r1 r2 : List (Option Nat)) :
    entriesIn keys a (r1 ++ r2) = entriesIn keys a r1 + entriesIn keys a r2 := by
  simp [entriesIn]

theorem findFinalActionRefsState_inv (keys : List (List ActionTableEl)) (n : Nat)
    (g : FsmCodeGen) (st : RedStateAp) (hg : RefInv keys n g) :
    RefInv keys n (findFinalActionRefsState g st) := by
  unfold findFinalActionRefsState
  have i1 := foldl_inv (RefInv keys n)
    (fun g (rtel : RedTransEl) => refActionOpt .trans g rtel.value.action)
    (fun g x h => refActionOpt_inv .trans keys n g x.value.action h) st.outSingle g hg
  have i2 := foldl_inv (RefInv keys n)
    (fun g (rtel : RedTransEl) => refActionOpt .trans g rtel.value.action)
    (fun g x h => refActionOpt_inv .trans keys n g x.value.action h) st.outRange _ i1
  apply refActionOpt_inv
  apply refActionOpt_inv
  apply refActionOpt_inv
  cases st.defTrans with
  | none => exact i2
  | some t => exact refActionOpt_inv .trans keys n _ t.action i2

/-- The effect of the body of the state loop on the counter of class `d`. -/
theorem findFinalActionRefsState_refs (d : RefClass) (keys : List (List ActionTableEl))
    (n a : Nat) (ha : a < n) (g : FsmCodeGen) (st : RedStateAp) (hg : RefInv keys n g) :
    refsAt d (findFinalActionRefsState g st).cgd.actionList a
      = refsAt d g.cgd.actionList a + entriesIn keys a (st.slotTables d) := by
  have many : ∀ (els : List RedTransEl) (g : FsmCodeGen), RefInv keys n g →
      RefInv keys n (els.foldl (fun g rtel => refActionOpt .trans g rtel.value.action) g)
        ∧ refsAt d (els.foldl (fun g rtel => refActionOpt .trans g rtel.value.action) g).cgd.actionList a
          = refsAt d g.cgd.actionList a
            + if RefClass.trans = d then
                entriesIn keys a (els.map (fun rtel => rtel.value.action)) else 0 := by
    intro els g hg
    refine ⟨foldl_inv (RefInv keys n) _
      (fun g x h => refActionOpt_inv .trans keys n g x.value.action h) els g hg, ?_⟩
    rw [foldl_refs_acc (RefInv keys n) (fun g => refsAt d g.cgd.actionList a)
      (fun g (rtel : RedTransEl) => refActionOpt .trans g rtel.value.action)
      (fun rtel => if RefClass.trans = d then (tableIn keys rtel.value.action).count a else 0)
      (fun g x h => refActionOpt_inv .trans keys n g x.value.action h)
      (fun g x h => refActionOpt_refs .trans d keys n g x.value.action a ha h) els g hg]
    by_cases hd : RefClass.trans = d
    · simp [hd, entriesIn, Function.comp_def]
    · simp [hd]
  unfold findFinalActionRefsState
  obtain ⟨i1, e1⟩ := many st.outSingle g hg
  obtain ⟨i2, e2⟩ := many st.outRange _ i1
  have h3 : ∀ (g : FsmCodeGen), RefInv keys n g →
      RefInv keys n (match st.defTrans with
          | none => g
          | some t => refActionOpt .trans g t.action)
        ∧ refsAt d (match st.defTrans with
            | none => g
            | some t => refActionOpt .trans g t.action).cgd.actionList a
          = refsAt d g.cgd.actionList a
            + if RefClass.trans = d then
                entriesIn keys a (match st.defTrans with
                  | none => []
                  | some t => [t.action]) else 0 := by
    intro g hg
    cases st.defTrans with
    | none => exact ⟨hg, by simp [entriesIn]⟩
    | some t =>
      refine ⟨refActionOpt_inv .trans keys n g t.action hg, ?_⟩
      rw [refActionOpt_refs .trans d keys n g t.action a ha hg]
      simp [entriesIn]
  obtain ⟨i3, e3⟩ := h3 _ i2
  have i4 := refActionOpt_inv .toState keys n _ st.toStateAction i3
  have i5 := refActionOpt_inv .fromState keys n _ st.fromStateAction i4
  rw [refActionOpt_refs .eof d keys n _ _ a ha i5,
    refActionOpt_refs .fromState d keys n _ _ a ha i4,
    refActionOpt_refs .toState d keys n _ _ a ha i3, e3, e2, e1]
  cases d <;> simp [RedStateAp.slotTables, entriesIn_append, entriesIn]
  omega

theorem entriesIn_flatten (keys : List (List ActionTableEl)) (a : Nat)
    (rss : List (List (Option Nat))) :
    entriesIn keys a rss.flatten = (rss.map (entriesIn keys a)).sum := by
  induction rss with
  | nil => rfl
  | cons r rest ih => simp [entriesIn_append, ih]

/-- The loop keeps the action list's length and the tables of the action
map. -/
theorem findFinalActionRefs_inv (g : FsmCodeGen) :
    RefInv (g.redFsm.actionMap.map (fun t => t.key)) g.cgd.actionList.length
      (findFinalActionRefs g) :=
  foldl_inv _ findFinalActionRefsState
    (fun g0 st h0 => findFinalActionRefsState_inv _ _ g0 st h0) g.redFsm.stateList g ⟨rfl, rfl⟩

/-- The counter of class `d` of the action `a` after `findFinalActionRefs`. -/
theorem findFinalActionRefs_refsAt (d : RefClass) (g : FsmCodeGen) (a : Nat)
    (ha : a < g.cgd.actionList.length) :
    refsAt d (findFinalActionRefs g).cgd.actionList a
      = refsAt d g.cgd.actionList a + numEntriesReferencing d g.redFsm a := by
  unfold findFinalActionRefs
  rw [foldl_refs_acc (RefInv (g.redFsm.actionMap.map (fun t => t.key)) g.cgd.actionList.length)
    (fun g => refsAt d g.cgd.actionList a) findFinalActionRefsState
    (fun st => entriesIn (g.redFsm.actionMap.map (fun t => t.key)) a (st.slotTables d))
    (fun g0 st h0 => findFinalActionRefsState_inv _ _ g0 st h0)
    (fun g0 st h0 => findFinalActionRefsState_refs d _ _ a ha g0 st h0)
    g.redFsm.stateList g ⟨rfl, rfl⟩]
  congr 1
  unfold numEntriesReferencing RedFsmAp.slotTables
  have := entriesIn_flatten (g.redFsm.actionMap.map (fun t => t.key)) a
    (g.redFsm.stateList.map (RedStateAp.slotTables d))
  rw [List.map_map] at this
  rw [Function.comp_def] at this
  rw [← this]
  unfold entriesIn
  congr 1
  apply List.map_congr_left
  intro ra _
  rw [tableOf_keys]

theorem refs_eq_zero_of_numRefs (x : Action) (h : x.numRefs = 0) (d : RefClass) :
    x.refs d = 0 := by
  unfold Action.numRefs at h
  cases d <;> simp only [Action.refs] <;> omega

theorem refsAt_zero (g : FsmCodeGen) (hz : CountersZero g) (d : RefClass) (a : Nat) :
    refsAt d g.cgd.actionList a = 0 := by
  unfold refsAt
  cases h : g.cgd.actionList[a]? with
  | none => rfl
  | some x => exact refs_eq_zero_of_numRefs x (hz x (List.mem_iff_getElem?.mpr ⟨a, h⟩)) d

theorem tableOf_nodup (fsm : RedFsmAp) (h : TablesNodup fsm) (ra : Option Nat) :
    (tableOf fsm.actionMap ra).Nodup := by
  cases ra with
  | none => exact List.nodup_nil
  | some r =>
    simp only [tableOf]
    cases hr : fsm.actionMap[r]? with
    | none => exact List.nodup_nil
    | some table => exact h table (List.mem_iff_getElem?.mpr ⟨r, hr⟩)

/-- When no table lists an action twice, counting entries is counting
slots. -/
theorem numEntries_eq_numSlots (d : RefClass) (fsm : RedFsmAp) (h : TablesNodup fsm) (a : Nat) :
    numEntriesReferencing d fsm a = numSlotsReferencing d fsm a := by
  unfold numEntriesReferencing numSlotsReferencing
  induction fsm.slotTables d with
  | nil => rfl
  | cons ra rest ih =>
    simp only [List.map_cons, List.sum_cons, List.filter_cons, ih]
    by_cases hm : a ∈ tableOf fsm.actionMap ra
    · rw [List.count_eq_one_of_mem (tableOf_nodup fsm h ra) hm]
      simp [hm]
      omega
    · rw [List.count_eq_zero_of_not_mem hm]
      simp [hm]

/-- The action at position `a` after the pass, with its counter of class
`d`. -/
theorem findFinalActionRefs_counter (d : RefClass) (g : FsmCodeGen) (hz : CountersZero g)
    (a : Nat) (ha : a < g.cgd.actionList.length) :
    ∃ act, (findFinalActionRefs g).cgd.actionList[a]? = some act
      ∧ act.refs d = numEntriesReferencing d g.redFsm a := by
  have hlen := (findFinalActionRefs_inv g).2
  have ha2 : a < (findFinalActionRefs g).cgd.actionList.length := by rw [hlen]; exact ha
  refine ⟨(findFinalActionRefs g).cgd.actionList[a], List.getElem?_eq_getElem ha2, ?_⟩
  have h := findFinalActionRefs_refsAt d g a ha
  rw [refsAt_zero g hz d a] at h
  unfold refsAt at h
  rw [List.getElem?_eq_getElem ha2] at h
  simpa using h

/-- A block of one class leaves the counters of the other classes alone. -/
theorem refActionOpt_other (c d : RefClass) (hcd : c ≠ d) (g : FsmCodeGen) (ra : Option Nat) :
    (refActionOpt c g ra).cgd.actionList.map (Action.refs d)
      = g.cgd.actionList.map (Action.refs d) := by
  cases ra with
  | none => rfl
  | some r =>
    simp only [refActionOpt, refAction]
    cases hr : g.redFsm.actionMap[r]? with
    | none => rfl
    | some table =>
      simp only [refItems]
      generalize g.cgd.actionList = acts
      induction table.key generalizing acts with
      | nil => rfl
      | cons it rest ih =>
        simp only [List.foldl_cons]
        rw [ih, updAt_map_eq]
        intro x
        rw [Action.refs_incRefs]
        simp [hcd]

/-! ## C1, C2: the reference counters -/

/-- C1, as stated, fails: in the machine `'a' @A @A` one transition carries a
table that lists `A` twice; `findFinalActionRefs` leaves `A.numTransRefs = 2`
although exactly one transition references `A`. -/
theorem findFinalActionRefs_numTransRefs_counterexample :
    CountersZero exTwice
      ∧ (findFinalActionRefs exTwice).cgd.actionList.map (fun act => act.numTransRefs) = [2]
      ∧ numSlotsReferencing .trans exTwice.redFsm 0 = 1 := by
  refine ⟨?_, by decide, by decide⟩
  intro act h
  simp only [exTwice, FsmCodeGen.init, List.mem_singleton] at h
  subst h
  rfl

/-- C1 (amended): starting from all reference counters at zero, after
`findFinalActionRefs`, for every action `A` of the action list,
`A.numTransRefs` equals the number of action-table entries that point to `A`,
summed over the single, range and default transition slots of all states; when
no action table lists an action twice this is the number of those transition
slots whose action table references `A`. -/
theorem findFinalActionRefs_numTransRefs (g : FsmCodeGen) (hz : CountersZero g)
    (a : Nat) (ha : a < g.cgd.actionList.length) :
    ∃ act, (findFinalActionRefs g).cgd.actionList[a]? = some act
      ∧ act.numTransRefs = numEntriesReferencing .trans g.redFsm a
      ∧ (TablesNodup g.redFsm →
          act.numTransRefs = numSlotsReferencing .trans g.redFsm a) := by
  obtain ⟨act, h1, h2⟩ := findFinalActionRefs_counter .trans g hz a ha
  refine ⟨act, h1, h2, fun hn => ?_⟩
  rw [← numEntries_eq_numSlots .trans g.redFsm hn a]
  exact h2

/-- C1 at the machine `/a+b/` with the action `A` on the `b` transition:
`A.numTransRefs = 1`. -/
theorem findFinalActionRefs_numTransRefs_witness :
    ∃ act, (findFinalActionRefs exAPlusB).cgd.actionList[0]? = some act
      ∧ act.numTransRefs = 1
      ∧ (TablesNodup exAPlusB.redFsm → act.numTransRefs = 1) :=
  findFinalActionRefs_numTransRefs exAPlusB (by decide) 0 (by decide)

/-- C2, as stated, fails: when the table that lists `A` twice is the to-state,
from-state and EOF action of one state, the three counters of `A` are 2
although one state references `A` in each class. -/
theorem findFinalActionRefs_stateRefs_counterexample :
    CountersZero exTwiceHooks
      ∧ (findFinalActionRefs exTwiceHooks).cgd.actionList.map
          (fun act => (act.numToStateRefs, act.numFromStateRefs, act.numEofRefs)) = [(2, 2, 2)]
      ∧ numSlotsReferencing .toState exTwiceHooks.redFsm 0 = 1
      ∧ numSlotsReferencing .fromState exTwiceHooks.redFsm 0 = 1
      ∧ numSlotsReferencing .eof exTwiceHooks.redFsm 0 = 1 := by
  refine ⟨by decide, by decide, by decide, by decide, by decide⟩

/-- C2 (amended): starting from all reference counters at zero, after
`findFinalActionRefs`, for every action `A`, `A.numToStateRefs`,
`A.numFromStateRefs` and `A.numEofRefs` equal the number of entries pointing to
`A` in the to-state, from-state and EOF action tables (respectively) of all
states; when no action table lists an action twice these are the numbers of
states whose to-state, from-state and EOF action table references `A`; and a
block of one class changes no counter of another class. -/
theorem findFinalActionRefs_stateRefs (g : FsmCodeGen) (hz : CountersZero g)
    (a : Nat) (ha : a < g.cgd.actionList.length) :
    ∃ act, (findFinalActionRefs g).cgd.actionList[a]? = some act
      ∧ act.numToStateRefs = numEntriesReferencing .toState g.redFsm a
      ∧ act.numFromStateRefs = numEntriesReferencing .fromState g.redFsm a
      ∧ act.numEofRefs = numEntriesReferencing .eof g.redFsm a
      ∧ (TablesNodup g.redFsm →
          act.numToStateRefs = numSlotsReferencing .toState g.redFsm a
            ∧ act.numFromStateRefs = numSlotsReferencing .fromState g.redFsm a
            ∧ act.numEofRefs = numSlotsReferencing .eof g.redFsm a)
      ∧ (∀ c d : RefClass, c ≠ d → ∀ (g0 : FsmCodeGen) (ra : Option Nat),
          (refActionOpt c g0 ra).cgd.actionList.map (Action.refs d)
            = g0.cgd.actionList.map (Action.refs d)) := by
  obtain ⟨act, h1, h2⟩ := findFinalActionRefs_counter .toState g hz a ha
  obtain ⟨act3, h3, h4⟩ := findFinalActionRefs_counter .fromState g hz a ha
  obtain ⟨act5, h5, h6⟩ := findFinalActionRefs_counter .eof g hz a ha
  rw [h1] at h3 h5
  cases h3
  cases h5
  refine ⟨act, h1, h2, h4, h6, fun hn => ⟨?_, ?_, ?_⟩,
    fun c d hcd g0 ra => refActionOpt_other c d hcd g0 ra⟩
  · rw [← numEntries_eq_numSlots _ g.redFsm hn a]; exact h2
  · rw [← numEntries_eq_numSlots _ g.redFsm hn a]; exact h4
  · rw [← numEntries_eq_numSlots _ g.redFsm hn a]; exact h6

/-- C2 at the machine whose final state hooks a one-entry table as to-state,
from-state and EOF action. -/
theorem findFinalActionRefs_stateRefs_witness :
    ∃ act, (findFinalActionRefs exHooks).cgd.actionList[0]? = some act
      ∧ act.numToStateRefs = numEntriesReferencing .toState exHooks.redFsm 0
      ∧ act.numFromStateRefs = numEntriesReferencing .fromState exHooks.redFsm 0
      ∧ act.numEofRefs = numEntriesReferencing .eof exHooks.redFsm 0
      ∧ (TablesNodup exHooks.redFsm →
          act.numToStateRefs = numSlotsReferencing .toState exHooks.redFsm 0
            ∧ act.numFromStateRefs = numSlotsReferencing .fromState exHooks.redFsm 0
            ∧ act.numEofRefs = numSlotsReferencing .eof exHooks.redFsm 0)
      ∧ (∀ c d : RefClass, c ≠ d → ∀ (g0 : FsmCodeGen) (ra : Option Nat),
          (refActionOpt c g0 ra).cgd.actionList.map (Action.refs d)
            = g0.cgd.actionList.map (Action.refs d)) :=
  findFinalActionRefs_stateRefs exHooks (by decide) 0 (by decide)

/-! ## C3: `assignActionIds` -/

theorem assignActionIdsLoop_length (n : Int) (acts : List Action) :
    (assignActionIdsLoop n acts).length = acts.length := by
  induction acts generalizing n with
  | nil => rfl
  | cons act rest ih =>
    unfold assignActionIdsLoop
    split <;> simp [ih]

theorem assignActionIdsLoop_getElem? (n : Int) (acts : List Action) (j : Nat) (act : Action)
    (h : acts[j]? = some act) :
    (assignActionIdsLoop n acts)[j]?
      = some (if act.referenced then { act with actionId := n + refRank acts j } else act) := by
  induction acts generalizing n j with
  | nil => simp at h
  | cons x rest ih =>
    unfold assignActionIdsLoop
    cases j with
    | zero =>
      simp only [List.getElem?_cons_zero, Option.some.injEq] at h
      subst h
      by_cases hx : 0 < x.numRefs
      · simp [hx, Action.referenced, refRank]
      · simp [hx, Action.referenced]
    | succ j =>
      simp only [List.getElem?_cons_succ] at h
      by_cases hx : 0 < x.numRefs
      · simp only [gt_iff_lt, hx, if_true, List.getElem?_cons_succ]
        rw [ih (n + 1) j h]
        have hr : refRank (x :: rest) (j + 1) = refRank rest j + 1 := by
          simp [refRank, List.take_succ_cons, List.filter_cons, Action.referenced, hx]
        rw [hr]
        push_cast
        have e : n + 1 + (refRank rest j : Int) = n + ((refRank rest j : Int) + 1) := by ring
        rw [e]
      · simp only [gt_iff_lt, hx, if_false, List.getElem?_cons_succ]
        rw [ih n j h]
        have hr : refRank (x :: rest) (j + 1) = refRank rest j := by
          simp [refRank, List.take_succ_cons, List.filter_cons, Action.referenced, hx]
        rw [hr]

theorem assignActionIdsLoop_ids (n : Int) (acts : List Action) :
    ((assignActionIdsLoop n acts).filter Action.referenced).map (fun act => act.actionId)
      = (List.range (acts.filter Action.referenced).length).map (fun (i : Nat) => n + (i : Int)) := by
  induction acts generalizing n with
  | nil => rfl
  | cons x rest ih =>
    unfold assignActionIdsLoop
    by_cases hx : 0 < x.numRefs
    · have hr : Action.referenced x = true := by simp [Action.referenced, hx]
      have hr2 : Action.referenced { x with actionId := n } = true := by
        simpa [Action.referenced, Action.numRefs] using hx
      simp only [gt_iff_lt, hx, if_true, List.filter_cons, hr, hr2, List.map_cons,
        List.length_cons, List.range_succ_eq_map, ih (n + 1), List.map_map]
      simp only [Nat.cast_zero, add_zero, List.cons.injEq, true_and]
      apply List.map_congr_left
      intro i _
      simp only [Function.comp, Nat.succ_eq_add_one]
      push_cast
      ring
    · have hr : Action.referenced x = false := by simp [Action.referenced, hx]
      simp only [gt_iff_lt, hx, if_false, List.filter_cons, hr]
      exact ih n

/-- C3: after `assignActionIds` on any action list, the action at position
`j` of the list, when it has positive total references, has `actionId` equal
to its rank among the referenced actions (the number of referenced actions
before it), and is otherwise left as it was, `actionId` included; so the ids
of the referenced actions, read in action-list order, are exactly
`0, 1, ..., k - 1` with `k` the number of actions with positive total
references. -/
theorem assignActionIds_spec (g : FsmCodeGen) :
    (assignActionIds g).cgd.actionList.length = g.cgd.actionList.length
      ∧ (∀ (j : Nat) (act : Action), g.cgd.actionList[j]? = some act →
          (assignActionIds g).cgd.actionList[j]?
            = some (if 0 < act.numRefs
                then { act with actionId := (refRank g.cgd.actionList j : Int) }
                else act))
      ∧ ((assignActionIds g).cgd.actionList.filter (fun act => decide (0 < act.numRefs))).map
            (fun act => act.actionId)
          = (List.range (g.cgd.actionList.filter
              (fun act => decide (0 < act.numRefs))).length).map (fun (i : Nat) => (i : Int)) := by
  refine ⟨assignActionIdsLoop_length 0 _, ?_, ?_⟩
  · intro j act h
    have := assignActionIdsLoop_getElem? 0 g.cgd.actionList j act h
    simpa [assignActionIds, Action.referenced] using this
  · have := assignActionIdsLoop_ids 0 g.cgd.actionList
    simpa [assignActionIds, Action.referenced] using this

/-! ## Proofs: decimal numerals under the reader -/

theorem digitChar_props : ∀ k : Fin 10,
    (Nat.digitChar k.val).isDigit = true
      ∧ (Nat.digitChar k.val).toNat - 48 = k.val
      ∧ Nat.digitChar k.val ≠ '\n' := by decide

theorem scanChar_digit (acc : List Int) (tok : Tok) (k : Nat) (hk : k < 10) :
    scanChar (some (acc, tok)) (Nat.digitChar k)
      = match tok with
        | .fresh => some (acc, .num false k)
        | .sign => some (acc, .num true k)
        | .num neg v => some (acc, .num neg (10 * v + k))
        | .done _ => none := by
  obtain ⟨h1, h2, _⟩ := digitChar_props ⟨k, hk⟩
  simp only at h1 h2
  cases tok <;> simp [scanChar, h1, h2]

/-- Reading the digits that `toDigitsCore` puts in front of `ds`. -/
theorem scan_toDigitsCore (acc : List Int) (neg : Bool) (fuel n : Nat) (ds : List Char)
    (hf : n < fuel) (tok : Tok) (htok : tok = (if neg then Tok.sign else Tok.fresh)) :
    (Nat.toDigitsCore 10 fuel n ds).foldl scanChar (some (acc, tok))
      = ds.foldl scanChar (some (acc, .num neg n)) := by
  subst htok
  induction fuel generalizing n ds with
  | zero => omega
  | succ fuel ih =>
    have hmod : n % 10 < 10 := Nat.mod_lt _ (by decide)
    unfold Nat.toDigitsCore
    simp only
    by_cases h0 : n / 10 = 0
    · simp only [h0, if_true, List.foldl_cons]
      rw [scanChar_digit _ _ _ hmod]
      have e : n % 10 = n := Nat.mod_eq_of_lt (by omega)
      cases neg <;> simp [e]
    · simp only [h0, if_false]
      have hlt : n / 10 < fuel := by omega
      rw [ih (n / 10) _ hlt]
      simp only [List.foldl_cons]
      rw [scanChar_digit _ _ _ hmod]
      have e : 10 * (n / 10) + n % 10 = n := Nat.div_add_mod n 10
      simp [e]

theorem toDigitsCore_no_newline (fuel n : Nat) (ds : List Char) (hds : '\n' ∉ ds) :
    '\n' ∉ Nat.toDigitsCore 10 fuel n ds := by
  induction fuel generalizing n ds with
  | zero => simpa [Nat.toDigitsCore] using hds
  | succ fuel ih =>
    have hmod : n % 10 < 10 := Nat.mod_lt _ (by decide)
    have hd := (digitChar_props ⟨n % 10, hmod⟩).2.2
    simp only at hd
    have hcons : '\n' ∉ Nat.digitChar (n % 10) :: ds := by
      intro hm
      rcases List.mem_cons.mp hm with h | h
      · exact hd h.symm
      · exact hds h
    unfold Nat.toDigitsCore
    simp only
    split
    · exact hcons
    · exact ih _ _ hcons

theorem intChars_no_newline (v : Int) : '\n' ∉ intChars v := by
  cases v with
  | ofNat m => exact toDigitsCore_no_newline _ _ _ (by simp)
  | negSucc m =>
    show '\n' ∉ '-' :: Nat.toDigits 10 (m + 1)
    intro hm
    rcases List.mem_cons.mp hm with h | h
    · exact absurd h (by decide)
    · exact toDigitsCore_no_newline _ _ _ (by simp) h

/-- Reading a decimal numeral at the start of an element: the reader stands
inside the digits of that integer, and `tail` is read from there. -/
theorem scan_intChars (acc : List Int) (v : Int) (tail : List Char) :
    ∃ neg n, signed neg n = v
      ∧ (intChars v ++ tail).foldl scanChar (some (acc, .fresh))
        = tail.foldl scanChar (some (acc, .num neg n)) := by
  cases v with
  | ofNat m =>
    refine ⟨false, m, rfl, ?_⟩
    rw [List.foldl_append]
    congr 1
    have := scan_toDigitsCore acc false (m + 1) m [] (by omega) .fresh rfl
    simpa using this
  | negSucc m =>
    refine ⟨true, m + 1, rfl, ?_⟩
    rw [List.foldl_append]
    congr 1
    show ('-' :: Nat.toDigits 10 (m + 1)).foldl scanChar (some (acc, .fresh)) = _
    have := scan_toDigitsCore acc true (m + 2) (m + 1) [] (by omega) .sign rfl
    simp only [List.foldl_cons, List.foldl_nil] at this ⊢
    exact this

/-! ## Proofs: the two loops of `ACTIONS_ARRAY` as one sequence of items -/

theorem emitC_append (t : Nat) (l1 l2 : List (Int × Bool)) :
    emitC t (l1 ++ l2) = emitC t l1 ++ emitC (t + l1.length) l2 := by
  induction l1 generalizing t with
  | nil => simp [emitC]
  | cons x r ih =>
    obtain ⟨v, c⟩ := x
    have e : t + 1 + r.length = t + (r.length + 1) := by omega
    have ih2 := ih (t + 1)
    rw [e] at ih2
    simp only [List.cons_append, emitC, List.length_cons, List.append_assoc, List.append_eq, ih2]

theorem flatItems_length (acts : List Action) (actLast : Bool) (key : List ActionTableEl) :
    (flatItems acts actLast key).length = key.length := by
  induction key with
  | nil => rfl
  | cons item rest ih => simp [flatItems, ih]

theorem ACTIONS_ARRAY_items_flat (acts : List Action) (actLast : Bool)
    (key : List ActionTableEl) (out : String) (t : Nat) :
    (ACTIONS_ARRAY_items acts actLast key (out, t)).1.data
        = out.data ++ emitC t (flatItems acts actLast key)
      ∧ (ACTIONS_ARRAY_items acts actLast key (out, t)).2 = t + key.length := by
  induction key generalizing out t with
  | nil => simp [ACTIONS_ARRAY_items, flatItems, emitC]
  | cons item rest ih =>
    simp only [ACTIONS_ARRAY_items, flatItems, emitC]
    obtain ⟨h1, h2⟩ := ih
      (if t % 8 == 7 then
        (if !(actLast && rest.isEmpty) then
          out ++ toString (actionIdAt acts item.value) ++ ", "
        else out ++ toString (actionIdAt acts item.value)) ++ "\n\t"
      else
        (if !(actLast && rest.isEmpty) then
          out ++ toString (actionIdAt acts item.value) ++ ", "
        else out ++ toString (actionIdAt acts item.value))) (t + 1)
    rw [h1, h2]
    refine ⟨?_, by simp; omega⟩
    by_cases hc : (!(actLast && rest.isEmpty)) = true <;> by_cases ht : t % 8 = 7 <;>
      simp [hc, ht, intChars, String.data_append]

theorem ACTIONS_ARRAY_tables_flat (acts : List Action) (m : List RedAction)
    (out : String) (t : Nat) :
    (ACTIONS_ARRAY_tables acts m (out, t)).1.data = out.data ++ emitC t (flatTables acts m) := by
  induction m generalizing out t with
  | nil => simp [ACTIONS_ARRAY_tables, flatTables, emitC]
  | cons act rest ih =>
    simp only [ACTIONS_ARRAY_tables, flatTables, emitC]
    obtain ⟨h1, h2⟩ := ACTIONS_ARRAY_items_flat acts rest.isEmpty act.key
      (if t % 8 == 7 then out ++ toString act.key.length ++ ", " ++ "\n\t"
        else out ++ toString act.key.length ++ ", ") (t + 1)
    have e : ACTIONS_ARRAY_items acts rest.isEmpty act.key
        (if t % 8 == 7 then out ++ toString act.key.length ++ ", " ++ "\n\t"
          else out ++ toString act.key.length ++ ", ", t + 1)
        = ((ACTIONS_ARRAY_items acts rest.isEmpty act.key
            (if t % 8 == 7 then out ++ toString act.key.length ++ ", " ++ "\n\t"
              else out ++ toString act.key.length ++ ", ", t + 1)).1,
           t + 1 + act.key.length) := by
      rw [← h2]
    rw [e, ih, h1, emitC_append, flatItems_length]
    have hn : (toString act.key.length).data = intChars (act.key.length : Int) := rfl
    by_cases ht : t % 8 = 7 <;>
      simp [ht, String.data_append, hn]

/-- The text of `ACTIONS_ARRAY`, character by character. -/
theorem ACTIONS_ARRAY_data (g : FsmCodeGen) :
    (ACTIONS_ARRAY g).toList
      = ['\t', '0', ',', ' '] ++ emitC 1 (flatTables g.cgd.actionList g.redFsm.actionMap)
          ++ ['\n'] := by
  unfold ACTIONS_ARRAY
  rw [String.toList, String.data_append, ACTIONS_ARRAY_tables_flat]

theorem commaOK_all_append (l1 l2 : List (Int × Bool)) (h1 : ∀ x ∈ l1, x.2 = true)
    (h2 : CommaOK l2) : CommaOK (l1 ++ l2) := by
  induction l1 with
  | nil => exact h2
  | cons x r ih =>
    obtain ⟨v, c⟩ := x
    exact ⟨fun _ => h1 (v, c) (List.mem_cons_self _ _),
      ih (fun y hy => h1 y (List.mem_cons_of_mem _ hy))⟩

theorem flatItems_notLast (acts : List Action) (key : List ActionTableEl) :
    ∀ x ∈ flatItems acts false key, x.2 = true := by
  induction key with
  | nil => simp [flatItems]
  | cons item rest ih =>
    intro x hx
    simp only [flatItems, List.mem_cons] at hx
    rcases hx with h | h
    · subst h; simp
    · exact ih x h

theorem flatItems_commaOK (acts : List Action) (actLast : Bool) (key : List ActionTableEl) :
    CommaOK (flatItems acts actLast key) := by
  induction key with
  | nil => trivial
  | cons item rest ih =>
    refine ⟨?_, ih⟩
    intro hne
    cases rest with
    | nil => simp [flatItems] at hne
    | cons y ys => simp

theorem flatTables_commaOK (acts : List Action) (m : List RedAction) :
    CommaOK (flatTables acts m) := by
  induction m with
  | nil => trivial
  | cons act rest ih =>
    refine ⟨fun _ => rfl, ?_⟩
    cases rest with
    | nil =>
      simp only [flatTables, List.append_nil]
      exact flatItems_commaOK acts _ act.key
    | cons y ys =>
      exact commaOK_all_append _ _ (flatItems_notLast acts act.key) ih

theorem flatTables_values (acts : List Action) (m : List RedAction) :
    (flatTables acts m).map Prod.fst
      = (m.map (fun table =>
          (table.key.length : Int)
            :: table.key.map (fun item => actionIdAt acts item.value))).flatten := by
  have hi : ∀ (b : Bool) (key : List ActionTableEl),
      (flatItems acts b key).map Prod.fst = key.map (fun item => actionIdAt acts item.value) := by
    intro b key
    induction key with
    | nil => rfl
    | cons item rest ih => simp [flatItems, ih]
  induction m with
  | nil => rfl
  | cons act rest ih => simp [flatTables, hi, ih]

/-! ## Proofs: reading the separators -/

theorem scan_comma_num (acc : List Int) (neg : Bool) (n : Nat) (tail : List Char) :
    (',' :: ' ' :: tail).foldl scanChar (some (acc, .num neg n))
      = tail.foldl scanChar (some (acc ++ [signed neg n], .fresh)) := by
  have h1 : (',' : Char).isDigit = false := by decide
  have h2 : (' ' : Char).isDigit = false := by decide
  simp [scanChar, isBlank, h1, h2]

theorem scan_wrap_fresh (acc : List Int) (tail : List Char) :
    ('\n' :: '\t' :: tail).foldl scanChar (some (acc, .fresh))
      = tail.foldl scanChar (some (acc, .fresh)) := by
  have h1 : ('\n' : Char).isDigit = false := by decide
  have h2 : ('\t' : Char).isDigit = false := by decide
  simp [scanChar, isBlank, h1, h2]

theorem scan_wrap_num (acc : List Int) (neg : Bool) (n : Nat) (tail : List Char) :
    ('\n' :: '\t' :: tail).foldl scanChar (some (acc, .num neg n))
      = tail.foldl scanChar (some (acc, .done (signed neg n))) := by
  have h1 : ('\n' : Char).isDigit = false := by decide
  have h2 : ('\t' : Char).isDigit = false := by decide
  simp [scanChar, isBlank, h1, h2]

theorem scan_newline (acc : List Int) (tok : Tok) (htok : tok ≠ .sign) :
    scanEnd (['\n'].foldl scanChar (some (acc, tok))) = scanEnd (some (acc, tok)) := by
  have h1 : ('\n' : Char).isDigit = false := by decide
  cases tok with
  | fresh => simp [scanChar, isBlank, h1]
  | sign => exact absurd rfl htok
  | num neg n => simp [scanChar, isBlank, h1, scanEnd]
  | done v => simp [scanChar, isBlank, h1]

/-! ## C4: the integers of the packed action array -/

/-- Reading the characters written for a sequence of items, followed by the
final newline. -/
theorem scan_emitC (items : List (Int × Bool)) (t : Nat) (acc : List Int)
    (h : CommaOK items) :
    scanEnd ((emitC t items ++ ['\n']).foldl scanChar (some (acc, .fresh)))
      = some (acc ++ items.map Prod.fst) := by
  induction items generalizing t acc with
  | nil =>
    rw [emitC, List.nil_append, scan_newline acc .fresh (by decide)]
    simp [scanEnd]
  | cons x r ih =>
    obtain ⟨v, c⟩ := x
    obtain ⟨hc, hr⟩ := h
    simp only [emitC, List.append_assoc]
    obtain ⟨neg, n, hv, hscan⟩ := scan_intChars acc v
      ((if c = true then [',', ' '] else [])
        ++ ((if t % 8 = 7 then ['\n', '\t'] else []) ++ (emitC (t + 1) r ++ ['\n'])))
    rw [hscan]
    cases c with
    | true =>
      simp only [if_true, List.cons_append, List.nil_append]
      rw [scan_comma_num, hv]
      by_cases ht : t % 8 = 7
      · simp only [ht, if_true, List.cons_append, List.nil_append]
        rw [scan_wrap_fresh, ih (t + 1) (acc ++ [v]) hr]
        simp
      · simp only [ht, if_false, List.nil_append]
        rw [ih (t + 1) (acc ++ [v]) hr]
        simp
    | false =>
      have hnil : r = [] := by
        by_contra hne
        exact absurd (hc hne) (by decide)
      subst hnil
      simp only [emitC, List.nil_append, Bool.false_eq_true, if_false, List.map_cons,
        List.map_nil]
      by_cases ht : t % 8 = 7
      · simp only [ht, if_true, List.cons_append, List.nil_append]
        rw [scan_wrap_num, scan_newline _ _ (by simp), hv]
        rfl
      · simp only [ht, if_false, List.nil_append]
        rw [scan_newline _ _ (by simp), ← hv]
        rfl

/-- C4: for every action-table map, the text written by `ACTIONS_ARRAY`, read
as a comma-separated list of integers, is the reserved 0 followed, for each
action table in action-map order, by the length of the table and then the
action ids of its entries in table order; the machine `/a+b/`, whose single
table holds one action with id 0, yields `[0, 1, 0]`, and the empty map of
`/a/` yields `[0]`. -/
theorem ACTIONS_ARRAY_readInts (g : FsmCodeGen) :
    readInts (ACTIONS_ARRAY g).toList = some (actionsArraySpec g)
      ∧ readInts (ACTIONS_ARRAY (assignActionIds (findFinalActionRefs exAPlusB))).toList
          = some [0, 1, 0]
      ∧ readInts (ACTIONS_ARRAY exA).toList = some [0] := by
  refine ⟨?_, by decide, by decide⟩
  rw [ACTIONS_ARRAY_data, readInts, List.append_assoc, List.foldl_append]
  have h0 : ['\t', '0', ',', ' '].foldl scanChar (some ([], .fresh))
      = some ([0], .fresh) := by decide
  rw [h0, scan_emitC _ 1 [0] (flatTables_commaOK _ _), flatTables_values]
  rfl

/-! ## C9: eight integers to a line -/

theorem linesOf_append_newline (l rest : List Char) (h : '\n' ∉ l) :
    linesOf (l ++ '\n' :: rest) = l :: linesOf rest := by
  induction l with
  | nil => simp [linesOf]
  | cons c cs ih =>
    have hc : c ≠ '\n' := fun e => h (by simp [e])
    have hcs : '\n' ∉ cs := fun e => h (List.mem_cons_of_mem _ e)
    simp only [List.cons_append, linesOf, hc, if_false, List.append_eq, ih hcs]

theorem wrappedAtEight_cons (l : List Char) (ls : List (List Char))
    (hl : numInts l = some 8) (h : WrappedAtEight ls) : WrappedAtEight (l :: ls) := by
  obtain ⟨h1, last, k, h2, h3, h4⟩ := h
  cases ls with
  | nil => simp at h2
  | cons x xs =>
    refine ⟨?_, last, k, ?_, h3, h4⟩
    · intro y hy
      rw [List.dropLast_cons₂] at hy
      rcases List.mem_cons.mp hy with e | e
      · rw [e]; exact hl
      · exact h1 y e
    · rw [List.getLast?_cons_cons]; exact h2

theorem wrappedAtEight_single (l : List Char) (k : Nat) (hl : numInts l = some k) (hk : k ≤ 8) :
    WrappedAtEight [l] :=
  ⟨by simp, l, k, rfl, hl, hk⟩

/-- The lines of the text written for a sequence of items, when the line
under way `L` holds `t % 8` integers and stands between two elements. -/
theorem lines_emitC (items : List (Int × Bool)) (t : Nat) (L : List Char) (acc : List Int)
    (hc : CommaOK items) (hL : '\n' ∉ L)
    (hs : L.foldl scanChar (some ([], .fresh)) = some (acc, .fresh))
    (hk : acc.length = t % 8) :
    WrappedAtEight (linesOf (L ++ emitC t items ++ ['\n'])) := by
  induction items generalizing t L acc with
  | nil =>
    simp only [emitC, List.append_nil]
    rw [linesOf_append_newline L [] hL]
    apply wrappedAtEight_single L (t % 8) _ (by omega)
    simp [numInts, readInts, hs, scanEnd, hk]
  | cons x r ih =>
    obtain ⟨v, c⟩ := x
    obtain ⟨hcv, hr⟩ := hc
    have hv := intChars_no_newline v
    cases c with
    | true =>
      obtain ⟨neg, n, hsv, hscan⟩ := scan_intChars acc v [',', ' ']
      rw [scan_comma_num, hsv] at hscan
      simp only [List.foldl_nil] at hscan
      have hL1 : '\n' ∉ L ++ (intChars v ++ [',', ' ']) := by
        simp only [List.mem_append, List.mem_cons, List.mem_singleton, List.not_mem_nil,
          not_or]
        exact ⟨hL, hv, by decide, by decide, not_false⟩
      have hs1 : (L ++ (intChars v ++ [',', ' '])).foldl scanChar (some ([], .fresh))
          = some (acc ++ [v], .fresh) := by
        rw [List.foldl_append, hs, hscan]
      by_cases ht : t % 8 = 7
      · have e : L ++ emitC t ((v, true) :: r) ++ ['\n']
            = (L ++ (intChars v ++ [',', ' '])) ++ '\n' :: (['\t'] ++ emitC (t + 1) r ++ ['\n']) := by
          simp [emitC, ht]
        rw [e, linesOf_append_newline _ _ hL1]
        apply wrappedAtEight_cons
        · simp [numInts, readInts, hs1, scanEnd, hk, ht]
        · exact ih (t + 1) ['\t'] [] hr (by decide) (by decide) (by simp; omega)
      · have e : L ++ emitC t ((v, true) :: r) ++ ['\n']
            = (L ++ (intChars v ++ [',', ' '])) ++ emitC (t + 1) r ++ ['\n'] := by
          simp [emitC, ht]
        rw [e]
        exact ih (t + 1) _ (acc ++ [v]) hr hL1 hs1 (by simp; omega)
    | false =>
      have hnil : r = [] := by
        by_contra hne
        exact absurd (hcv hne) (by decide)
      subst hnil
      obtain ⟨neg, n, hsv, hscan⟩ := scan_intChars acc v []
      simp only [List.foldl_nil, List.append_nil] at hscan
      have hL1 : '\n' ∉ L ++ intChars v := by
        simp only [List.mem_append, not_or]
        exact ⟨hL, hv⟩
      have hn1 : numInts (L ++ intChars v) = some (t % 8 + 1) := by
        simp [numInts, readInts, List.foldl_append, hs, hscan, scanEnd, hk]
      by_cases ht : t % 8 = 7
      · have e : L ++ emitC t [(v, false)] ++ ['\n']
            = (L ++ intChars v) ++ '\n' :: (['\t'] ++ '\n' :: []) := by
          simp [emitC, ht]
        rw [e, linesOf_append_newline _ _ hL1, linesOf_append_newline _ _ (by decide)]
        apply wrappedAtEight_cons
        · rw [hn1, ht]
        · exact wrappedAtEight_single _ 0 (by decide) (by omega)
      · have e : L ++ emitC t [(v, false)] ++ ['\n'] = (L ++ intChars v) ++ '\n' :: [] := by
          simp [emitC, ht]
        rw [e, linesOf_append_newline _ _ hL1]
        exact wrappedAtEight_single _ _ hn1 (by omega)

/-- C9: for every action-table map, the text written by `ACTIONS_ARRAY` is
line-wrapped every eight items: every line of the text other than the last
holds exactly eight integers (the reserved leading 0 being the first item of
the first line) and the last line holds at most eight. -/
theorem ACTIONS_ARRAY_wrapped (g : FsmCodeGen) :
    WrappedAtEight (linesOf (ACTIONS_ARRAY g).toList) := by
  rw [ACTIONS_ARRAY_data]
  exact lines_emitC _ 1 ['\t', '0', ',', ' '] [0] (flatTables_commaOK _ _) (by decide)
    (by decide) (by decide)

/-! ## Proofs: the state loop of `setValueLimits` -/

theorem foldl_keeps {α β : Type} (P : FsmCodeGen → α) (step : FsmCodeGen → β → FsmCodeGen)
    (h : ∀ g x, P (step g x) = P g) (xs : List β) (g : FsmCodeGen) :
    P (xs.foldl step g) = P g := by
  induction xs generalizing g with
  | nil => rfl
  | cons x rest ih => rw [List.foldl_cons, ih, h]

theorem setValueLimitsCondSpaces_keeps (g : FsmCodeGen) :
    stateLimits (setValueLimitsCondSpaces g) = stateLimits g := by
  unfold setValueLimitsCondSpaces
  apply foldl_keeps
  intro g x
  split <;> rfl

theorem setValueLimitsTable_keeps (g : FsmCodeGen) (table : RedAction) :
    stateLimits (setValueLimitsTable g table) = stateLimits g := by
  unfold setValueLimitsTable setValueLimitsItems
  simp only
  rw [foldl_keeps stateLimits _ (fun g x => by split <;> rfl)]
  split <;> split <;> split <;> rfl

/-- The state loop started from the cleared limits decides the limits
`setValueLimits` leaves. -/
theorem setValueLimits_stateLimits (g : FsmCodeGen) :
    ∃ g0 : FsmCodeGen,
      stateLimits g0 = (g.redFsm, 0, 0, 0, 0, 0, 0, 0, (g.redFsm.transSet.length : Int))
        ∧ stateLimits (setValueLimits g)
          = stateLimits (setValueLimitsStates g0 g.redFsm.stateList) := by
  refine ⟨setValueLimitsCondSpaces { g with
      maxSingleLen := 0, maxRangeLen := 0, maxKeyOffset := 0, maxIndexOffset := 0,
      maxActListId := 0, maxActionLoc := 0, maxActArrItem := 0, maxSpan := 0,
      maxCondSpan := 0, maxFlatIndexOffset := 0, maxCondOffset := 0, maxCondLen := 0,
      maxCondSpaceId := 0, maxCondIndexOffset := 0,
      maxIndex := g.redFsm.transSet.length, maxCond := g.cgd.condSpaceList.length,
      maxState := g.redFsm.nextStateId - 1 }, ?_, ?_⟩
  · rw [setValueLimitsCondSpaces_keeps]
    rfl
  · unfold setValueLimits
    simp only
    rw [foldl_keeps stateLimits _ setValueLimitsTable_keeps]
    have h := setValueLimitsCondSpaces_keeps { g with
      maxSingleLen := 0, maxRangeLen := 0, maxKeyOffset := 0, maxIndexOffset := 0,
      maxActListId := 0, maxActionLoc := 0, maxActArrItem := 0, maxSpan := 0,
      maxCondSpan := 0, maxFlatIndexOffset := 0, maxCondOffset := 0, maxCondLen := 0,
      maxCondSpaceId := 0, maxCondIndexOffset := 0,
      maxIndex := g.redFsm.transSet.length, maxCond := g.cgd.condSpaceList.length,
      maxState := g.redFsm.nextStateId - 1 }
    have hr : (setValueLimitsCondSpaces { g with
      maxSingleLen := 0, maxRangeLen := 0, maxKeyOffset := 0, maxIndexOffset := 0,
      maxActListId := 0, maxActionLoc := 0, maxActArrItem := 0, maxSpan := 0,
      maxCondSpan := 0, maxFlatIndexOffset := 0, maxCondOffset := 0, maxCondLen := 0,
      maxCondSpaceId := 0, maxCondIndexOffset := 0,
      maxIndex := g.redFsm.transSet.length, maxCond := g.cgd.condSpaceList.length,
      maxState := g.redFsm.nextStateId - 1 }).redFsm = g.redFsm := congrArg Prod.fst h
    rw [hr]

/-- A limit that every state raises to its own measure. -/
theorem states_max {α : Type} [LinearOrder α] (f : FsmCodeGen → α) (len : RedStateAp → α)
    (hstep : ∀ g st last, f (setValueLimitsState g st last) = max (f g) (len st))
    (sts : List RedStateAp) (g : FsmCodeGen) :
    f (setValueLimitsStates g sts) = sts.foldl (fun m st => max m (len st)) (f g) := by
  induction sts generalizing g with
  | nil => rfl
  | cons st rest ih => rw [setValueLimitsStates, ih, hstep, List.foldl_cons]

/-- A running total to which every state but the last adds its own measure. -/
theorem states_sum (f : FsmCodeGen → Int) (w : RedStateAp → Int)
    (hstep : ∀ g st last,
      f (setValueLimitsState g st last) = if last then f g else f g + w st)
    (sts : List RedStateAp) (g : FsmCodeGen) :
    f (setValueLimitsStates g sts) = f g + (sts.dropLast.map w).sum := by
  induction sts generalizing g with
  | nil => simp [setValueLimitsStates]
  | cons st rest ih =>
    rw [setValueLimitsStates, ih, hstep]
    cases rest with
    | nil => simp
    | cons y ys => simp [List.dropLast_cons₂]; ring

theorem foldl_max_ge {α β : Type} [LinearOrder α] (len : β → α) (xs : List β) (m : α) :
    m ≤ xs.foldl (fun m x => max m (len x)) m
      ∧ ∀ x ∈ xs, len x ≤ xs.foldl (fun m x => max m (len x)) m := by
  induction xs generalizing m with
  | nil => simp
  | cons y ys ih =>
    obtain ⟨h1, h2⟩ := ih (max m (len y))
    refine ⟨le_trans (le_max_left _ _) h1, ?_⟩
    intro x hx
    rcases List.mem_cons.mp hx with e | e
    · rw [e]; exact le_trans (le_max_right _ _) h1
    · exact h2 x e

theorem foldl_max_attained {α β : Type} [LinearOrder α] (len : β → α) (xs : List β) (m : α) :
    xs.foldl (fun m x => max m (len x)) m = m
      ∨ ∃ x ∈ xs, xs.foldl (fun m x => max m (len x)) m = len x := by
  induction xs generalizing m with
  | nil => left; rfl
  | cons y ys ih =>
    rcases ih (max m (len y)) with h | ⟨x, hx, h⟩
    · rcases max_choice m (len y) with e | e
      · left; rw [List.foldl_cons, h, e]
      · right; exact ⟨y, List.mem_cons_self _ _, by rw [List.foldl_cons, h, e]⟩
    · right; exact ⟨x, List.mem_cons_of_mem _ hx, by rw [List.foldl_cons, h]⟩

/-- A maximum taken from 0 over measures that are all at least 0 is the
measure of some element, when there is an element. -/
theorem foldl_max_attained_zero {α β : Type} [LinearOrder α] [Zero α] (len : β → α)
    (hlen : ∀ x, 0 ≤ len x) (xs : List β) (hne : xs ≠ []) :
    ∃ x ∈ xs, xs.foldl (fun m x => max m (len x)) 0 = len x := by
  rcases foldl_max_attained len xs 0 with h | h
  · cases xs with
    | nil => exact absurd rfl hne
    | cons y ys =>
      refine ⟨y, List.mem_cons_self _ _, ?_⟩
      have hy := (foldl_max_ge len (y :: ys) 0).2 y (List.mem_cons_self _ _)
      rw [h] at hy ⊢
      exact le_antisymm (hlen y) hy
  · exact h

theorem max_eq_ite_gt {α : Type} [LinearOrder α] (a b : α) :
    (if b > a then b else a) = max a b := by
  rcases le_or_lt b a with h | h
  · rw [if_neg (not_lt.mpr h), max_eq_left h]
  · rw [if_pos h, max_eq_right (le_of_lt h)]

/-! ## C5, C6, C7, C8: the limits -/

/-- C5: after `setValueLimits` on a reduced machine (which has at least its
start state), each of `maxSingleLen`, `maxRangeLen` and `maxCondLen` is at
least the corresponding length (`outSingle`, `outRange`, `stateCondList`) of
every state, and equals that length for at least one state. -/
theorem setValueLimits_lens (g : FsmCodeGen) (hne : g.redFsm.stateList ≠ []) :
    (∀ st ∈ g.redFsm.stateList,
        (st.outSingle.length : Int) ≤ (setValueLimits g).maxSingleLen
          ∧ (st.outRange.length : Int) ≤ (setValueLimits g).maxRangeLen
          ∧ (st.stateCondList.length : Int) ≤ (setValueLimits g).maxCondLen)
      ∧ (∃ st ∈ g.redFsm.stateList,
          (setValueLimits g).maxSingleLen = (st.outSingle.length : Int))
      ∧ (∃ st ∈ g.redFsm.stateList,
          (setValueLimits g).maxRangeLen = (st.outRange.length : Int))
      ∧ (∃ st ∈ g.redFsm.stateList,
          (setValueLimits g).maxCondLen = (st.stateCondList.length : Int)) := by
  obtain ⟨g0, h0, h⟩ := setValueLimits_stateLimits g
  have s1 : (setValueLimits g).maxSingleLen
      = g.redFsm.stateList.foldl (fun m st => max m (st.outSingle.length : Int)) 0 := by
    have e := congrArg (fun t => t.2.1) h
    have e0 : g0.maxSingleLen = 0 := congrArg (fun t => t.2.1) h0
    simp only [stateLimits] at e
    rw [e, states_max FsmCodeGen.maxSingleLen (fun st => (st.outSingle.length : Int))
      (fun g st last => max_eq_ite_gt _ _), e0]
  have s2 : (setValueLimits g).maxRangeLen
      = g.redFsm.stateList.foldl (fun m st => max m (st.outRange.length : Int)) 0 := by
    have e := congrArg (fun t => t.2.2.1) h
    have e0 : g0.maxRangeLen = 0 := congrArg (fun t => t.2.2.1) h0
    simp only [stateLimits] at e
    rw [e, states_max FsmCodeGen.maxRangeLen (fun st => (st.outRange.length : Int))
      (fun g st last => max_eq_ite_gt _ _), e0]
  have s3 : (setValueLimits g).maxCondLen
      = g.redFsm.stateList.foldl (fun m st => max m (st.stateCondList.length : Int)) 0 := by
    have e := congrArg (fun t => t.2.2.2.1) h
    have e0 : g0.maxCondLen = 0 := congrArg (fun t => t.2.2.2.1) h0
    simp only [stateLimits] at e
    rw [e, states_max FsmCodeGen.maxCondLen (fun st => (st.stateCondList.length : Int))
      (fun g st last => max_eq_ite_gt _ _), e0]
  rw [s1, s2, s3]
  refine ⟨fun st hst => ⟨?_, ?_, ?_⟩, ?_, ?_, ?_⟩
  · exact (foldl_max_ge (fun st : RedStateAp => (st.outSingle.length : Int)) _ 0).2 st hst
  · exact (foldl_max_ge (fun st : RedStateAp => (st.outRange.length : Int)) _ 0).2 st hst
  · exact (foldl_max_ge (fun st : RedStateAp => (st.stateCondList.length : Int)) _ 0).2 st hst
  · exact foldl_max_attained_zero (fun st : RedStateAp => (st.outSingle.length : Int))
      (fun st => Int.natCast_nonneg _) _ hne
  · exact foldl_max_attained_zero (fun st : RedStateAp => (st.outRange.length : Int))
      (fun st => Int.natCast_nonneg _) _ hne
  · exact foldl_max_attained_zero (fun st : RedStateAp => (st.stateCondList.length : Int))
      (fun st => Int.natCast_nonneg _) _ hne

/-- C5 at the machine `/a+b/`: three states, the longest single list has two
transitions. -/
theorem setValueLimits_lens_witness :
    (∀ st ∈ exAPlusB.redFsm.stateList,
        (st.outSingle.length : Int) ≤ (setValueLimits exAPlusB).maxSingleLen
          ∧ (st.outRange.length : Int) ≤ (setValueLimits exAPlusB).maxRangeLen
          ∧ (st.stateCondList.length : Int) ≤ (setValueLimits exAPlusB).maxCondLen)
      ∧ (∃ st ∈ exAPlusB.redFsm.stateList,
          (setValueLimits exAPlusB).maxSingleLen = (st.outSingle.length : Int))
      ∧ (∃ st ∈ exAPlusB.redFsm.stateList,
          (setValueLimits exAPlusB).maxRangeLen = (st.outRange.length : Int))
      ∧ (∃ st ∈ exAPlusB.redFsm.stateList,
          (setValueLimits exAPlusB).maxCondLen = (st.stateCondList.length : Int)) :=
  setValueLimits_lens exAPlusB (by decide)

theorem setValueLimits_maxSpan_eq (g : FsmCodeGen) :
    (setValueLimits g).maxSpan
      = g.redFsm.stateList.foldl (fun m st => max m (flatSpan st)) 0 := by
  obtain ⟨g0, h0, h⟩ := setValueLimits_stateLimits g
  have e := congrArg (fun t => t.2.2.2.2.1) h
  have e0 : g0.maxSpan = 0 := congrArg (fun t => t.2.2.2.2.1) h0
  simp only [stateLimits] at e
  rw [e, states_max FsmCodeGen.maxSpan flatSpan, e0]
  intro g st last
  show (if st.transList.isSome then
      if span st.lowKey st.highKey > g.maxSpan then span st.lowKey st.highKey else g.maxSpan
    else g.maxSpan) = max g.maxSpan (flatSpan st)
  unfold flatSpan
  cases st.transList.isSome
  · simp
  · simp only [if_true]
    exact max_eq_ite_gt _ _

/-- C6, as stated, fails: in the machine `/a/` no state has a flat transition
list, `setValueLimits` leaves `maxSpan = 0`, and the span of the keys of every
state is 1. -/
theorem setValueLimits_maxSpan_counterexample :
    (setValueLimits exA).maxSpan = 0
      ∧ (∀ st ∈ exA.redFsm.stateList, span st.lowKey st.highKey = 1)
      ∧ ¬ (∀ st ∈ exA.redFsm.stateList,
            span st.lowKey st.highKey ≤ (setValueLimits exA).maxSpan) := by
  decide

/-- C6 (amended): after `setValueLimits`, `maxSpan` is at least
`keyOps.span(lowKey, highKey)` of every state that has a flat transition list
(`transList` not null) and equals it for at least one such state when there is
one; states without a flat transition list are skipped, and `maxSpan` is 0
when no state has one.  For the machine `/[a-z]/`, whose start state has the
one range transition and its flat list, the result is `maxRangeLen = 1`,
`maxSingleLen = 0` and `maxSpan = 26`. -/
theorem setValueLimits_maxSpan (g : FsmCodeGen) :
    (∀ st ∈ g.redFsm.stateList, st.transList.isSome = true →
        span st.lowKey st.highKey ≤ (setValueLimits g).maxSpan)
      ∧ ((∃ st ∈ g.redFsm.stateList, st.transList.isSome = true) →
          ∃ st ∈ g.redFsm.stateList, st.transList.isSome = true
            ∧ (setValueLimits g).maxSpan = span st.lowKey st.highKey)
      ∧ ((∀ st ∈ g.redFsm.stateList, st.transList.isSome = false) →
          (setValueLimits g).maxSpan = 0)
      ∧ ((setValueLimits exAZ).maxRangeLen = 1 ∧ (setValueLimits exAZ).maxSingleLen = 0
          ∧ (setValueLimits exAZ).maxSpan = 26) := by
  rw [setValueLimits_maxSpan_eq]
  have hge := foldl_max_ge flatSpan g.redFsm.stateList 0
  refine ⟨?_, ?_, ?_, by decide⟩
  · intro st hst hsome
    have := hge.2 st hst
    simpa [flatSpan, hsome] using this
  · rintro ⟨st0, hst0, hsome0⟩
    obtain ⟨st, hst, he⟩ := foldl_max_attained_zero flatSpan (fun st => Nat.zero_le _)
      g.redFsm.stateList (List.ne_nil_of_mem hst0)
    by_cases hs : st.transList.isSome = true
    · exact ⟨st, hst, hs, by rw [he, flatSpan, if_pos hs]⟩
    · refine ⟨st0, hst0, hsome0, ?_⟩
      have hz : flatSpan st = 0 := by rw [flatSpan, if_neg hs]
      have h1 := hge.2 st0 hst0
      rw [he, hz] at h1 ⊢
      simp only [flatSpan, hsome0, if_true] at h1
      omega
  · intro hnone
    rcases foldl_max_attained flatSpan g.redFsm.stateList 0 with h | ⟨st, hst, h⟩
    · exact h
    · rw [h, flatSpan, hnone st hst]
      rfl

/-- C7: after `setValueLimits`, `maxKeyOffset` is the sum over all states
except the last of `|outSingle| + 2 * |outRange|`, `maxIndexOffset` the sum
over all states except the last of `|outSingle| + |outRange| + 1`, and
`maxCondOffset` the sum over all states except the last of `|stateCondList|`;
the last state contributes to none of them. -/
theorem setValueLimits_offsets (g : FsmCodeGen) :
    (setValueLimits g).maxKeyOffset
        = (g.redFsm.stateList.dropLast.map
            (fun st => (st.outSingle.length : Int) + st.outRange.length * 2)).sum
      ∧ (setValueLimits g).maxIndexOffset
        = (g.redFsm.stateList.dropLast.map
            (fun st => (st.outSingle.length : Int) + st.outRange.length + 1)).sum
      ∧ (setValueLimits g).maxCondOffset
        = (g.redFsm.stateList.dropLast.map
            (fun st => (st.stateCondList.length : Int))).sum := by
  obtain ⟨g0, h0, h⟩ := setValueLimits_stateLimits g
  refine ⟨?_, ?_, ?_⟩
  · have e := congrArg (fun t => t.2.2.2.2.2.1) h
    have e0 : g0.maxKeyOffset = 0 := congrArg (fun t => t.2.2.2.2.2.1) h0
    simp only [stateLimits] at e
    rw [e, states_sum FsmCodeGen.maxKeyOffset
      (fun st => (st.outSingle.length : Int) + st.outRange.length * 2)
      (fun g st last => by cases last <;> rfl), e0, zero_add]
  · have e := congrArg (fun t => t.2.2.2.2.2.2.1) h
    have e0 : g0.maxIndexOffset = 0 := congrArg (fun t => t.2.2.2.2.2.2.1) h0
    simp only [stateLimits] at e
    rw [e, states_sum FsmCodeGen.maxIndexOffset
      (fun st => (st.outSingle.length : Int) + st.outRange.length + 1)
      (fun g st last => by cases last <;> rfl), e0, zero_add]
  · have e := congrArg (fun t => t.2.2.2.2.2.2.2.1) h
    have e0 : g0.maxCondOffset = 0 := congrArg (fun t => t.2.2.2.2.2.2.2.1) h0
    simp only [stateLimits] at e
    rw [e, states_sum FsmCodeGen.maxCondOffset
      (fun st => (st.stateCondList.length : Int))
      (fun g st last => by cases last <;> rfl), e0, zero_add]

/-- C8: for the reduced machine of `/a/` (start state 0 with one single
transition on `'a'` to the final state 1, one transition in `transSet`, no
actions), `setValueLimits` yields `maxSingleLen = 1`, `maxRangeLen = 0`,
`maxSpan = 0` and `maxIndex = 1`, and `ACTIONS_ARRAY` writes only the reserved
element 0. -/
theorem setValueLimits_exA :
    (setValueLimits exA).maxSingleLen = 1
      ∧ (setValueLimits exA).maxRangeLen = 0
      ∧ (setValueLimits exA).maxSpan = 0
      ∧ (setValueLimits exA).maxIndex = 1
      ∧ ACTIONS_ARRAY exA = "\t0, \n"
      ∧ readInts (ACTIONS_ARRAY exA).toList = some [0] := by
  decide

/-! ## Proofs: the flags of referenced actions -/

theorem analyzeActionReg_keeps (act : Action) (item : InlineItem) (g : FsmCodeGen) :
    actionFlags (analyzeActionReg act item g) = actionFlags g := by
  unfold analyzeActionReg
  split <;> rfl

theorem analyzeActionRefd_gotos (act : Action) (item : InlineItem) (g : FsmCodeGen) :
    (analyzeActionRefd act item g).bAnyActionGotos
      = (g.bAnyActionGotos || (decide (0 < act.numRefs) && isGoto item.type)) := by
  unfold analyzeActionRefd isGoto
  by_cases hr : 0 < act.numRefs
  · cases ht : item.type <;> simp [hr]
  · simp [hr]

theorem analyzeActionRefd_calls (act : Action) (item : InlineItem) (g : FsmCodeGen) :
    (analyzeActionRefd act item g).bAnyActionCalls
      = (g.bAnyActionCalls || (decide (0 < act.numRefs) && isCall item.type)) := by
  unfold analyzeActionRefd isCall
  by_cases hr : 0 < act.numRefs
  · cases ht : item.type <;> simp [hr]
  · simp [hr]

theorem analyzeActionRefd_rets (act : Action) (item : InlineItem) (g : FsmCodeGen) :
    (analyzeActionRefd act item g).bAnyActionRets
      = (g.bAnyActionRets || (decide (0 < act.numRefs) && isRet item.type)) := by
  unfold analyzeActionRefd isRet
  by_cases hr : 0 < act.numRefs
  · cases ht : item.type <;> simp [hr]
  · simp [hr]

mutual
/-- A flag that the loop body raises on the tags `pred` of a referenced
action is raised by `analyzeAction` exactly when the list has such a tag at
some depth. -/
theorem analyzeAction_flag (proj : FsmCodeGen → Bool) (pred : InlineType → Bool)
    (act : Action)
    (hstep : ∀ (item : InlineItem) (g : FsmCodeGen),
      proj (analyzeActionReg act item (analyzeActionRefd act item g))
        = (proj g || (decide (0 < act.numRefs) && pred item.type))) :
    ∀ (items : List InlineItem) (g : FsmCodeGen),
      proj (analyzeAction act g items)
        = (proj g || (decide (0 < act.numRefs) && hasItem pred items))
  | [], g => by simp [analyzeAction, hasItem]
  | item :: rest, g => by
    rw [analyzeAction, analyzeAction_flag proj pred act hstep rest,
      analyzeActionItem_flag proj pred act hstep item, hasItem]
    cases proj g <;> cases decide (0 < act.numRefs) <;> cases itemHas pred item <;> simp
/-- The same for one item and its descendants. -/
theorem analyzeActionItem_flag (proj : FsmCodeGen → Bool) (pred : InlineType → Bool)
    (act : Action)
    (hstep : ∀ (item : InlineItem) (g : FsmCodeGen),
      proj (analyzeActionReg act item (analyzeActionRefd act item g))
        = (proj g || (decide (0 < act.numRefs) && pred item.type))) :
    ∀ (item : InlineItem) (g : FsmCodeGen),
      proj (analyzeActionItem act g item)
        = (proj g || (decide (0 < act.numRefs) && itemHas pred item))
  | .mk type data targState lmId offset handlesError none, g => by
    rw [analyzeActionItem, hstep, itemHas]
    rfl
  | .mk type data targState lmId offset handlesError (some children), g => by
    rw [analyzeActionItem, analyzeAction_flag proj pred act hstep children, hstep, itemHas]
    simp only [InlineItem.type]
    cases proj g <;> cases decide (0 < act.numRefs) <;> cases pred type <;> simp
end

/-- The loop over the action list raises such a flag exactly when a
referenced action of the list has such a tag. -/
theorem actionsLoop_flag (proj : FsmCodeGen → Bool) (pred : InlineType → Bool)
    (hkinds : ∀ g act, proj (analyzeMachineKinds g act) = proj g)
    (hstep : ∀ (act : Action) (item : InlineItem) (g : FsmCodeGen),
      proj (analyzeActionReg act item (analyzeActionRefd act item g))
        = (proj g || (decide (0 < act.numRefs) && pred item.type)))
    (acts : List Action) (g : FsmCodeGen) :
    proj (acts.foldl (fun g act =>
        analyzeAction act (analyzeMachineKinds g act) act.inlineList) g)
      = (proj g
          || acts.any (fun act => decide (0 < act.numRefs) && hasItem pred act.inlineList)) := by
  induction acts generalizing g with
  | nil => simp
  | cons act rest ih =>
    rw [List.foldl_cons, ih, analyzeAction_flag proj pred act (hstep act), hkinds,
      List.any_cons, Bool.or_assoc]

theorem setValueLimitsStates_flags (g : FsmCodeGen) (sts : List RedStateAp) :
    actionFlags (setValueLimitsStates g sts) = actionFlags g := by
  induction sts generalizing g with
  | nil => rfl
  | cons st rest ih => rw [setValueLimitsStates, ih]; rfl

theorem setValueLimits_flags (g : FsmCodeGen) :
    actionFlags (setValueLimits g) = actionFlags g := by
  unfold setValueLimits
  simp only
  rw [foldl_keeps actionFlags setValueLimitsTable, setValueLimitsStates_flags]
  · unfold setValueLimitsCondSpaces
    rw [foldl_keeps actionFlags]
    · rfl
    · intro g x
      split <;> rfl
  · intro g table
    unfold setValueLimitsTable setValueLimitsItems
    simp only
    rw [foldl_keeps actionFlags _ (fun g x => by split <;> rfl)]
    split <;> split <;> split <;> rfl

theorem Action.inlineList_incRefs (c : RefClass) (x : Action) :
    (x.incRefs c).inlineList = x.inlineList := by
  cases c <;> rfl

theorem refActionOpt_frame (c : RefClass) (g : FsmCodeGen) (ra : Option Nat) :
    refFrame (refActionOpt c g ra) = refFrame g := by
  cases ra with
  | none => rfl
  | some r =>
    simp only [refActionOpt, refAction]
    cases hr : g.redFsm.actionMap[r]? with
    | none => rfl
    | some table =>
      simp only [refFrame, actionFlags, refItems]
      congr 1
      generalize g.cgd.actionList = acts
      induction table.key generalizing acts with
      | nil => rfl
      | cons it rest ih =>
        simp only [List.foldl_cons]
        rw [ih, updAt_map_eq _ _ (Action.inlineList_incRefs c)]

theorem findFinalActionRefsState_frame (g : FsmCodeGen) (st : RedStateAp) :
    refFrame (findFinalActionRefsState g st) = refFrame g := by
  unfold findFinalActionRefsState
  simp only
  rw [refActionOpt_frame, refActionOpt_frame, refActionOpt_frame]
  have h3 : ∀ g0 : FsmCodeGen,
      refFrame (match st.defTrans with
        | none => g0
        | some t => refActionOpt .trans g0 t.action) = refFrame g0 := by
    intro g0
    cases st.defTrans with
    | none => rfl
    | some t => exact refActionOpt_frame _ _ _
  rw [h3, foldl_keeps refFrame _ (fun g x => refActionOpt_frame _ _ _),
    foldl_keeps refFrame _ (fun g x => refActionOpt_frame _ _ _)]

theorem findFinalActionRefs_frame (g : FsmCodeGen) :
    refFrame (findFinalActionRefs g) = refFrame g :=
  foldl_keeps refFrame _ findFinalActionRefsState_frame _ g

/-- The total references of the action `a` after `findFinalActionRefs`. -/
theorem findFinalActionRefs_numRefs (g : FsmCodeGen) (hz : CountersZero g)
    (a : Nat) (ha : a < g.cgd.actionList.length) :
    ∃ act, (findFinalActionRefs g).cgd.actionList[a]? = some act
      ∧ act.numRefs = totalRefs g.redFsm a := by
  obtain ⟨act, h1, h2⟩ := findFinalActionRefs_counter .trans g hz a ha
  obtain ⟨act3, h3, h4⟩ := findFinalActionRefs_counter .toState g hz a ha
  obtain ⟨act5, h5, h6⟩ := findFinalActionRefs_counter .fromState g hz a ha
  obtain ⟨act7, h7, h8⟩ := findFinalActionRefs_counter .eof g hz a ha
  rw [h1] at h3 h5 h7
  cases h3
  cases h5
  cases h7
  refine ⟨act, h1, ?_⟩
  simp only [Action.refs] at h2 h4 h6 h8
  simp only [Action.numRefs, totalRefs, h2, h4, h6, h8]

/-- The referenced actions with a tag `pred`, seen from the machine handed
to the analysis. -/
theorem referenced_any_iff (pred : InlineType → Bool) (g : FsmCodeGen) (hz : CountersZero g) :
    (findFinalActionRefs g).cgd.actionList.any
        (fun act => decide (0 < act.numRefs) && hasItem pred act.inlineList) = true
      ↔ ∃ a act, g.cgd.actionList[a]? = some act ∧ 0 < totalRefs g.redFsm a
          ∧ hasItem pred act.inlineList = true := by
  have hlen := (findFinalActionRefs_inv g).2
  have hil : (findFinalActionRefs g).cgd.actionList.map (fun act => act.inlineList)
      = g.cgd.actionList.map (fun act => act.inlineList) :=
    congrArg Prod.snd (findFinalActionRefs_frame g)
  have hsame : ∀ (a : Nat) (act1 act : Action),
      (findFinalActionRefs g).cgd.actionList[a]? = some act1 →
      g.cgd.actionList[a]? = some act → act1.inlineList = act.inlineList := by
    intro a act1 act h1 h0
    have e : ((findFinalActionRefs g).cgd.actionList.map (fun act => act.inlineList))[a]?
        = (g.cgd.actionList.map (fun act => act.inlineList))[a]? := by rw [hil]
    simp only [List.getElem?_map, h1, h0, Option.map_some', Option.some.injEq] at e
    exact e
  rw [List.any_eq_true]
  constructor
  · rintro ⟨act1, hmem, hp⟩
    obtain ⟨a, ha1⟩ := List.mem_iff_getElem?.mp hmem
    have ha : a < g.cgd.actionList.length := by
      rw [← hlen]
      exact (List.getElem?_eq_some_iff.mp ha1).1
    obtain ⟨act1b, hb, hnum⟩ := findFinalActionRefs_numRefs g hz a ha
    rw [ha1] at hb
    cases hb
    simp only [Bool.and_eq_true, decide_eq_true_eq] at hp
    refine ⟨a, g.cgd.actionList[a], List.getElem?_eq_getElem ha, ?_, ?_⟩
    · rw [← hnum]; exact hp.1
    · rw [← hsame a act1 _ ha1 (List.getElem?_eq_getElem ha)]; exact hp.2
  · rintro ⟨a, act, h0, hpos, hp⟩
    have ha : a < g.cgd.actionList.length := (List.getElem?_eq_some_iff.mp h0).1
    obtain ⟨act1, h1, hnum⟩ := findFinalActionRefs_numRefs g hz a ha
    refine ⟨act1, List.mem_iff_getElem?.mpr ⟨a, h1⟩, ?_⟩
    simp only [Bool.and_eq_true, decide_eq_true_eq]
    exact ⟨by rw [hnum]; exact hpos, by rw [hsame a act1 act h1 h0]; exact hp⟩

/-- The three flags after the whole analysis are those after the loop over
the action list. -/
theorem analyzeMachine_flags (decider : FsmCodeGen → Bool) (g : FsmCodeGen) :
    actionFlags (analyzeMachine decider g)
      = actionFlags (analyzeMachineActions (findFinalActionRefs g)) := by
  unfold analyzeMachine
  simp only
  show actionFlags (setValueLimits _) = _
  rw [setValueLimits_flags]
  rfl

/-! ## C10: gotos, calls and returns in referenced actions -/

/-- C10: after `analyzeMachine` started with the three flags false and all
reference counters zero, `bAnyActionGotos` (resp. `bAnyActionCalls`,
`bAnyActionRets`) is true if and only if some action with positive total
references contains, at any nesting depth of its inline tree, a `Goto` or
`GotoExpr` item (resp. `Call` or `CallExpr`, resp. `Ret`). -/
theorem analyzeMachine_actionFlags (decider : FsmCodeGen → Bool) (g : FsmCodeGen)
    (hz : CountersZero g)
    (hf : g.bAnyActionGotos = false ∧ g.bAnyActionCalls = false ∧ g.bAnyActionRets = false) :
    ((analyzeMachine decider g).bAnyActionGotos = true
        ↔ ∃ a act, g.cgd.actionList[a]? = some act ∧ 0 < totalRefs g.redFsm a
            ∧ hasItem isGoto act.inlineList = true)
      ∧ ((analyzeMachine decider g).bAnyActionCalls = true
        ↔ ∃ a act, g.cgd.actionList[a]? = some act ∧ 0 < totalRefs g.redFsm a
            ∧ hasItem isCall act.inlineList = true)
      ∧ ((analyzeMachine decider g).bAnyActionRets = true
        ↔ ∃ a act, g.cgd.actionList[a]? = some act ∧ 0 < totalRefs g.redFsm a
            ∧ hasItem isRet act.inlineList = true) := by
  have hm := analyzeMachine_flags decider g
  have h0 : actionFlags (findFinalActionRefs g) = actionFlags g :=
    congrArg Prod.fst (findFinalActionRefs_frame g)
  obtain ⟨f1, f2, f3⟩ := hf
  have g1 : (findFinalActionRefs g).bAnyActionGotos = false := by
    rw [← f1]; exact congrArg (fun t => t.1) h0
  have g2 : (findFinalActionRefs g).bAnyActionCalls = false := by
    rw [← f2]; exact congrArg (fun t => t.2.1) h0
  have g3 : (findFinalActionRefs g).bAnyActionRets = false := by
    rw [← f3]; exact congrArg (fun t => t.2.2) h0
  refine ⟨?_, ?_, ?_⟩
  · have e : (analyzeMachine decider g).bAnyActionGotos
        = (analyzeMachineActions (findFinalActionRefs g)).bAnyActionGotos :=
      congrArg (fun t => t.1) hm
    rw [e, analyzeMachineActions,
      actionsLoop_flag FsmCodeGen.bAnyActionGotos isGoto (fun _ _ => rfl)
        (fun act item g0 => by
          have k := congrArg (fun t => t.1)
            (analyzeActionReg_keeps act item (analyzeActionRefd act item g0))
          simp only [actionFlags] at k
          rw [k, analyzeActionRefd_gotos]),
      g1, Bool.false_or]
    exact referenced_any_iff isGoto g hz
  · have e : (analyzeMachine decider g).bAnyActionCalls
        = (analyzeMachineActions (findFinalActionRefs g)).bAnyActionCalls :=
      congrArg (fun t => t.2.1) hm
    rw [e, analyzeMachineActions,
      actionsLoop_flag FsmCodeGen.bAnyActionCalls isCall (fun _ _ => rfl)
        (fun act item g0 => by
          have k := congrArg (fun t => t.2.1)
            (analyzeActionReg_keeps act item (analyzeActionRefd act item g0))
          simp only [actionFlags] at k
          rw [k, analyzeActionRefd_calls]),
      g2, Bool.false_or]
    exact referenced_any_iff isCall g hz
  · have e : (analyzeMachine decider g).bAnyActionRets
        = (analyzeMachineActions (findFinalActionRefs g)).bAnyActionRets :=
      congrArg (fun t => t.2.2) hm
    rw [e, analyzeMachineActions,
      actionsLoop_flag FsmCodeGen.bAnyActionRets isRet (fun _ _ => rfl)
        (fun act item g0 => by
          have k := congrArg (fun t => t.2.2)
            (analyzeActionReg_keeps act item (analyzeActionRefd act item g0))
          simp only [actionFlags] at k
          rw [k, analyzeActionRefd_rets]),
      g3, Bool.false_or]
    exact referenced_any_iff isRet g hz

/-- C10 at a machine whose referenced action holds a `Goto` two sub-actions
deep and whose unreferenced action holds a `Call`. -/
theorem analyzeMachine_actionFlags_witness :
    ((analyzeMachine (fun _ => true) exNested).bAnyActionGotos = true
        ↔ ∃ a act, exNested.cgd.actionList[a]? = some act ∧ 0 < totalRefs exNested.redFsm a
            ∧ hasItem isGoto act.inlineList = true)
      ∧ ((analyzeMachine (fun _ => true) exNested).bAnyActionCalls = true
        ↔ ∃ a act, exNested.cgd.actionList[a]? = some act ∧ 0 < totalRefs exNested.redFsm a
            ∧ hasItem isCall act.inlineList = true)
      ∧ ((analyzeMachine (fun _ => true) exNested).bAnyActionRets = true
        ↔ ∃ a act, exNested.cgd.actionList[a]? = some act ∧ 0 < totalRefs exNested.redFsm a
            ∧ hasItem isRet act.inlineList = true) :=
  analyzeMachine_actionFlags (fun _ => true) exNested (by decide) ⟨rfl, rfl, rfl⟩

/-! ## Proofs: the flags of regular actions -/

theorem analyzeActionRefd_regFlags (act : Action) (item : InlineItem) (g : FsmCodeGen) :
    regFlags (analyzeActionRefd act item g) = regFlags g := by
  unfold analyzeActionRefd
  split
  · split
    · rfl
    · split
      · rfl
      · split <;> rfl
  · rfl

mutual
/-- A flag that the loop body raises on the items `p` of an action passing
the test `c` is raised by `analyzeAction` exactly when the list has such an
item at some depth. -/
theorem analyzeAction_node (proj : FsmCodeGen → Bool) (p : InlineItem → Bool)
    (act : Action) (c : Bool)
    (hstep : ∀ (item : InlineItem) (g : FsmCodeGen),
      proj (analyzeActionReg act item (analyzeActionRefd act item g))
        = (proj g || (c && p item))) :
    ∀ (items : List InlineItem) (g : FsmCodeGen),
      proj (analyzeAction act g items) = (proj g || (c && hasNode p items))
  | [], g => by simp [analyzeAction, hasNode]
  | item :: rest, g => by
    rw [analyzeAction, analyzeAction_node proj p act c hstep rest,
      analyzeActionItem_node proj p act c hstep item, hasNode]
    cases proj g <;> cases c <;> cases nodeHas p item <;> simp
/-- The same for one item and its descendants. -/
theorem analyzeActionItem_node (proj : FsmCodeGen → Bool) (p : InlineItem → Bool)
    (act : Action) (c : Bool)
    (hstep : ∀ (item : InlineItem) (g : FsmCodeGen),
      proj (analyzeActionReg act item (analyzeActionRefd act item g))
        = (proj g || (c && p item))) :
    ∀ (item : InlineItem) (g : FsmCodeGen),
      proj (analyzeActionItem act g item) = (proj g || (c && nodeHas p item))
  | .mk type data targState lmId offset handlesError none, g => by
    rw [analyzeActionItem, hstep, nodeHas]
  | .mk type data targState lmId offset handlesError (some children), g => by
    rw [analyzeActionItem, analyzeAction_node proj p act c hstep children, hstep, nodeHas]
    cases proj g <;> cases c
      <;> cases p (.mk type data targState lmId offset handlesError (some children)) <;> simp
end

/-- The loop over the action list raises such a flag exactly when an action
of the list passes the test and has such an item. -/
theorem actionsLoop_node (proj : FsmCodeGen → Bool) (p : InlineItem → Bool)
    (c : Action → Bool)
    (hkinds : ∀ g act, proj (analyzeMachineKinds g act) = proj g)
    (hstep : ∀ (act : Action) (item : InlineItem) (g : FsmCodeGen),
      proj (analyzeActionReg act item (analyzeActionRefd act item g))
        = (proj g || (c act && p item)))
    (acts : List Action) (g : FsmCodeGen) :
    proj (acts.foldl (fun g act =>
        analyzeAction act (analyzeMachineKinds g act) act.inlineList) g)
      = (proj g || acts.any (fun act => c act && hasNode p act.inlineList)) := by
  induction acts generalizing g with
  | nil => simp
  | cons act rest ih =>
    rw [List.foldl_cons, ih, analyzeAction_node proj p act (c act) (hstep act), hkinds,
      List.any_cons, Bool.or_assoc]

/-- The second block of the loop body, flag by flag. -/
theorem analyzeActionReg_regFlags (act : Action) (item : InlineItem) (g : FsmCodeGen) :
    regFlags (analyzeActionReg act item g)
      = ((g.bAnyRegActionRets || (act.regular && trigRet item)),
         (g.bAnyRegNextStmt || (act.regular && trigNext item)),
         (g.bAnyRegActionByValControl || (act.regular && trigByVal item)),
         (g.bAnyRegCurStateRef || (act.regular && trigCurs item)),
         (g.bAnyRegBreak || (act.regular && trigBreak item)),
         (g.bAnyLmSwitchError || (act.regular && trigLmError item))) := by
  unfold analyzeActionReg Action.regular regFlags
  by_cases hr : act.numTransRefs > 0 ∨ act.numToStateRefs > 0 ∨ act.numFromStateRefs > 0
  · rw [if_pos hr]
    simp only [hr, decide_True, Bool.true_and, trigRet, trigNext, trigByVal, trigCurs,
      trigBreak, trigLmError]
    refine Prod.ext ?_ (Prod.ext ?_ (Prod.ext ?_ (Prod.ext ?_ (Prod.ext ?_ ?_))))
    · by_cases h : item.type = .Ret <;> simp [h]
    · by_cases h : item.type = .Next ∨ item.type = .NextExpr
      · rcases h with h | h <;> simp [h]
      · have h1 : item.type ≠ .Next := fun e => h (Or.inl e)
        have h2 : item.type ≠ .NextExpr := fun e => h (Or.inr e)
        simp [h1, h2]
    · by_cases h : item.type = .CallExpr ∨ item.type = .GotoExpr
      · rcases h with h | h <;> simp [h]
      · have h1 : item.type ≠ .CallExpr := fun e => h (Or.inl e)
        have h2 : item.type ≠ .GotoExpr := fun e => h (Or.inr e)
        simp [h1, h2]
    · by_cases h : item.type = .Curs <;> simp [h]
    · by_cases h : item.type = .Break <;> simp [h]
    · by_cases h : item.type = .LmSwitch
      · cases hh : item.handlesError <;> simp [h, hh]
      · simp [h]
  · rw [if_neg hr]
    simp [hr]

theorem loopBody_regFlags (act : Action) (item : InlineItem) (g : FsmCodeGen) :
    regFlags (analyzeActionReg act item (analyzeActionRefd act item g))
      = ((g.bAnyRegActionRets || (act.regular && trigRet item)),
         (g.bAnyRegNextStmt || (act.regular && trigNext item)),
         (g.bAnyRegActionByValControl || (act.regular && trigByVal item)),
         (g.bAnyRegCurStateRef || (act.regular && trigCurs item)),
         (g.bAnyRegBreak || (act.regular && trigBreak item)),
         (g.bAnyLmSwitchError || (act.regular && trigLmError item))) := by
  rw [analyzeActionReg_regFlags]
  have h := analyzeActionRefd_regFlags act item g
  simp only [regFlags, Prod.mk.injEq] at h
  obtain ⟨h1, h2, h3, h4, h5, h6⟩ := h
  rw [h1, h2, h3, h4, h5, h6]

theorem refActionOpt_regFlags (c : RefClass) (g : FsmCodeGen) (ra : Option Nat) :
    regFlags (refActionOpt c g ra) = regFlags g := by
  cases ra with
  | none => rfl
  | some r =>
    simp only [refActionOpt, refAction]
    cases g.redFsm.actionMap[r]? <;> rfl

theorem findFinalActionRefsState_regFlags (g : FsmCodeGen) (st : RedStateAp) :
    regFlags (findFinalActionRefsState g st) = regFlags g := by
  unfold findFinalActionRefsState
  simp only
  rw [refActionOpt_regFlags, refActionOpt_regFlags, refActionOpt_regFlags]
  have h3 : ∀ g0 : FsmCodeGen,
      regFlags (match st.defTrans with
        | none => g0
        | some t => refActionOpt .trans g0 t.action) = regFlags g0 := by
    intro g0
    cases st.defTrans with
    | none => rfl
    | some t => exact refActionOpt_regFlags _ _ _
  rw [h3, foldl_keeps regFlags _ (fun g x => refActionOpt_regFlags _ _ _),
    foldl_keeps regFlags _ (fun g x => refActionOpt_regFlags _ _ _)]

theorem findFinalActionRefs_regFlags (g : FsmCodeGen) :
    regFlags (findFinalActionRefs g) = regFlags g :=
  foldl_keeps regFlags _ findFinalActionRefsState_regFlags _ g

theorem setValueLimitsStates_regFlags (g : FsmCodeGen) (sts : List RedStateAp) :
    regFlags (setValueLimitsStates g sts) = regFlags g := by
  induction sts generalizing g with
  | nil => rfl
  | cons st rest ih => rw [setValueLimitsStates, ih]; rfl

theorem setValueLimits_regFlags (g : FsmCodeGen) :
    regFlags (setValueLimits g) = regFlags g := by
  unfold setValueLimits
  simp only
  rw [foldl_keeps regFlags setValueLimitsTable, setValueLimitsStates_regFlags]
  · unfold setValueLimitsCondSpaces
    rw [foldl_keeps regFlags]
    · rfl
    · intro g x
      split <;> rfl
  · intro g table
    unfold setValueLimitsTable setValueLimitsItems
    simp only
    rw [foldl_keeps regFlags _ (fun g x => by split <;> rfl)]
    split <;> split <;> split <;> rfl

/-- The six flags after the whole analysis are those after the loop over the
action list. -/
theorem analyzeMachine_regFlags (decider : FsmCodeGen → Bool) (g : FsmCodeGen) :
    regFlags (analyzeMachine decider g)
      = regFlags (analyzeMachineActions (findFinalActionRefs g)) := by
  unfold analyzeMachine
  simp only
  show regFlags (setValueLimits _) = _
  rw [setValueLimits_regFlags]
  rfl

/-- The references that make the action `a` regular, after
`findFinalActionRefs`. -/
theorem findFinalActionRefs_regular (g : FsmCodeGen) (hz : CountersZero g)
    (a : Nat) (ha : a < g.cgd.actionList.length) :
    ∃ act, (findFinalActionRefs g).cgd.actionList[a]? = some act
      ∧ act.regular = decide (0 < regularRefs g.redFsm a) := by
  obtain ⟨act, h1, h2⟩ := findFinalActionRefs_counter .trans g hz a ha
  obtain ⟨act3, h3, h4⟩ := findFinalActionRefs_counter .toState g hz a ha
  obtain ⟨act5, h5, h6⟩ := findFinalActionRefs_counter .fromState g hz a ha
  rw [h1] at h3 h5
  cases h3
  cases h5
  refine ⟨act, h1, ?_⟩
  simp only [Action.refs] at h2 h4 h6
  simp only [Action.regular, regularRefs, h2, h4, h6, gt_iff_lt]
  congr 1
  apply propext
  omega

/-- The regular actions with an item `p`, seen from the machine handed to
the analysis. -/
theorem regular_any_iff (p : InlineItem → Bool) (g : FsmCodeGen) (hz : CountersZero g) :
    (findFinalActionRefs g).cgd.actionList.any
        (fun act => act.regular && hasNode p act.inlineList) = true
      ↔ ∃ a act, g.cgd.actionList[a]? = some act ∧ 0 < regularRefs g.redFsm a
          ∧ hasNode p act.inlineList = true := by
  have hlen := (findFinalActionRefs_inv g).2
  have hil : (findFinalActionRefs g).cgd.actionList.map (fun act => act.inlineList)
      = g.cgd.actionList.map (fun act => act.inlineList) :=
    congrArg Prod.snd (findFinalActionRefs_frame g)
  have hsame : ∀ (a : Nat) (act1 act : Action),
      (findFinalActionRefs g).cgd.actionList[a]? = some act1 →
      g.cgd.actionList[a]? = some act → act1.inlineList = act.inlineList := by
    intro a act1 act h1 h0
    have e : ((findFinalActionRefs g).cgd.actionList.map (fun act => act.inlineList))[a]?
        = (g.cgd.actionList.map (fun act => act.inlineList))[a]? := by rw [hil]
    simp only [List.getElem?_map, h1, h0, Option.map_some', Option.some.injEq] at e
    exact e
  rw [List.any_eq_true]
  constructor
  · rintro ⟨act1, hmem, hp⟩
    obtain ⟨a, ha1⟩ := List.mem_iff_getElem?.mp hmem
    have ha : a < g.cgd.actionList.length := by
      rw [← hlen]
      exact (List.getElem?_eq_some_iff.mp ha1).1
    obtain ⟨act1b, hb, hreg⟩ := findFinalActionRefs_regular g hz a ha
    rw [ha1] at hb
    cases hb
    simp only [Bool.and_eq_true] at hp
    refine ⟨a, g.cgd.actionList[a], List.getElem?_eq_getElem ha, ?_, ?_⟩
    · rw [hreg] at hp; exact of_decide_eq_true hp.1
    · rw [← hsame a act1 _ ha1 (List.getElem?_eq_getElem ha)]; exact hp.2
  · rintro ⟨a, act, h0, hpos, hp⟩
    have ha : a < g.cgd.actionList.length := (List.getElem?_eq_some_iff.mp h0).1
    obtain ⟨act1, h1, hreg⟩ := findFinalActionRefs_regular g hz a ha
    refine ⟨act1, List.mem_iff_getElem?.mpr ⟨a, h1⟩, ?_⟩
    simp only [Bool.and_eq_true]
    exact ⟨by rw [hreg]; exact decide_eq_true hpos, by rw [hsame a act1 act h1 h0]; exact hp⟩

/-- A flag of the regular actions, started false, is true after the analysis
exactly when a regular action holds the item that raises it. -/
theorem regFlag_iff (decider : FsmCodeGen → Bool) (g : FsmCodeGen) (hz : CountersZero g)
    (sel : Bool × Bool × Bool × Bool × Bool × Bool → Bool) (p : InlineItem → Bool)
    (h0 : sel (regFlags g) = false)
    (hstep : ∀ (act : Action) (item : InlineItem) (g0 : FsmCodeGen),
      sel (regFlags (analyzeActionReg act item (analyzeActionRefd act item g0)))
        = (sel (regFlags g0) || (act.regular && p item))) :
    sel (regFlags (analyzeMachine decider g)) = true
      ↔ ∃ a act, g.cgd.actionList[a]? = some act ∧ 0 < regularRefs g.redFsm a
          ∧ hasNode p act.inlineList = true := by
  rw [analyzeMachine_regFlags, analyzeMachineActions,
    actionsLoop_node (fun g => sel (regFlags g)) p Action.regular (fun _ _ => rfl) hstep,
    findFinalActionRefs_regFlags, h0, Bool.false_or]
  exact regular_any_iff p g hz

/-- When every action holding the item is referenced from EOF slots only or
not at all, the flag stays false. -/
theorem regFlag_stays_false (decider : FsmCodeGen → Bool) (g : FsmCodeGen)
    (hz : CountersZero g)
    (sel : Bool × Bool × Bool × Bool × Bool × Bool → Bool) (p : InlineItem → Bool)
    (h0 : sel (regFlags g) = false)
    (hstep : ∀ (act : Action) (item : InlineItem) (g0 : FsmCodeGen),
      sel (regFlags (analyzeActionReg act item (analyzeActionRefd act item g0)))
        = (sel (regFlags g0) || (act.regular && p item)))
    (honly : OnlyEofOrUnreferenced p g) :
    sel (regFlags (analyzeMachine decider g)) = false := by
  cases hv : sel (regFlags (analyzeMachine decider g)) with
  | false => rfl
  | true =>
    obtain ⟨a, act, h1, h2, h3⟩ := (regFlag_iff decider g hz sel p h0 hstep).mp hv
    have := honly a act h1 h3
    omega

/-! ## C11: the flags of regular actions -/

/-- C11: the regular-action flags `bAnyRegActionRets`, `bAnyRegNextStmt`,
`bAnyRegActionByValControl`, `bAnyRegCurStateRef`, `bAnyRegBreak` and
`bAnyLmSwitchError` are set only by actions with non-zero transition,
to-state or from-state references: started with the flags false and the
reference counters zero, if every action that contains the triggering item
(`Ret`; `Next`/`NextExpr`; `CallExpr`/`GotoExpr`; `Curs`; `Break`; `LmSwitch`
with `handlesError`), at any depth, is referenced only from EOF slots or not
at all, the corresponding flag is false after `analyzeMachine`. -/
theorem analyzeMachine_regFlags_onlyRegular (decider : FsmCodeGen → Bool) (g : FsmCodeGen)
    (hz : CountersZero g) (hf : regFlags g = (false, false, false, false, false, false)) :
    (OnlyEofOrUnreferenced trigRet g →
        (analyzeMachine decider g).bAnyRegActionRets = false)
      ∧ (OnlyEofOrUnreferenced trigNext g →
        (analyzeMachine decider g).bAnyRegNextStmt = false)
      ∧ (OnlyEofOrUnreferenced trigByVal g →
        (analyzeMachine decider g).bAnyRegActionByValControl = false)
      ∧ (OnlyEofOrUnreferenced trigCurs g →
        (analyzeMachine decider g).bAnyRegCurStateRef = false)
      ∧ (OnlyEofOrUnreferenced trigBreak g →
        (analyzeMachine decider g).bAnyRegBreak = false)
      ∧ (OnlyEofOrUnreferenced trigLmError g →
        (analyzeMachine decider g).bAnyLmSwitchError = false) := by
  refine ⟨fun h => ?_, fun h => ?_, fun h => ?_, fun h => ?_, fun h => ?_, fun h => ?_⟩
  · exact regFlag_stays_false decider g hz (fun t => t.1) trigRet (by rw [hf])
      (fun act item g0 => by rw [loopBody_regFlags]; rfl) h
  · exact regFlag_stays_false decider g hz (fun t => t.2.1) trigNext (by rw [hf])
      (fun act item g0 => by rw [loopBody_regFlags]; rfl) h
  · exact regFlag_stays_false decider g hz (fun t => t.2.2.1) trigByVal (by rw [hf])
      (fun act item g0 => by rw [loopBody_regFlags]; rfl) h
  · exact regFlag_stays_false decider g hz (fun t => t.2.2.2.1) trigCurs (by rw [hf])
      (fun act item g0 => by rw [loopBody_regFlags]; rfl) h
  · exact regFlag_stays_false decider g hz (fun t => t.2.2.2.2.1) trigBreak (by rw [hf])
      (fun act item g0 => by rw [loopBody_regFlags]; rfl) h
  · exact regFlag_stays_false decider g hz (fun t => t.2.2.2.2.2) trigLmError (by rw [hf])
      (fun act item g0 => by rw [loopBody_regFlags]; rfl) h

/-- In the example machine the only regular action holds a single text
item. -/
theorem exEofOnly_onlyEof (p : InlineItem → Bool)
    (hp : p (InlineItem.leaf .Text) = false) : OnlyEofOrUnreferenced p exEofOnly := by
  intro a act h hn
  match a with
  | 0 =>
    simp only [exEofOnly, FsmCodeGen.init, List.getElem?_cons_zero, Option.some.injEq] at h
    subst h
    have hn2 : p (InlineItem.leaf .Text) = true := by
      simpa [Action.fresh, hasNode, nodeHas, InlineItem.leaf] using hn
    rw [hp] at hn2
    exact absurd hn2 (by decide)
  | 1 => decide
  | n + 2 => simp [exEofOnly, FsmCodeGen.init] at h

/-- C11 at a machine whose triggering items all sit in an action hooked as
EOF action only: the six flags are false after the analysis. -/
theorem analyzeMachine_regFlags_onlyRegular_witness :
    (analyzeMachine (fun _ => true) exEofOnly).bAnyRegActionRets = false
      ∧ (analyzeMachine (fun _ => true) exEofOnly).bAnyRegNextStmt = false
      ∧ (analyzeMachine (fun _ => true) exEofOnly).bAnyRegActionByValControl = false
      ∧ (analyzeMachine (fun _ => true) exEofOnly).bAnyRegCurStateRef = false
      ∧ (analyzeMachine (fun _ => true) exEofOnly).bAnyRegBreak = false
      ∧ (analyzeMachine (fun _ => true) exEofOnly).bAnyLmSwitchError = false :=
  have h := analyzeMachine_regFlags_onlyRegular (fun _ => true) exEofOnly (by decide) rfl
  ⟨h.1 (exEofOnly_onlyEof _ rfl), h.2.1 (exEofOnly_onlyEof _ rfl),
    h.2.2.1 (exEofOnly_onlyEof _ rfl), h.2.2.2.1 (exEofOnly_onlyEof _ rfl),
    h.2.2.2.2.1 (exEofOnly_onlyEof _ rfl), h.2.2.2.2.2 (exEofOnly_onlyEof _ rfl)⟩

/-! ## Proofs: the text of a sequence of writes -/

theorem concat_append (l1 l2 : List String) : concat (l1 ++ l2) = concat l1 ++ concat l2 := by
  induction l1 with
  | nil => simp [concat]
  | cons s rest ih => simp [concat, ih, String.append_assoc]

theorem allText_append (a b : Writes) : allText (a ++ b) = allText a ++ allText b := by
  simp [allText, concat_append]

theorem retText_append (a b : Writes) : retText (a ++ b) = retText a ++ retText b := by
  simp [retText, concat_append]

theorem outText_append (a b : Writes) : outText (a ++ b) = outText a ++ outText b := by
  simp [outText, concat_append]

theorem allText_toRet (s : String) : allText (toRet s) = s := by
  simp [allText, toRet, concat]

theorem retText_toRet (s : String) : retText (toRet s) = s := by
  simp [retText, toRet, concat]

theorem allText_nil : allText [] = "" := rfl

theorem retText_nil : retText [] = "" := rfl

/-! ## C12: the longest-match switch -/

/-- The loop over the children of an `LmSwitch` writes their arms in child
order. -/
theorem LM_SWITCH_loop_text (text : Writes → String)
    (happ : ∀ a b, text (a ++ b) = text a ++ text b) (hret : ∀ s, text (toRet s) = s)
    (hnil : text [] = "")
    (h : Host) (redFsm : RedFsmAp) (targState : Int) (inFinish : Bool)
    (children : List InlineItem) :
    text (LM_SWITCH_loop h redFsm targState inFinish children)
      = concat (children.map (lmArmText text h redFsm targState inFinish)) := by
  induction children with
  | nil => simp [LM_SWITCH_loop, concat, hnil]
  | cons lma rest ih =>
    cases lma with
    | mk type data targ lmId offset handlesError children =>
      rw [LM_SWITCH_loop, happ, ih, List.map_cons, concat, LM_SWITCH_child]
      simp only [LM_SWITCH_arm, lmArmText, happ, hret, InlineItem.lmId, InlineItem.children,
        String.append_assoc]

/-- The text of an `LmSwitch` item, for any way `text` of reading the text
off the writes that is additive and reads `ret << s` as `s`. -/
theorem LM_SWITCH_item_text (text : Writes → String)
    (happ : ∀ a b, text (a ++ b) = text a ++ text b) (hret : ∀ s, text (toRet s) = s)
    (hnil : text [] = "")
    (h : Host) (redFsm : RedFsmAp) (targState : Int) (inFinish : Bool)
    (data : String) (targ : Option Int) (lmId offset : Int) (handlesError : Bool)
    (children : List InlineItem) :
    text (INLINE_LIST h redFsm targState inFinish
        [.mk .LmSwitch data targ lmId offset handlesError (some children)])
      = lmSwitchText text h redFsm targState inFinish handlesError children := by
  simp only [INLINE_LIST, INLINE_ITEM, LM_SWITCH, LM_SWITCH_arms, List.append_nil,
    lmSwitchText, happ, hret, LM_SWITCH_loop_text text happ hret hnil]
  cases handlesError
  · simp [hnil, String.append_assoc]
  · simp [happ, hret, String.append_assoc]

/-- The arms of the switch of an `LmSwitch` item, for the text `ret` receives
and for the text written when `ret` is `out`: after the head, which is the
literal `switch( act )`, a `case 0` arm assigning `tokend = tokstart` followed
by a goto to the error state if and only if the item has `handlesError` set,
placed before all other arms; then, for each child in child order, a
`case <lmId>:` label, the child's inline list expanded inside one pair of
braces, and a terminating break (the default arm closes the switch);
children with `lmId` 1 and 2 and `handlesError` give the arms `case 0`,
`case 1`, `case 2` in that order. -/
theorem LM_SWITCH_text (h : Host) (redFsm : RedFsmAp) (targState : Int) (inFinish : Bool)
    (data : String) (targ : Option Int) (lmId offset : Int) (handlesError : Bool)
    (children : List InlineItem) :
    allText (INLINE_LIST h redFsm targState inFinish
        [.mk .LmSwitch data targ lmId offset handlesError (some children)])
      = lmSwitchText allText h redFsm targState inFinish handlesError children
    ∧ retText (INLINE_LIST h redFsm targState inFinish
        [.mk .LmSwitch data targ lmId offset handlesError (some children)])
      = lmSwitchText retText h redFsm targState inFinish handlesError children
    ∧ allText (INLINE_LIST exHost exLmFsm 5 false [exLmSwitch])
      = "\tswitch( act ) \x7b\n"
        ++ "\tcase 0: tokend = tokstart; goto st0;\n"
        ++ "\tcase 1:\n\t\x7ba();\x7d\n\tbreak;\n"
        ++ "\tcase 2:\n\t\x7bb();\x7d\n\tbreak;\n"
        ++ "\tdefault: break;\n\t\x7d\n\t" :=
  ⟨LM_SWITCH_item_text allText allText_append allText_toRet allText_nil h redFsm targState
      inFinish data targ lmId offset handlesError children,
    LM_SWITCH_item_text retText retText_append retText_toRet retText_nil h redFsm targState
      inFinish data targ lmId offset handlesError children,
    by decide⟩

/-- C12 on the code: the head of the switch `LM_SWITCH` emits is the literal
`switch( act )`, whatever the name `ACT()` of the act register, while
`SET_ACT` and `INIT_ACT` write the register through `ACT()` (and the `case 0`
arm of the switch itself writes `tokend` and `tokstart` through `TOKEND()` and
`TOKSTART()`).  With the access expression `fsm->` the item that sets the
register writes `fsm->act = 3;` and the switch reads `act`, another
variable.  The arms are those of the claim: `case 0` when the item handles the
error, then the arms of the children in child order. -/
theorem LM_SWITCH_act_literal (h : Host) (redFsm : RedFsmAp) (targState : Int)
    (inFinish : Bool) (act : String) (handlesError : Bool) (children : List InlineItem) :
    allText (INLINE_LIST h redFsm targState inFinish
          [.mk .LmSwitch "" none 0 0 handlesError (some children)])
        = "\tswitch( act ) \x7b\n"
          ++ (if handlesError then
                "\tcase 0: " ++ h.TOKEND ++ " = " ++ h.TOKSTART ++ "; "
                  ++ allText (h.GOTO (deref 0 redFsm.errState) inFinish) ++ "\n"
              else "")
          ++ concat (children.map (lmArmText allText h redFsm targState inFinish))
          ++ "\tdefault: break;\n\t\x7d\n\t"
      ∧ allText (INLINE_LIST { h with ACT := act } redFsm targState inFinish
            [.mk .LmSwitch "" none 0 0 handlesError (some [])])
          = allText (INLINE_LIST h redFsm targState inFinish
              [.mk .LmSwitch "" none 0 0 handlesError (some [])])
      ∧ allText (INLINE_LIST { h with ACT := act } redFsm targState inFinish
            [InlineItem.setAct 3]) = act ++ " = 3;"
      ∧ allText (INLINE_LIST { h with ACT := act } redFsm targState inFinish
            [.mk .LmInitAct "" none 0 0 false none]) = act ++ " = 0;"
      ∧ allText (INLINE_LIST exAccessHost exLmFsm 5 false [InlineItem.setAct 3])
          = "fsm->act = 3;"
      ∧ allText (INLINE_LIST exAccessHost exLmFsm 5 false [exLmSwitch])
          = "\tswitch( act ) \x7b\n"
            ++ "\tcase 0: fsm->tokend = fsm->tokstart; goto st0;\n"
            ++ "\tcase 1:\n\t\x7ba();\x7d\n\tbreak;\n"
            ++ "\tcase 2:\n\t\x7bb();\x7d\n\tbreak;\n"
            ++ "\tdefault: break;\n\t\x7d\n\t" := by
  refine ⟨?_, ?_, ?_, ?_, by decide, by decide⟩
  · exact LM_SWITCH_item_text allText allText_append allText_toRet allText_nil h redFsm
      targState inFinish "" none 0 0 handlesError children
  · rw [LM_SWITCH_item_text allText allText_append allText_toRet allText_nil,
      LM_SWITCH_item_text allText allText_append allText_toRet allText_nil]
    rfl
  · have e : " = " ++ (toString (3 : Int) ++ ";") = " = 3;" := by decide
    simp only [INLINE_LIST, INLINE_ITEM, InlineItem.setAct, SET_ACT, InlineItem.lmId,
      List.append_nil, allText_toRet]
    rw [String.append_assoc, String.append_assoc, e]
  · simp only [INLINE_LIST, INLINE_ITEM, INIT_ACT, List.append_nil, allText_toRet]

/-! ## C13: `SET_TOKEND` -/

/-- C13 on the code: expanding an `LmSetTokEnd` item with offset `n` into a
stream `ret` of its own leaves `tokend = p` in `ret`, without the offset and
without the `;`, which go to the member `out`; the statement is complete only
when `ret` is `out` itself.  With the C register names and offset 1, `ret`
receives `tokend = p` and `out` receives `+1;`. -/
theorem SET_TOKEND_splits (h : Host) (redFsm : RedFsmAp) (targState : Int) (inFinish : Bool)
    (n : Int) :
    retText (INLINE_LIST h redFsm targState inFinish [InlineItem.setTokEnd n])
        = h.TOKEND ++ " = " ++ h.P
      ∧ outText (INLINE_LIST h redFsm targState inFinish [InlineItem.setTokEnd n])
        = (if n ≠ 0 then "+" ++ toString n else "") ++ ";"
      ∧ allText (INLINE_LIST h redFsm targState inFinish [InlineItem.setTokEnd n])
        = h.TOKEND ++ " = " ++ h.P ++ (if n ≠ 0 then "+" ++ toString n else "") ++ ";"
      ∧ retText (INLINE_LIST exHost exLmFsm 5 false [InlineItem.setTokEnd 1]) = "tokend = p"
      ∧ outText (INLINE_LIST exHost exLmFsm 5 false [InlineItem.setTokEnd 1]) = "+1;" := by
  refine ⟨?_, ?_, ?_, by decide, by decide⟩
  · by_cases hn : n = 0 <;>
      simp [INLINE_LIST, INLINE_ITEM, InlineItem.setTokEnd, SET_TOKEND, InlineItem.offset,
        retText, toRet, toOut, concat, hn]
  · by_cases hn : n = 0 <;>
      simp [INLINE_LIST, INLINE_ITEM, InlineItem.setTokEnd, SET_TOKEND, InlineItem.offset,
        outText, toRet, toOut, concat, hn]
  · by_cases hn : n = 0 <;>
      simp [INLINE_LIST, INLINE_ITEM, InlineItem.setTokEnd, SET_TOKEND, InlineItem.offset,
        allText, toRet, toOut, concat, hn, String.append_assoc]

/-! ## C14: `EXEC` and `EXECTE` -/

/-- C14: for every `Exec` item with child list `e`, `EXEC` emits exactly
an opening brace, `P`, ` = ((`, the expansion of `e` and `))-1;` with the
closing brace, a braced assignment of `(e - 1)` to the input pointer with the
double bracket preserved; for every `ExecTE` item, `EXECTE` emits exactly an
opening brace, `TOKEND`, ` = ((`, the expansion of `e` and `));` with the
closing brace, a braced assignment of `e`, with no `-1`, to tokend. -/
theorem EXEC_text (h : Host) (redFsm : RedFsmAp) (targState : Int) (inFinish : Bool)
    (data : String) (targ : Option Int) (lmId offset : Int) (handlesError : Bool)
    (e : List InlineItem) :
    allText (INLINE_LIST h redFsm targState inFinish
        [.mk .Exec data targ lmId offset handlesError (some e)])
      = "\x7b" ++ h.P ++ " = ((" ++ allText (INLINE_LIST h redFsm targState inFinish e)
          ++ "))-1;\x7d"
    ∧ retText (INLINE_LIST h redFsm targState inFinish
        [.mk .Exec data targ lmId offset handlesError (some e)])
      = "\x7b" ++ h.P ++ " = ((" ++ retText (INLINE_LIST h redFsm targState inFinish e)
          ++ "))-1;\x7d"
    ∧ allText (INLINE_LIST h redFsm targState inFinish
        [.mk .ExecTE data targ lmId offset handlesError (some e)])
      = "\x7b" ++ h.TOKEND ++ " = ((" ++ allText (INLINE_LIST h redFsm targState inFinish e)
          ++ "));\x7d"
    ∧ retText (INLINE_LIST h redFsm targState inFinish
        [.mk .ExecTE data targ lmId offset handlesError (some e)])
      = "\x7b" ++ h.TOKEND ++ " = ((" ++ retText (INLINE_LIST h redFsm targState inFinish e)
          ++ "));\x7d"
    ∧ allText (INLINE_LIST exHost exLmFsm 5 false
        [.mk .Exec "" none 0 0 false (some [InlineItem.text "ts"])]) = "\x7bp = ((ts))-1;\x7d"
    ∧ allText (INLINE_LIST exHost exLmFsm 5 false
        [.mk .ExecTE "" none 0 0 false (some [InlineItem.text "ts"])])
      = "\x7btokend = ((ts));\x7d" := by
  refine ⟨?_, ?_, ?_, ?_, by decide, by decide⟩
  · simp only [INLINE_LIST, INLINE_ITEM, INLINE_CHILDREN, EXEC, List.append_nil,
      allText_append, allText_toRet, String.append_assoc]
  · simp only [INLINE_LIST, INLINE_ITEM, INLINE_CHILDREN, EXEC, List.append_nil,
      retText_append, retText_toRet, String.append_assoc]
  · simp only [INLINE_LIST, INLINE_ITEM, INLINE_CHILDREN, EXECTE, List.append_nil,
      allText_append, allText_toRet, String.append_assoc]
  · simp only [INLINE_LIST, INLINE_ITEM, INLINE_CHILDREN, EXECTE, List.append_nil,
      retText_append, retText_toRet, String.append_assoc]

namespace Dot

/-! ## C15: printable keys -/

theorem KEY_of_printable (d : InputData) (key : Int) (hd : d.displayPrintables = true)
    (hp : d.keyOps.isPrintable key = true) : KEY d key = keyGlyph (cVal key) := by
  simp [KEY, hd, hp]

theorem keyGlyph_default (c : Char) (hc : c ∉ specialChars) :
    keyGlyph c = "'" ++ String.singleton c ++ "'" := by
  simp only [specialChars, List.mem_cons, List.mem_singleton, List.not_mem_nil, or_false,
    not_or] at hc
  obtain ⟨h1, h2, h3, h4, h5, h6, h7, h8, h9, h10⟩ := hc
  simp [keyGlyph, h1, h2, h3, h4, h5, h6, h7, h8, h9, h10]

/-- C15: with `displayPrintables` on, for every printable key, `KEY` escapes
the double quote and the backslash with a preceding backslash, renders each
of the characters `\a \b \t \n \v \f \r` as a quoted glyph of two backslashes
and the letter (a tab renders with the letter `t` and the output contains no
raw tab), renders the space as the literal `SP` with no space character in
the output, and renders every other printable key `c` as `'c'`. -/
theorem KEY_printable (d : InputData) (key : Int) (hd : d.displayPrintables = true)
    (hp : d.keyOps.isPrintable key = true) :
    (cVal key = '"' → KEY d key = "'\\\"'")
      ∧ (cVal key = '\\' → KEY d key = "'\\\\'")
      ∧ (cVal key = '\x07' → KEY d key = "'\\\\a'")
      ∧ (cVal key = '\x08' → KEY d key = "'\\\\b'")
      ∧ (cVal key = '\t' → KEY d key = "'\\\\t'" ∧ '\t' ∉ (KEY d key).toList)
      ∧ (cVal key = '\n' → KEY d key = "'\\\\n'" ∧ '\n' ∉ (KEY d key).toList)
      ∧ (cVal key = '\x0b' → KEY d key = "'\\\\v'")
      ∧ (cVal key = '\x0c' → KEY d key = "'\\\\f'")
      ∧ (cVal key = '\r' → KEY d key = "'\\\\r'" ∧ '\r' ∉ (KEY d key).toList)
      ∧ (cVal key = ' ' → KEY d key = "SP" ∧ ' ' ∉ (KEY d key).toList)
      ∧ (cVal key ∉ specialChars →
          KEY d key = "'" ++ String.singleton (cVal key) ++ "'") := by
  rw [KEY_of_printable d key hd hp]
  refine ⟨?_, ?_, ?_, ?_, ?_, ?_, ?_, ?_, ?_, ?_, keyGlyph_default _⟩ <;>
    intro h <;> rw [h] <;> decide

/-- C15 at the tab key of an ASCII alphabet. -/
theorem KEY_printable_witness :
    (cVal 9 = '"' → KEY (exKeys true true) 9 = "'\\\"'")
      ∧ (cVal 9 = '\\' → KEY (exKeys true true) 9 = "'\\\\'")
      ∧ (cVal 9 = '\x07' → KEY (exKeys true true) 9 = "'\\\\a'")
      ∧ (cVal 9 = '\x08' → KEY (exKeys true true) 9 = "'\\\\b'")
      ∧ (cVal 9 = '\t' → KEY (exKeys true true) 9 = "'\\\\t'"
          ∧ '\t' ∉ (KEY (exKeys true true) 9).toList)
      ∧ (cVal 9 = '\n' → KEY (exKeys true true) 9 = "'\\\\n'"
          ∧ '\n' ∉ (KEY (exKeys true true) 9).toList)
      ∧ (cVal 9 = '\x0b' → KEY (exKeys true true) 9 = "'\\\\v'")
      ∧ (cVal 9 = '\x0c' → KEY (exKeys true true) 9 = "'\\\\f'")
      ∧ (cVal 9 = '\r' → KEY (exKeys true true) 9 = "'\\\\r'"
          ∧ '\r' ∉ (KEY (exKeys true true) 9).toList)
      ∧ (cVal 9 = ' ' → KEY (exKeys true true) 9 = "SP"
          ∧ ' ' ∉ (KEY (exKeys true true) 9).toList)
      ∧ (cVal 9 ∉ specialChars →
          KEY (exKeys true true) 9 = "'" ++ String.singleton (cVal 9) ++ "'") :=
  KEY_printable (exKeys true true) 9 rfl (by decide)

end Dot
/-! ## Proofs: decimal numerals, read back and character by character -/

theorem readInts_intChars (v : Int) : readInts (intChars v) = some [v] := by
  obtain ⟨neg, n, hv, hscan⟩ := scan_intChars [] v []
  rw [List.append_nil] at hscan
  rw [readInts, hscan, List.foldl_nil, scanEnd, hv]
  rfl

theorem toDigitsCore_digits (fuel n : Nat) (ds : List Char)
    (hds : ∀ c ∈ ds, c.isDigit = true) :
    ∀ c ∈ Nat.toDigitsCore 10 fuel n ds, c.isDigit = true := by
  induction fuel generalizing n ds with
  | zero => simpa [Nat.toDigitsCore] using hds
  | succ fuel ih =>
    have hmod : n % 10 < 10 := Nat.mod_lt _ (by decide)
    have hd := (digitChar_props ⟨n % 10, hmod⟩).1
    simp only at hd
    have hcons : ∀ c ∈ Nat.digitChar (n % 10) :: ds, c.isDigit = true := by
      intro c hm
      rcases List.mem_cons.mp hm with h | h
      · rw [h]; exact hd
      · exact hds c h
    unfold Nat.toDigitsCore
    simp only
    split
    · exact hcons
    · exact ih _ _ hcons

/-- A decimal numeral is made of digits and at most a minus sign. -/
theorem intChars_chars (v : Int) : ∀ c ∈ intChars v, c.isDigit = true ∨ c = '-' := by
  cases v with
  | ofNat m =>
    intro c hc
    exact Or.inl (toDigitsCore_digits _ _ _ (by simp) c hc)
  | negSucc m =>
    intro c hc
    have hc2 : c ∈ '-' :: Nat.toDigits 10 (m + 1) := hc
    rcases List.mem_cons.mp hc2 with h | h
    · exact Or.inr h
    · exact Or.inl (toDigitsCore_digits _ _ _ (by simp) c h)

theorem toString_int_injective (a b : Int) (h : toString a = toString b) : a = b := by
  have ha := readInts_intChars a
  have hb := readInts_intChars b
  unfold intChars at ha hb
  rw [h, hb] at ha
  simpa using ha.symm

theorem foldl_scanChar_none (l : List Char) : l.foldl scanChar none = none := by
  induction l with
  | nil => rfl
  | cons c rest ih => simpa [scanChar] using ih

namespace Dot

theorem toNat_ofNat_byte (n : Nat) (h : n < 256) : (Char.ofNat n).toNat = n := by
  unfold Char.ofNat
  rw [dif_pos (Or.inl (by omega))]
  rfl

/-- No label of a printable key reads as a number. -/
theorem readInts_keyGlyph (c : Char) : readInts (keyGlyph c).toList = none := by
  by_cases hc : c ∈ specialChars
  · simp only [specialChars, List.mem_cons, List.mem_singleton, List.not_mem_nil,
      or_false] at hc
    rcases hc with h | h | h | h | h | h | h | h | h | h <;> rw [h] <;> decide
  · rw [keyGlyph_default c hc]
    have e : ("'" ++ String.singleton c ++ "'").toList = '\'' :: c :: ['\''] := by
      simp [String.toList, String.singleton]
    rw [e, readInts, List.foldl_cons]
    have h1 : scanChar (some ([], Tok.fresh)) '\'' = none := by decide
    rw [h1, foldl_scanChar_none]
    rfl

theorem readInts_keyNumber (d : InputData) (key : Int) :
    readInts (keyNumber d key).toList
      = some [if d.keyOps.isSigned then key else (asUnsigned key : Int)] := by
  unfold keyNumber
  cases d.keyOps.isSigned
  · exact readInts_intChars (asUnsigned key : Int)
  · exact readInts_intChars key

/-- The label of a printable key that is a character code reads back as the
key. -/
theorem parseLabel_keyGlyph (k : Int) (h0 : 0 ≤ k) (h1 : k ≤ 255) :
    parseLabel (keyGlyph (cVal k)).toList = some k := by
  have hmod : k % 256 = k := Int.emod_eq_of_lt h0 (by omega)
  have hn : (k % 256).toNat < 256 := by omega
  have hk : ((cVal k).toNat : Int) = k := by
    rw [cVal, toNat_ofNat_byte _ hn]
    omega
  generalize cVal k = c at hk
  rw [← hk]
  by_cases hc : c ∈ specialChars
  · simp only [specialChars, List.mem_cons, List.mem_singleton, List.not_mem_nil,
      or_false] at hc
    rcases hc with h | h | h | h | h | h | h | h | h | h <;> rw [h] <;> decide
  · rw [keyGlyph_default c hc]
    have e : ("'" ++ String.singleton c ++ "'").toList = '\'' :: c :: ['\''] := by
      simp [String.toList, String.singleton]
    rw [e]
    simp [parseLabel]

theorem asUnsigned_injective (a b : Int) (ha : inLong a) (hb : inLong b)
    (h : asUnsigned a = asUnsigned b) : a = b := by
  unfold inLong at ha hb
  unfold asUnsigned at h
  have h2 : a % 2 ^ 64 = b % 2 ^ 64 := by
    have ea : 0 ≤ a % 2 ^ 64 := Int.emod_nonneg _ (by norm_num)
    have eb : 0 ≤ b % 2 ^ 64 := Int.emod_nonneg _ (by norm_num)
    omega
  norm_num at ha hb h2
  omega

theorem keyNumber_injective (d : InputData) (a b : Int) (ha : inLong a) (hb : inLong b)
    (h : keyNumber d a = keyNumber d b) : a = b := by
  unfold keyNumber at h
  cases hs : d.keyOps.isSigned
  · rw [hs] at h
    simp only [Bool.false_eq_true, if_false] at h
    have h2 : toString ((asUnsigned a : Nat) : Int) = toString ((asUnsigned b : Nat) : Int) := h
    have h3 := toString_int_injective _ _ h2
    exact asUnsigned_injective a b ha hb (by exact_mod_cast h3)
  · rw [hs] at h
    simp only [if_true] at h
    exact toString_int_injective a b h

/-! ## C16, C17: the labels of keys -/

/-- C16: with `displayPrintables` on and printable keys that are character
codes (0 to 255), the reader `parseLabel` maps the label `KEY` writes for any
printable key `k` back to `k`; and `KEY` is injective: two distinct keys,
printable or not, never render to the same label. -/
theorem KEY_injective (d : InputData) (hd : d.displayPrintables = true)
    (hpr : ∀ k, d.keyOps.isPrintable k = true → 0 ≤ k ∧ k ≤ 255) :
    (∀ k, d.keyOps.isPrintable k = true → parseLabel (KEY d k).toList = some k)
      ∧ (∀ k1 k2, inLong k1 → inLong k2 → KEY d k1 = KEY d k2 → k1 = k2) := by
  have hparse : ∀ k, d.keyOps.isPrintable k = true →
      parseLabel (KEY d k).toList = some k := by
    intro k hk
    rw [KEY_of_printable d k hd hk]
    exact parseLabel_keyGlyph k (hpr k hk).1 (hpr k hk).2
  refine ⟨hparse, ?_⟩
  intro k1 k2 hl1 hl2 h
  cases hp1 : d.keyOps.isPrintable k1 <;> cases hp2 : d.keyOps.isPrintable k2
  · have e1 : KEY d k1 = keyNumber d k1 := by simp [KEY, hp1]
    have e2 : KEY d k2 = keyNumber d k2 := by simp [KEY, hp2]
    rw [e1, e2] at h
    exact keyNumber_injective d k1 k2 hl1 hl2 h
  · have e1 : KEY d k1 = keyNumber d k1 := by simp [KEY, hp1]
    have r1 := readInts_keyNumber d k1
    rw [← e1, h, KEY_of_printable d k2 hd hp2, readInts_keyGlyph] at r1
    exact absurd r1 (by simp)
  · have e2 : KEY d k2 = keyNumber d k2 := by simp [KEY, hp2]
    have r2 := readInts_keyNumber d k2
    rw [← e2, ← h, KEY_of_printable d k1 hd hp1, readInts_keyGlyph] at r2
    exact absurd r2 (by simp)
  · have p1 := hparse k1 hp1
    have p2 := hparse k2 hp2
    rw [h, p2] at p1
    simpa using p1.symm

theorem exKeys_printable_byte (dp sg : Bool) (k : Int)
    (h : (exKeys dp sg).keyOps.isPrintable k = true) : 0 ≤ k ∧ k ≤ 255 := by
  simp only [exKeys, decide_eq_true_eq] at h
  omega

/-- C16 at the ASCII alphabet. -/
theorem KEY_injective_witness :
    (∀ k, (exKeys true true).keyOps.isPrintable k = true →
        parseLabel (KEY (exKeys true true) k).toList = some k)
      ∧ (∀ k1 k2, inLong k1 → inLong k2 →
          KEY (exKeys true true) k1 = KEY (exKeys true true) k2 → k1 = k2) :=
  KEY_injective (exKeys true true) rfl (exKeys_printable_byte true true)

/-- C17: for every key that is not printable, and for every key at all when
`displayPrintables` is off, `KEY` writes the decimal integer value of the
key: the signed value when the alphabet is signed, and the value of the key
reinterpreted as an unsigned integer (of 64 bits) when the alphabet is
unsigned; the text reads back as that integer and holds nothing but digits
and a minus sign, so no glyph or quote character. -/
theorem KEY_number (d : InputData) (key : Int)
    (h : d.displayPrintables = false ∨ d.keyOps.isPrintable key = false) :
    KEY d key = (if d.keyOps.isSigned then toString key else toString (asUnsigned key))
      ∧ readInts (KEY d key).toList
          = some [if d.keyOps.isSigned then key else (asUnsigned key : Int)]
      ∧ (∀ c ∈ (KEY d key).toList, c.isDigit = true ∨ c = '-') := by
  have e : KEY d key = keyNumber d key := by
    rcases h with h | h <;> simp [KEY, h]
  rw [e]
  refine ⟨rfl, readInts_keyNumber d key, ?_⟩
  unfold keyNumber
  cases d.keyOps.isSigned
  · exact intChars_chars (asUnsigned key : Int)
  · exact intChars_chars key

/-- C17 at the key -56 of an unsigned alphabet: it is written as the
unsigned value `2 ^ 64 - 56`. -/
theorem KEY_number_witness :
    KEY (exKeys true false) (-56)
        = (if (exKeys true false).keyOps.isSigned then toString (-56 : Int)
            else toString (asUnsigned (-56)))
      ∧ readInts (KEY (exKeys true false) (-56)).toList
          = some [if (exKeys true false).keyOps.isSigned then (-56 : Int)
              else (asUnsigned (-56) : Int)]
      ∧ (∀ c ∈ (KEY (exKeys true false) (-56)).toList, c.isDigit = true ∨ c = '-') :=
  KEY_number (exKeys true false) (-56) (Or.inr (by decide))

end Dot

namespace Dot

/-! ## C18: the label of a transition -/

theorem land_two_pow_ne_zero (x : Int) (i : Nat) :
    Int.land x (2 ^ i) ≠ 0 ↔ x.testBit i = true := by
  have hc : ((2 : Int) ^ i) = Int.ofNat (2 ^ i) := by
    rw [Int.ofNat_eq_coe]; push_cast; rfl
  rw [hc]
  cases x with
  | ofNat m =>
    show Int.ofNat (m &&& 2 ^ i) ≠ 0 ↔ m.testBit i = true
    rw [Nat.and_two_pow]
    cases h : m.testBit i
    · simp
    · simp
  | negSucc m =>
    show Int.ofNat (Nat.ldiff (2 ^ i) m) ≠ 0 ↔ (!m.testBit i) = true
    cases h : m.testBit i
    · simp only [Bool.not_false, iff_true]
      intro h0
      have h1 : Nat.ldiff (2 ^ i) m = 0 := Int.ofNat.inj h0
      have h2 := Nat.testBit_ldiff (2 ^ i) m i
      rw [h1, Nat.zero_testBit, Nat.testBit_two_pow, h] at h2
      simp at h2
    · simp only [Bool.not_true, Bool.false_eq_true, iff_false, not_not]
      have h1 : Nat.ldiff (2 ^ i) m = 0 := by
        apply Nat.zero_of_testBit_eq_false
        intro k
        rw [Nat.testBit_ldiff, Nat.testBit_two_pow]
        by_cases hik : i = k
        · subst hik; simp [h]
        · simp [hik]
      rw [h1]
      rfl

theorem shl1_small (pos : Nat) (h : pos < 31) : shl1 pos = 2 ^ pos := by
  have e : pos % 32 = pos := Nat.mod_eq_of_lt (by omega)
  rw [shl1, e, if_pos h]

/-- The mark written before the name of the condition at a position below
31. -/
theorem mark_eq (condVals : Int) (pos : Nat) (h : pos < 31) :
    (if Int.land condVals (shl1 pos) ≠ 0 then "" else "!")
      = (if condVals.testBit pos then "" else "!") := by
  rw [shl1_small pos h]
  by_cases hb : condVals.testBit pos = true
  · rw [if_pos ((land_two_pow_ne_zero condVals pos).mpr hb), if_pos hb]
  · rw [if_neg (fun hn => hb ((land_two_pow_ne_zero condVals pos).mp hn)), if_neg hb]

theorem ONCHAR_conds_spec (condVals : Int) (l : List Action) (pos : Nat)
    (h : pos + l.length ≤ 31) :
    ONCHAR_conds condVals pos l
      = joinWith ", " ((l.enumFrom pos).map (fun p => condName condVals p.1 p.2)) := by
  induction l generalizing pos with
  | nil => rfl
  | cons csi rest ih =>
    simp only [List.length_cons] at h
    rw [ONCHAR_conds, mark_eq condVals pos (by omega), ih (pos + 1) (by omega)]
    cases rest with
    | nil => simp [joinWith, condName]
    | cons y ys =>
      simp [List.enumFrom, joinWith, condName, String.append_assoc]

/-- The label written by `ONCHAR` for a condition space of at most 31
conditions, the positions at which the shift `1 << pos` of the source is
defined: the key part is `KEY(low)` alone when
`highKey = lowKey` and `KEY(low)`, `..`, `KEY(high)` otherwise; and if and
only if the transition carries a condition space, it is followed by a
parenthesised list of that space's condition-action names in condition-set
order, separated by `, ` with no trailing separator, where the name at
position `i` is prefixed with `!` exactly when bit `i` of `condVals` is 0. -/
theorem ONCHAR_upto31 (d : InputData) (lowKey highKey : Int) (condSpace : Option CondSpace)
    (condVals : Int) (hlen : ∀ cs, condSpace = some cs → cs.condSet.length ≤ 31) :
    ONCHAR d lowKey highKey condSpace condVals
      = onCharSpec d lowKey highKey condSpace condVals := by
  unfold ONCHAR onCharSpec
  have hkey : KEY d lowKey ++ (if highKey ≠ lowKey then ".." ++ KEY d highKey else "")
      = (if highKey = lowKey then KEY d lowKey
          else KEY d lowKey ++ ".." ++ KEY d highKey) := by
    by_cases hk : highKey = lowKey
    · simp [hk]
    · simp [hk, String.append_assoc]
  rw [hkey]
  cases condSpace with
  | none => rfl
  | some cs =>
    simp only
    rw [ONCHAR_conds_spec condVals cs.condSet 0 (by have := hlen cs rfl; omega)]
    rfl

/-- The label of the range `'a'..'z'` under a space of two conditions with
`condVals = 2`: bit 0 is clear and bit 1 is set. -/
theorem ONCHAR_upto31_example :
    ONCHAR (exKeys true true) 97 122 (some exCondSpace) 2
        = onCharSpec (exKeys true true) 97 122 (some exCondSpace) 2
      ∧ ONCHAR (exKeys true true) 97 122 (some exCondSpace) 2 = "'a'..'z'(!c0, c1)"
      ∧ ONCHAR (exKeys true true) 97 97 none 0 = "'a'" :=
  ⟨ONCHAR_upto31 (exKeys true true) 97 122 (some exCondSpace) 2
      (fun cs h => by cases h; decide),
    by decide, by decide⟩


/-- The loop of `ONCHAR` over the condition set, name by name, for a
condition set of any length. -/
theorem ONCHAR_conds_marks (condVals : Int) (l : List Action) (pos : Nat) :
    ONCHAR_conds condVals pos l
      = joinWith ", " ((l.enumFrom pos).map (fun p =>
          (if Int.land condVals (shl1 p.1) ≠ 0 then "" else "!") ++ p.2.actionName)) := by
  induction l generalizing pos with
  | nil => rfl
  | cons csi rest ih =>
    rw [ONCHAR_conds, ih (pos + 1)]
    cases rest with
    | nil => simp [joinWith]
    | cons y ys =>
      simp [List.enumFrom, joinWith, String.append_assoc]

/-- At position 31 the shifted `int` is the sign bit, a negative number, and
the test of `condVals = 1` against it fails. -/
theorem land_one_shl1_31 : Int.land 1 (shl1 31) = 0 := by
  have h1 : shl1 31 = Int.negSucc 2147483647 := by decide
  rw [h1]
  show Int.ofNat (Nat.ldiff 1 2147483647) = 0
  have h2 : Nat.ldiff 1 2147483647 = 0 := by
    apply Nat.zero_of_testBit_eq_false
    intro k
    rw [Nat.testBit_ldiff]
    cases k with
    | zero => decide
    | succ k => simp [Nat.testBit_succ]
  rw [h2]
  rfl

/-- The test `condVals & (1 << pos)` of `ONCHAR` for `condVals = 1` at the
positions of a set of 33 conditions: it succeeds at position 0 and, the shift
count being taken modulo 32, at position 32. -/
theorem mark_one (i : Nat) (hi : i ≤ 32) :
    Int.land 1 (shl1 i) ≠ 0 ↔ (i = 0 ∨ i = 32) := by
  interval_cases i <;> first
    | decide
    | (rw [land_one_shl1_31]; decide)

/-- C18 on the code: `ONCHAR` tests `condVals & (1 << csi.pos())` with a
shift of the `int` 1 although `condVals` is a `long`.  For a condition space
of at most 31 conditions the label is the one the claim words; from position
31 on the shift does not yield bit `pos`.  With the 33 conditions `c0` to
`c32` and `condVals = 1`, of which only bit 0 is set, the last name is
written `c32`, without the `!` the claim requires: the shift count 32 is
taken modulo 32 and the test reads bit 0. -/
theorem ONCHAR_int_shift :
    (∀ (d : InputData) (lowKey highKey : Int) (cs : CondSpace) (condVals : Int),
        cs.condSet.length ≤ 31 →
          ONCHAR d lowKey highKey (some cs) condVals
            = onCharSpec d lowKey highKey (some cs) condVals)
      ∧ (∀ (d : InputData) (lowKey highKey condVals : Int),
          ONCHAR d lowKey highKey none condVals = onCharSpec d lowKey highKey none condVals)
      ∧ exCondSpace33.condSet.length = 33
      ∧ (1 : Int).testBit 32 = false
      ∧ ONCHAR (exKeys true true) 97 97 (some exCondSpace33) 1
          = "'a'(c0, !c1, !c2, !c3, !c4, !c5, !c6, !c7, !c8, !c9, !c10, !c11, !c12, !c13, "
            ++ "!c14, !c15, !c16, !c17, !c18, !c19, !c20, !c21, !c22, !c23, !c24, !c25, "
            ++ "!c26, !c27, !c28, !c29, !c30, !c31, c32)"
      ∧ onCharSpec (exKeys true true) 97 97 (some exCondSpace33) 1
          = "'a'(c0, !c1, !c2, !c3, !c4, !c5, !c6, !c7, !c8, !c9, !c10, !c11, !c12, !c13, "
            ++ "!c14, !c15, !c16, !c17, !c18, !c19, !c20, !c21, !c22, !c23, !c24, !c25, "
            ++ "!c26, !c27, !c28, !c29, !c30, !c31, !c32)"
      ∧ ONCHAR (exKeys true true) 97 97 (some exCondSpace33) 1
          ≠ onCharSpec (exKeys true true) 97 97 (some exCondSpace33) 1 := by
  have hconds : ONCHAR_conds 1 0 exCondSpace33.condSet
      = joinWith ", " ((exCondSpace33.condSet.enumFrom 0).map (fun p =>
          (if p.1 = 0 ∨ p.1 = 32 then "" else "!") ++ p.2.actionName)) := by
    rw [ONCHAR_conds_marks]
    congr 1
    apply List.map_congr_left
    intro p hp
    have hlt : p.1 < 0 + exCondSpace33.condSet.length := by
      obtain ⟨i, x⟩ := p
      exact (List.mem_enumFrom hp).2.1
    have hle : p.1 ≤ 32 := by
      have : exCondSpace33.condSet.length = 33 := by decide
      omega
    by_cases hm : p.1 = 0 ∨ p.1 = 32
    · rw [if_pos ((mark_one p.1 hle).mpr hm), if_pos hm]
    · rw [if_neg (fun hn => hm ((mark_one p.1 hle).mp hn)), if_neg hm]
  have hcode : ONCHAR (exKeys true true) 97 97 (some exCondSpace33) 1
      = "'a'(c0, !c1, !c2, !c3, !c4, !c5, !c6, !c7, !c8, !c9, !c10, !c11, !c12, !c13, "
        ++ "!c14, !c15, !c16, !c17, !c18, !c19, !c20, !c21, !c22, !c23, !c24, !c25, "
        ++ "!c26, !c27, !c28, !c29, !c30, !c31, c32)" := by
    show KEY (exKeys true true) 97
        ++ (if (97 : Int) ≠ 97 then ".." ++ KEY (exKeys true true) 97 else "")
        ++ ("(" ++ ONCHAR_conds 1 0 exCondSpace33.condSet ++ ")") = _
    rw [hconds]
    set_option maxRecDepth 100000 in
    decide
  have hspec : onCharSpec (exKeys true true) 97 97 (some exCondSpace33) 1
      = "'a'(c0, !c1, !c2, !c3, !c4, !c5, !c6, !c7, !c8, !c9, !c10, !c11, !c12, !c13, "
        ++ "!c14, !c15, !c16, !c17, !c18, !c19, !c20, !c21, !c22, !c23, !c24, !c25, "
        ++ "!c26, !c27, !c28, !c29, !c30, !c31, !c32)" := by
    set_option maxRecDepth 100000 in
    decide
  refine ⟨?_, ?_, by decide, by decide, hcode, hspec, ?_⟩
  · intro d lowKey highKey cs condVals hlen
    exact ONCHAR_upto31 d lowKey highKey (some cs) condVals
      (fun cs2 h => by cases h; exact hlen)
  · intro d lowKey highKey condVals
    exact ONCHAR_upto31 d lowKey highKey none condVals (fun cs h => by cases h)
  · rw [hcode, hspec]
    set_option maxRecDepth 100000 in
    decide

end Dot

namespace Dot

/-! ## Proofs: the document as a sequence of statements -/

theorem foldl_out {α : Type} (f : α → String) (xs : List α) (out : String) :
    xs.foldl (fun out x => out ++ f x) out = out ++ concat (xs.map f) := by
  induction xs generalizing out with
  | nil => simp [concat]
  | cons x rest ih => rw [List.foldl_cons, ih, List.map_cons, concat, String.append_assoc]

theorem foldl_out_if {α : Type} (p : α → Prop) [DecidablePred p] (f : α → String)
    (xs : List α) (out : String) :
    xs.foldl (fun out x => if p x then out ++ f x else out) out
      = out ++ concat ((xs.filter (fun x => decide (p x))).map f) := by
  induction xs generalizing out with
  | nil => simp [concat]
  | cons x rest ih =>
    rw [List.foldl_cons, ih]
    by_cases hp : p x
    · simp [hp, concat, String.append_assoc]
    · simp [hp]

theorem concat_flatten (ls : List (List String)) :
    concat ls.flatten = concat (ls.map concat) := by
  induction ls with
  | nil => rfl
  | cons l rest ih => simp [concat_append, concat, ih]

theorem render_trans (d : InputData) (state : StateAp) (tel : TransAp) (ctel : CondAp) :
    (DotStmt.trans state.stateNum (ctel.toState.map (fun targ => targ.stateNum))
        (ONCHAR d tel.lowKey tel.highKey tel.condSpace ctel.lowKey
          ++ TRANS_ACTION state ctel)).render
      = writeTransList_edge d state tel ctel := by
  unfold DotStmt.render writeTransList_edge
  cases ctel.toState <;> simp [String.append_assoc]

theorem writeTransList_stmts (d : InputData) (out : String) (state : StateAp) :
    writeTransList d out state
      = out ++ concat ((transStmts d state).map DotStmt.render) := by
  unfold writeTransList transStmts
  generalize state.outList = tels
  induction tels generalizing out with
  | nil => simp [concat]
  | cons tel rest ih =>
    rw [List.foldl_cons, ih, foldl_out]
    simp only [List.map_cons, List.flatten_cons, List.map_append, concat_append,
      List.map_map, String.append_assoc]
    congr 2
    congr 1
    apply List.map_congr_left
    intro ctel _
    exact (render_trans d state tel ctel).symm

theorem foldl_writeTransList (d : InputData) (sts : List StateAp) (out : String) :
    sts.foldl (fun out st => writeTransList d out st) out
      = out ++ concat (((sts.map (transStmts d)).flatten).map DotStmt.render) := by
  induction sts generalizing out with
  | nil => simp [concat]
  | cons st rest ih =>
    rw [List.foldl_cons, ih, writeTransList_stmts]
    simp [concat_append, String.append_assoc]

/-- The text `writeDot` writes is the text of the statements `dotStmts`, one
after the other. -/
theorem writeDot_stmts (d : InputData) :
    writeDot d = concat ((dotStmts d).map DotStmt.render) := by
  unfold writeDot dotStmts pseudoDecls errDecls finalDecls edgeStmts
  simp only [foldl_out, foldl_out_if, foldl_writeTransList]
  have hne : ∀ st : StateAp, decide (st.eofActionTable.length ≠ 0)
      = decide (st.eofActionTable.length > 0) := by
    intro st
    cases st.eofActionTable <;> simp
  have hErr : (fun st => decide (needsErr st = true)) = needsErr := by
    funext st; cases needsErr st <;> rfl
  have hFin : (fun (st : StateAp) => decide (st.isFinState = true))
      = (fun st => st.isFinState) := by
    funext st; cases st.isFinState <;> rfl
  simp only [hne, hErr, hFin]
  generalize d.pd.sectionGraph.startState = start
  cases start
  · simp only [List.append_eq, List.cons_append, List.map_append, concat_append,
      List.map_map, List.map_cons, List.map_nil,
      concat, String.append_assoc, DotStmt.render, NodeAttr.render, Function.comp_def,
      String.append_empty, Option.isSome_none, Bool.false_eq_true,
      if_false, String.empty_append, List.append_nil, List.nil_append]
    rfl
  · simp only [List.append_eq, List.cons_append, List.map_append, concat_append,
      List.map_map, List.map_cons, List.map_nil,
      concat, String.append_assoc, DotStmt.render, NodeAttr.render, Function.comp_def,
      String.append_empty, Option.isSome_some,
      if_true, String.empty_append, List.append_nil, List.nil_append]
    rfl

/-! ## C19: the EOF pseudo-nodes and their edges -/

theorem ACTION_items_spec (table : List Action) :
    ACTION_items table = joinWith ", " (table.map (fun a => a.actionName)) := by
  induction table with
  | nil => rfl
  | cons a rest ih =>
    rw [ACTION_items, ih]
    cases rest with
    | nil => simp [joinWith]
    | cons y ys => simp [joinWith, String.append_assoc]

/-- The label of the EOF edge of a state. -/
theorem eofLabel_spec (table : List Action) :
    "EOF" ++ ACTION table = "EOF / " ++ joinWith ", " (table.map (fun a => a.actionName)) := by
  rw [ACTION, ACTION_items_spec]
  rw [← String.append_assoc]
  rfl

theorem stateNum_inj (sts : List StateAp) (hnd : (sts.map (fun st => st.stateNum)).Nodup)
    (a b : StateAp) (ha : a ∈ sts) (hb : b ∈ sts) (h : a.stateNum = b.stateNum) : a = b :=
  List.inj_on_of_nodup_map hnd ha hb h

theorem length_pos_iff_ne_nil (table : List Action) : table.length > 0 ↔ table ≠ [] := by
  cases table <;> simp

/-- The declarations `eof_<n>` of the document are those of the states with
an EOF action table that is not empty. -/
theorem eofNode_mem (d : InputData) (n : Int) :
    DotStmt.eofNode n ∈ dotStmts d
      ↔ ∃ st ∈ d.pd.sectionGraph.stateList, st.eofActionTable ≠ [] ∧ st.stateNum = n := by
  unfold dotStmts pseudoDecls errDecls finalDecls edgeStmts
  cases d.pd.sectionGraph.startState <;>
    simp [transStmts, length_pos_iff_ne_nil, and_assoc]

/-- The edges to `eof_<n>` of the document are those of the states with an
EOF action table that is not empty, labelled from that table. -/
theorem eofEdge_mem (d : InputData) (n : Int) (label : String) :
    DotStmt.eofEdge n label ∈ dotStmts d
      ↔ ∃ st ∈ d.pd.sectionGraph.stateList, st.eofActionTable ≠ [] ∧ st.stateNum = n
          ∧ "EOF / " ++ joinWith ", " (st.eofActionTable.map (fun a => a.actionName))
              = label := by
  unfold dotStmts pseudoDecls errDecls finalDecls edgeStmts
  cases d.pd.sectionGraph.startState <;>
    simp [transStmts, eofLabel_spec, and_assoc]

/-- C19: in the output of `writeDot`, whose text is that of the statements
`dotStmts`, for every state `N` of the machine (the state numbers being
distinct), the pseudo-node `eof_N` is declared if and only if the EOF action
table of `N` is not empty, and an edge `N -> eof_N` labelled `EOF / ` followed
by the action names of the table joined by `, ` is emitted if and only if
that same condition holds; a state with an empty EOF action table gets
neither. -/
theorem writeDot_eof (d : InputData)
    (hnd : (d.pd.sectionGraph.stateList.map (fun st => st.stateNum)).Nodup) :
    writeDot d = concat ((dotStmts d).map DotStmt.render)
      ∧ ∀ st ∈ d.pd.sectionGraph.stateList,
          (DotStmt.eofNode st.stateNum ∈ dotStmts d ↔ st.eofActionTable ≠ [])
          ∧ (DotStmt.eofEdge st.stateNum
                ("EOF / " ++ joinWith ", " (st.eofActionTable.map (fun a => a.actionName)))
              ∈ dotStmts d ↔ st.eofActionTable ≠ [])
          ∧ (st.eofActionTable = [] →
              DotStmt.eofNode st.stateNum ∉ dotStmts d
                ∧ ∀ label, DotStmt.eofEdge st.stateNum label ∉ dotStmts d) := by
  refine ⟨writeDot_stmts d, ?_⟩
  intro st hst
  have hnode : DotStmt.eofNode st.stateNum ∈ dotStmts d ↔ st.eofActionTable ≠ [] := by
    rw [eofNode_mem]
    constructor
    · rintro ⟨st2, h2, hne, hnum⟩
      rw [← stateNum_inj _ hnd st2 st h2 hst hnum]
      exact hne
    · intro hne
      exact ⟨st, hst, hne, rfl⟩
  have hedge : ∀ label, DotStmt.eofEdge st.stateNum label ∈ dotStmts d →
      st.eofActionTable ≠ [] := by
    intro label hm
    obtain ⟨st2, h2, hne, hnum, _⟩ := (eofEdge_mem d st.stateNum label).mp hm
    rw [← stateNum_inj _ hnd st2 st h2 hst hnum]
    exact hne
  refine ⟨hnode, ⟨hedge _, fun hne => ?_⟩, fun hnil => ⟨?_, fun label hm => ?_⟩⟩
  · exact (eofEdge_mem d st.stateNum _).mpr ⟨st, hst, hne, rfl, rfl⟩
  · exact fun hm => hnode.mp hm hnil
  · exact hedge label hm hnil

/-- C19 at a machine of two states, of which the final one has an EOF
action. -/
theorem writeDot_eof_witness :
    writeDot exDot = concat ((dotStmts exDot).map DotStmt.render)
      ∧ ∀ st ∈ exDot.pd.sectionGraph.stateList,
          (DotStmt.eofNode st.stateNum ∈ dotStmts exDot ↔ st.eofActionTable ≠ [])
          ∧ (DotStmt.eofEdge st.stateNum
                ("EOF / " ++ joinWith ", " (st.eofActionTable.map (fun a => a.actionName)))
              ∈ dotStmts exDot ↔ st.eofActionTable ≠ [])
          ∧ (st.eofActionTable = [] →
              DotStmt.eofNode st.stateNum ∉ dotStmts exDot
                ∧ ∀ label, DotStmt.eofEdge st.stateNum label ∉ dotStmts exDot) :=
  writeDot_eof exDot (by decide)

end Dot
namespace Dot

/-! ## C20: the shapes of the nodes -/

theorem governed_plain (cur : Option NodeAttr) (l rest : List DotStmt)
    (hl : ∀ s ∈ l, s.isPlain = true) :
    governed cur (l ++ rest) = l.map (fun s => (s, cur)) ++ governed cur rest := by
  induction l with
  | nil => rfl
  | cons s l ih =>
    have hs := hl s (List.mem_cons_self _ _)
    have ih2 := ih (fun x hx => hl x (List.mem_cons_of_mem _ hx))
    cases s <;> first
      | (simp [DotStmt.isPlain] at hs; done)
      | simp [governed, ih2]

theorem pseudoDecls_kind (d : InputData) :
    ∀ s ∈ pseudoDecls d, s.isPlain = true ∧ Suits s (some .point) := by
  intro s hs
  unfold pseudoDecls at hs
  simp only [List.mem_append, List.mem_map, List.mem_filter] at hs
  rcases hs with (hs | ⟨en, _, rfl⟩) | ⟨st, _, rfl⟩
  · have hse : s = DotStmt.entryNode := by
      by_cases hstart : d.pd.sectionGraph.startState.isSome = true
      · simpa [hstart] using hs
      · simp [hstart] at hs
    subst hse
    exact ⟨rfl, by simp [Suits, DotStmt.isPointPseudo, DotStmt.isErrNode,
      DotStmt.isFinalNode, DotStmt.isEdge]⟩
  · exact ⟨rfl, by simp [Suits, DotStmt.isPointPseudo, DotStmt.isErrNode,
      DotStmt.isFinalNode, DotStmt.isEdge]⟩
  · exact ⟨rfl, by simp [Suits, DotStmt.isPointPseudo, DotStmt.isErrNode,
      DotStmt.isFinalNode, DotStmt.isEdge]⟩

theorem errDecls_kind (d : InputData) :
    ∀ s ∈ errDecls d, s.isPlain = true ∧ Suits s (some .smallCircle) := by
  intro s hs
  unfold errDecls at hs
  simp only [List.mem_map] at hs
  obtain ⟨st, _, rfl⟩ := hs
  exact ⟨rfl, by simp [Suits, DotStmt.isPointPseudo, DotStmt.isErrNode,
    DotStmt.isFinalNode, DotStmt.isEdge]⟩

theorem finalDecls_kind (d : InputData) :
    ∀ s ∈ finalDecls d, s.isPlain = true ∧ Suits s (some .doubleCircle) := by
  intro s hs
  unfold finalDecls at hs
  simp only [List.mem_map] at hs
  obtain ⟨st, _, rfl⟩ := hs
  exact ⟨rfl, by simp [Suits, DotStmt.isPointPseudo, DotStmt.isErrNode,
    DotStmt.isFinalNode, DotStmt.isEdge]⟩

theorem edgeStmts_kind (d : InputData) :
    ∀ s ∈ edgeStmts d, s.isPlain = true ∧ Suits s (some .circle) := by
  intro s hs
  unfold edgeStmts transStmts at hs
  simp only [List.mem_append, List.mem_map, List.mem_flatten] at hs
  have key : ∀ t : DotStmt, t.isEdge = true → t.isPlain = true ∧ Suits t (some .circle) := by
    intro t ht
    cases t <;> first
      | (simp [DotStmt.isEdge] at ht; done)
      | exact ⟨rfl, by simp [Suits, DotStmt.isPointPseudo, DotStmt.isErrNode,
          DotStmt.isFinalNode]⟩
  rcases hs with ((⟨l, ⟨st, _, rfl⟩, hs⟩ | hs) | ⟨en, _, rfl⟩) | ⟨st, _, rfl⟩
  · simp only [List.mem_flatten, List.mem_map] at hs
    obtain ⟨l2, ⟨tel, _, rfl⟩, hs⟩ := hs
    simp only [List.mem_map] at hs
    obtain ⟨ctel, _, rfl⟩ := hs
    exact key _ rfl
  · generalize d.pd.sectionGraph.startState = start at hs
    cases start with
    | none => simp at hs
    | some x =>
      simp only [List.mem_singleton] at hs
      subst hs
      exact key _ rfl
  · exact key _ rfl
  · exact key _ rfl

/-- The statements of the document, each with the `node [ ... ]` line in
force. -/
theorem governed_dotStmts (d : InputData) :
    governed none (dotStmts d)
      = [(DotStmt.digraph d.pd.sectionName, none), (DotStmt.nodeAttr .point, none)]
        ++ (pseudoDecls d).map (fun s => (s, some NodeAttr.point))
        ++ [(DotStmt.nodeAttr .smallCircle, some NodeAttr.point)]
        ++ (errDecls d).map (fun s => (s, some NodeAttr.smallCircle))
        ++ [(DotStmt.nodeAttr .doubleCircle, some NodeAttr.smallCircle)]
        ++ (finalDecls d).map (fun s => (s, some NodeAttr.doubleCircle))
        ++ [(DotStmt.nodeAttr .circle, some NodeAttr.doubleCircle)]
        ++ (edgeStmts d).map (fun s => (s, some NodeAttr.circle))
        ++ [(DotStmt.close, some NodeAttr.circle)] := by
  unfold dotStmts
  simp only [List.append_eq, List.append_assoc, List.cons_append, List.nil_append, governed]
  rw [governed_plain _ _ _ (fun s hs => (pseudoDecls_kind d s hs).1)]
  simp only [List.cons_append, List.nil_append, governed]
  rw [governed_plain _ _ _ (fun s hs => (errDecls_kind d s hs).1)]
  simp only [List.cons_append, List.nil_append, governed]
  rw [governed_plain _ _ _ (fun s hs => (finalDecls_kind d s hs).1)]
  simp only [List.cons_append, List.nil_append, governed]
  rw [governed_plain _ _ _ (fun s hs => (edgeStmts_kind d s hs).1)]
  simp only [governed]

/-- C20, as stated, fails: in the document of a machine whose start state 0
has a transition without target, the pseudo-node `err_0` is declared after
the line `node [ shape = circle, height = 0.2 ];`, not under
`shape = point`. -/
theorem writeDot_shapes_counterexample :
    (DotStmt.errNode 0, some NodeAttr.smallCircle) ∈ governed none (dotStmts exDot)
      ∧ ¬ (∀ p ∈ governed none (dotStmts exDot),
            p.1.isErrNode = true → p.2 = some NodeAttr.point)
      ∧ writeDot exDot
        = "digraph m \x7b\n"
          ++ "\trankdir=LR;\n"
          ++ "\tnode [ shape = point ];\n"
          ++ "\tENTRY;\n"
          ++ "\teof_1;\n"
          ++ "\tnode [ shape = circle, height = 0.2 ];\n"
          ++ "\terr_0 [ label=\"\"];\n"
          ++ "\tnode [ fixedsize = true, height = 0.65, shape = doublecircle ];\n"
          ++ "\t1;\n"
          ++ "\tnode [ shape = circle ];\n"
          ++ "\t0 -> 1 [ label = \"'a'\" ];\n"
          ++ "\t0 -> err_0 [ label = \"'b'\" ];\n"
          ++ "\tENTRY -> 0 [ label = \"IN\" ];\n"
          ++ "\t1 -> eof_1 [ label = \"EOF / E\" ];\n"
          ++ "\x7d\n" := by
  set_option maxRecDepth 100000 in
  decide

/-- C20 (amended): in the output of `writeDot`, whose text is that of the
statements `dotStmts`, every declaration of `ENTRY`, of an `en_<id>` and of an
`eof_<id>` is governed by the `shape = point` node attribute (the nearest
preceding `node [ ... ]` line is the point one), every declaration of an
`err_<id>` is governed by the line `node [ shape = circle, height = 0.2 ]`,
every final state is declared under `shape = doublecircle`, and every edge,
where the other states are first named, falls under `shape = circle`. -/
theorem writeDot_shapes (d : InputData) :
    writeDot d = concat ((dotStmts d).map DotStmt.render)
      ∧ ∀ p ∈ governed none (dotStmts d),
          (p.1.isPointPseudo = true → p.2 = some NodeAttr.point)
          ∧ (p.1.isErrNode = true → p.2 = some NodeAttr.smallCircle)
          ∧ (p.1.isFinalNode = true → p.2 = some NodeAttr.doubleCircle)
          ∧ (p.1.isEdge = true → p.2 = some NodeAttr.circle) := by
  refine ⟨writeDot_stmts d, ?_⟩
  intro p hp
  rw [governed_dotStmts] at hp
  simp only [List.mem_append, List.mem_cons, List.mem_singleton, List.not_mem_nil,
    or_false, List.mem_map] at hp
  have plain : ∀ (s : DotStmt) (a : Option NodeAttr),
      s.isPointPseudo = false → s.isErrNode = false → s.isFinalNode = false →
      s.isEdge = false → Suits s a := by
    intro s a h1 h2 h3 h4
    simp [Suits, h1, h2, h3, h4]
  rcases hp with (((((((((hp | hp) | ⟨s, hs, rfl⟩) | hp) | ⟨s, hs, rfl⟩) | hp)
    | ⟨s, hs, rfl⟩) | hp) | ⟨s, hs, rfl⟩) | hp)
  · subst hp; exact plain _ _ rfl rfl rfl rfl
  · subst hp; exact plain _ _ rfl rfl rfl rfl
  · exact (pseudoDecls_kind d s hs).2
  · subst hp; exact plain _ _ rfl rfl rfl rfl
  · exact (errDecls_kind d s hs).2
  · subst hp; exact plain _ _ rfl rfl rfl rfl
  · exact (finalDecls_kind d s hs).2
  · subst hp; exact plain _ _ rfl rfl rfl rfl
  · exact (edgeStmts_kind d s hs).2
  · subst hp; exact plain _ _ rfl rfl rfl rfl

end Dot

/-! ## Proofs: what `setValueLimits` leaves alone -/

theorem setValueLimitsItems_input (g : FsmCodeGen) (key : List ActionTableEl) :
    limitsInput (setValueLimitsItems g key) = limitsInput g := by
  unfold setValueLimitsItems
  exact foldl_keeps limitsInput _ (fun g x => by split <;> rfl) key g

theorem setValueLimitsTable_input (g : FsmCodeGen) (table : RedAction) :
    limitsInput (setValueLimitsTable g table) = limitsInput g := by
  unfold setValueLimitsTable
  simp only
  rw [setValueLimitsItems_input]
  split <;> split <;> split <;> rfl

theorem setValueLimitsStates_input (g : FsmCodeGen) (sts : List RedStateAp) :
    limitsInput (setValueLimitsStates g sts) = limitsInput g
      ∧ (setValueLimitsStates g sts).maxActArrItem = g.maxActArrItem := by
  induction sts generalizing g with
  | nil => exact ⟨rfl, rfl⟩
  | cons st rest ih =>
    rw [setValueLimitsStates]
    exact ⟨(ih _).1.trans rfl, (ih _).2.trans rfl⟩

theorem setValueLimitsCondSpaces_input (g : FsmCodeGen) :
    limitsInput (setValueLimitsCondSpaces g) = limitsInput g
      ∧ (setValueLimitsCondSpaces g).maxActArrItem = g.maxActArrItem := by
  unfold setValueLimitsCondSpaces
  exact ⟨foldl_keeps limitsInput _ (fun g x => by split <;> rfl) _ g,
    foldl_keeps (fun g => g.maxActArrItem) _ (fun g x => by split <;> rfl) _ g⟩

/-- The limits before the loop over the action map: the input is that of `g`
with `maxState` set, and `maxActArrItem` is 0. -/
theorem setValueLimits_tables (g : FsmCodeGen) :
    ∃ g0 : FsmCodeGen,
      limitsInput g0 = (g.cgd.actionList, g.redFsm, g.redFsm.nextStateId - 1)
        ∧ g0.maxActArrItem = 0
        ∧ setValueLimits g = g.redFsm.actionMap.foldl setValueLimitsTable g0 := by
  let g1 : FsmCodeGen := { g with
      maxSingleLen := 0, maxRangeLen := 0, maxKeyOffset := 0, maxIndexOffset := 0,
      maxActListId := 0, maxActionLoc := 0, maxActArrItem := 0, maxSpan := 0,
      maxCondSpan := 0, maxFlatIndexOffset := 0, maxCondOffset := 0, maxCondLen := 0,
      maxCondSpaceId := 0, maxCondIndexOffset := 0,
      maxIndex := g.redFsm.transSet.length, maxCond := g.cgd.condSpaceList.length,
      maxState := g.redFsm.nextStateId - 1 }
  have h1 := setValueLimitsCondSpaces_input g1
  have h2 := setValueLimitsStates_input (setValueLimitsCondSpaces g1)
    (setValueLimitsCondSpaces g1).redFsm.stateList
  have hr : (setValueLimitsStates (setValueLimitsCondSpaces g1)
      (setValueLimitsCondSpaces g1).redFsm.stateList).redFsm = g.redFsm := by
    have := congrArg (fun p => p.2.1) (h2.1.trans h1.1)
    exact this
  refine ⟨setValueLimitsStates (setValueLimitsCondSpaces g1)
    (setValueLimitsCondSpaces g1).redFsm.stateList, ?_, ?_, ?_⟩
  · rw [h2.1, h1.1]
    rfl
  · rw [h2.2, h1.2]
  · rw [← hr]
    rfl

theorem setValueLimits_input (g : FsmCodeGen) :
    limitsInput (setValueLimits g) = (g.cgd.actionList, g.redFsm, g.redFsm.nextStateId - 1) := by
  obtain ⟨g0, h0, _, hg⟩ := setValueLimits_tables g
  rw [hg, foldl_keeps limitsInput _ setValueLimitsTable_input, h0]

theorem setValueLimits_maxState (g : FsmCodeGen) :
    (setValueLimits g).maxState = g.redFsm.nextStateId - 1 :=
  congrArg (fun p => p.2.2) (setValueLimits_input g)

/-! ## Proofs: `maxActArrItem` bounds the packed action array -/

theorem setValueLimitsItems_bound (g : FsmCodeGen) (key : List ActionTableEl) :
    g.maxActArrItem ≤ (setValueLimitsItems g key).maxActArrItem
      ∧ ∀ item ∈ key, actionIdAt g.cgd.actionList item.value
          ≤ (setValueLimitsItems g key).maxActArrItem := by
  unfold setValueLimitsItems
  induction key generalizing g with
  | nil => simp
  | cons item rest ih =>
    rw [List.foldl_cons]
    by_cases hc : actionIdAt g.cgd.actionList item.value > g.maxActArrItem
    · rw [if_pos hc]
      have h := ih { g with maxActArrItem := actionIdAt g.cgd.actionList item.value }
      refine ⟨le_trans (le_of_lt hc) h.1, ?_⟩
      intro x hx
      rcases List.mem_cons.mp hx with rfl | hx
      · exact h.1
      · exact h.2 x hx
    · rw [if_neg hc]
      have h := ih g
      refine ⟨h.1, ?_⟩
      intro x hx
      rcases List.mem_cons.mp hx with rfl | hx
      · exact le_trans (not_lt.mp hc) h.1
      · exact h.2 x hx

theorem setValueLimitsTable_bound (g : FsmCodeGen) (table : RedAction) :
    g.maxActArrItem ≤ (setValueLimitsTable g table).maxActArrItem
      ∧ (table.key.length : Int) ≤ (setValueLimitsTable g table).maxActArrItem
      ∧ ∀ item ∈ table.key, actionIdAt g.cgd.actionList item.value
          ≤ (setValueLimitsTable g table).maxActArrItem := by
  unfold setValueLimitsTable
  simp only
  generalize hg1 : (if table.actListId + 1 > g.maxActListId then
      { g with maxActListId := table.actListId + 1 } else g) = g1
  have h1 : g1.maxActArrItem = g.maxActArrItem ∧ g1.cgd = g.cgd := by
    rw [← hg1]; split <;> exact ⟨rfl, rfl⟩
  generalize hg2 : (if table.location + 1 > g1.maxActionLoc then
      { g1 with maxActionLoc := table.location + 1 } else g1) = g2
  have h2 : g2.maxActArrItem = g.maxActArrItem ∧ g2.cgd = g.cgd := by
    rw [← hg2]; split
    · exact h1
    · exact h1
  generalize hg3 : (if (table.key.length : Int) > g2.maxActArrItem then
      { g2 with maxActArrItem := table.key.length } else g2) = g3
  have h3 : g.maxActArrItem ≤ g3.maxActArrItem
      ∧ (table.key.length : Int) ≤ g3.maxActArrItem ∧ g3.cgd = g.cgd := by
    rw [← hg3]
    by_cases hc : (table.key.length : Int) > g2.maxActArrItem
    · rw [if_pos hc]
      exact ⟨by rw [← h2.1]; exact le_of_lt hc, le_refl _, h2.2⟩
    · rw [if_neg hc]
      exact ⟨by rw [h2.1], not_lt.mp hc, h2.2⟩
  have h4 := setValueLimitsItems_bound g3 table.key
  rw [h3.2.2] at h4
  exact ⟨le_trans h3.1 h4.1, le_trans h3.2.1 h4.1, h4.2⟩

theorem setValueLimitsTables_bound (tables : List RedAction) (g : FsmCodeGen) :
    g.maxActArrItem ≤ (tables.foldl setValueLimitsTable g).maxActArrItem
      ∧ ∀ table ∈ tables,
          (table.key.length : Int) ≤ (tables.foldl setValueLimitsTable g).maxActArrItem
            ∧ ∀ item ∈ table.key, actionIdAt g.cgd.actionList item.value
                ≤ (tables.foldl setValueLimitsTable g).maxActArrItem := by
  induction tables generalizing g with
  | nil => simp
  | cons table rest ih =>
    rw [List.foldl_cons]
    have hb := setValueLimitsTable_bound g table
    have hi := ih (setValueLimitsTable g table)
    have hacts : (setValueLimitsTable g table).cgd.actionList = g.cgd.actionList :=
      congrArg Prod.fst (setValueLimitsTable_input g table)
    rw [hacts] at hi
    refine ⟨le_trans hb.1 hi.1, ?_⟩
    intro t ht
    rcases List.mem_cons.mp ht with rfl | ht
    · exact ⟨le_trans hb.2.1 hi.1, fun item hitem => le_trans (hb.2.2 item hitem) hi.1⟩
    · exact hi.2 t ht

/-- The integers of the packed action array, read from the text. -/
theorem ACTIONS_ARRAY_read (g : FsmCodeGen) :
    readInts (ACTIONS_ARRAY g).toList = some (actionsArraySpec g) := by
  rw [ACTIONS_ARRAY_data, readInts, List.append_assoc, List.foldl_append]
  have h0 : ['\t', '0', ',', ' '].foldl scanChar (some ([], .fresh))
      = some ([0], .fresh) := by decide
  rw [h0, scan_emitC _ 1 [0] (flatTables_commaOK _ _), flatTables_values]
  rfl

/-- After `setValueLimits`, every integer of the packed action array is at
most `maxActArrItem`. -/
theorem setValueLimits_covers (g : FsmCodeGen) :
    ∀ x ∈ actionsArraySpec (setValueLimits g), x ≤ (setValueLimits g).maxActArrItem := by
  obtain ⟨g0, h0, hz, hg⟩ := setValueLimits_tables g
  have hin := setValueLimits_input g
  have hacts : (setValueLimits g).cgd.actionList = g.cgd.actionList := congrArg Prod.fst hin
  have hred : (setValueLimits g).redFsm = g.redFsm := congrArg (fun p => p.2.1) hin
  have hacts0 : g0.cgd.actionList = g.cgd.actionList := congrArg Prod.fst h0
  have hb := setValueLimitsTables_bound g.redFsm.actionMap g0
  rw [← hg, hz, hacts0] at hb
  intro x hx
  unfold actionsArraySpec at hx
  rw [hacts, hred] at hx
  rcases List.mem_cons.mp hx with rfl | hx
  · exact hb.1
  · simp only [List.mem_flatten, List.mem_map] at hx
    obtain ⟨l, ⟨table, htable, rfl⟩, hx⟩ := hx
    rcases List.mem_cons.mp hx with rfl | hx
    · exact (hb.2 table htable).1
    · obtain ⟨item, hitem, rfl⟩ := List.mem_map.mp hx
      exact (hb.2 table htable).2 item hitem

/-! ## C26: `maxActArrItem` covers the packed action array -/

/-- C26: after `assignActionIds` and `setValueLimits`, every integer that
`ACTIONS_ARRAY` emits (the text read back as a list of integers: the reserved
0, the length of each action table and each action id in a table) is at most
`maxActArrItem`; this holds whether or not every action of a table has been
assigned an id, since the limit is computed from the ids the array shows.  For
`/a+b/` the array is `[0, 1, 0]` and the limit is 1. -/
theorem ACTIONS_ARRAY_le_maxActArrItem (g : FsmCodeGen) :
    (∃ ints : List Int,
        readInts (ACTIONS_ARRAY (setValueLimits (assignActionIds g))).toList = some ints
          ∧ ints = actionsArraySpec (setValueLimits (assignActionIds g))
          ∧ ∀ x ∈ ints, x ≤ (setValueLimits (assignActionIds g)).maxActArrItem)
      ∧ readInts (ACTIONS_ARRAY
            (setValueLimits (assignActionIds (findFinalActionRefs exAPlusB)))).toList
          = some [0, 1, 0]
      ∧ (setValueLimits (assignActionIds (findFinalActionRefs exAPlusB))).maxActArrItem
          = 1 :=
  ⟨⟨actionsArraySpec (setValueLimits (assignActionIds g)), ACTIONS_ARRAY_read _, rfl,
      setValueLimits_covers _⟩, by decide, by decide⟩

/-! ## C22: the error state -/

/-- C22: `ERROR_STATE` returns the decimal id of the error state of the
reduced machine when there is one, a text that reads back as that id, and the
literal string `-1` when the error state is absent; for the machine whose
error state is the state 0 it returns `0`, and for `/a/`, which has no error
state, `-1`. -/
theorem ERROR_STATE_spec (g : FsmCodeGen) :
    (∀ id, g.redFsm.errState = some id →
        ERROR_STATE g = toString id ∧ readInts (ERROR_STATE g).toList = some [id])
      ∧ (g.redFsm.errState = none → ERROR_STATE g = "-1")
      ∧ ERROR_STATE exErr = "0"
      ∧ ERROR_STATE exA = "-1" := by
  refine ⟨?_, ?_, by decide, by decide⟩
  · intro id hid
    have h : ERROR_STATE g = toString id := by
      unfold ERROR_STATE
      rw [hid]
    exact ⟨h, by rw [h]; exact readInts_intChars id⟩
  · intro hnone
    unfold ERROR_STATE
    rw [hnone]

/-! ## C27: the first final state -/

/-- C27: `FIRST_FINAL_STATE` returns the id of `firstFinState` when the
machine has a final state, and otherwise `nextStateId`; the state ids being
dense in `[0, nextStateId)`, that number is strictly greater than every state
id (it is `maxState + 1` for the `maxState` of `setValueLimits`), so with no
final state the test `cs >= first_final` holds for no state. -/
theorem FIRST_FINAL_STATE_spec (g : FsmCodeGen)
    (hdense : ∀ st ∈ g.redFsm.stateList, 0 ≤ st.id ∧ st.id < g.redFsm.nextStateId) :
    (∀ id, g.redFsm.firstFinState = some id →
        FIRST_FINAL_STATE g = toString id
          ∧ readInts (FIRST_FINAL_STATE g).toList = some [id])
      ∧ (g.redFsm.firstFinState = none →
          FIRST_FINAL_STATE g = toString g.redFsm.nextStateId
            ∧ ∃ first_final : Int,
                readInts (FIRST_FINAL_STATE g).toList = some [first_final]
                  ∧ first_final = (setValueLimits g).maxState + 1
                  ∧ (∀ st ∈ g.redFsm.stateList, st.id < first_final)
                  ∧ ∀ st ∈ g.redFsm.stateList, ¬ (st.id ≥ first_final)) := by
  constructor
  · intro id hid
    have h : FIRST_FINAL_STATE g = toString id := by
      unfold FIRST_FINAL_STATE
      rw [hid]
    exact ⟨h, by rw [h]; exact readInts_intChars id⟩
  · intro hnone
    have h : FIRST_FINAL_STATE g = toString g.redFsm.nextStateId := by
      unfold FIRST_FINAL_STATE
      rw [hnone]
    refine ⟨h, g.redFsm.nextStateId, by rw [h]; exact readInts_intChars _, ?_,
      fun st hst => (hdense st hst).2, fun st hst => not_le.mpr (hdense st hst).2⟩
    rw [setValueLimits_maxState]
    ring

/-- C27 at the machine of two states 0 and 1 without final state, where
`nextStateId` is 2. -/
theorem FIRST_FINAL_STATE_spec_witness :
    (∀ st ∈ exErr.redFsm.stateList, 0 ≤ st.id ∧ st.id < exErr.redFsm.nextStateId)
      ∧ ((∀ id, exErr.redFsm.firstFinState = some id →
          FIRST_FINAL_STATE exErr = toString id
            ∧ readInts (FIRST_FINAL_STATE exErr).toList = some [id])
        ∧ (exErr.redFsm.firstFinState = none →
            FIRST_FINAL_STATE exErr = toString exErr.redFsm.nextStateId
              ∧ ∃ first_final : Int,
                  readInts (FIRST_FINAL_STATE exErr).toList = some [first_final]
                    ∧ first_final = (setValueLimits exErr).maxState + 1
                    ∧ (∀ st ∈ exErr.redFsm.stateList, st.id < first_final)
                    ∧ ∀ st ∈ exErr.redFsm.stateList, ¬ (st.id ≥ first_final))) :=
  ⟨by decide, FIRST_FINAL_STATE_spec exErr (by decide)⟩

/-! ## C23: the init routine -/

/-- The text `writeOutInit` writes is the text of the lines `initStmts`, one
after the other. -/
theorem writeOutInit_stmts (h : Host) (nm : InitNames) (g : FsmCodeGen) :
    writeOutInit h nm g = concat ((initStmts g).map (InitStmt.render h nm)) := by
  have e : ∀ z : String, " = " ++ ("0" ++ (";\n" ++ z)) = " = 0;\n" ++ z := by
    intro z
    rw [← String.append_assoc, ← String.append_assoc]
    rfl
  unfold writeOutInit initStmts
  cases anyActionCalls g || anyActionRets g <;> cases g.cgd.hasLongestMatch <;>
    simp only [concat, List.map, InitStmt.render, Reg.name, InitVal.render, String.append_assoc,
      String.append_empty, List.cons_append, List.nil_append, List.append_nil, if_true,
      if_false, Bool.false_eq_true, e]

/-- C23, as stated, fails on the Java adapter: for a machine with a
longest-match construct the init routine assigns `-1`, the null item of Java,
to `tokstart` and `tokend`; no line of it zeroes them. -/
theorem writeOutInit_counterexample :
    exLm.cgd.hasLongestMatch = true
      ∧ writeOutInit (exHostOf .Java) exNames exLm
        = "\t\x7b\n"
          ++ "\tcs = m_start;\n"
          ++ "\ttokstart = -1;\n"
          ++ "\ttokend = -1;\n"
          ++ "\tact = 0;\n"
          ++ "\t\x7d\n"
      ∧ ¬ zeroes "tokstart" (writeOutInit (exHostOf .Java) exNames exLm)
      ∧ ¬ zeroes "tokend" (writeOutInit (exHostOf .Java) exNames exLm)
      ∧ ¬ (∀ a : Adapter, zeroes "tokstart" (writeOutInit (exHostOf a) exNames exLm)
            ↔ exLm.cgd.hasLongestMatch = true) := by
  refine ⟨rfl, by decide, by decide, by decide, ?_⟩
  intro hall
  exact absurd ((hall .Java).mpr rfl) (by decide)

/-- C23 (amended): the init routine written by `writeOutInit`, whose text is
that of the lines `initStmts`, always assigns the start state to `cs`; it
zeroes `top` if and only if `anyActionCalls` or `anyActionRets` holds; and if
and only if the machine has a longest-match construct it assigns the null
item of the adapter to `tokstart` and to `tokend` and zeroes `act`; it makes no
other assignment.  The null item is `0` on the C adapter, `null` on the D
adapter and `-1` on the Java adapter. -/
theorem writeOutInit_spec (h : Host) (nm : InitNames) (g : FsmCodeGen) :
    writeOutInit h nm g = concat ((initStmts g).map (InitStmt.render h nm))
      ∧ InitStmt.assign .cs .start ∈ initStmts g
      ∧ (InitStmt.assign .top .zero ∈ initStmts g
          ↔ (anyActionCalls g || anyActionRets g) = true)
      ∧ (InitStmt.assign .tokstart .nullItem ∈ initStmts g ↔ g.cgd.hasLongestMatch = true)
      ∧ (InitStmt.assign .tokend .nullItem ∈ initStmts g ↔ g.cgd.hasLongestMatch = true)
      ∧ (InitStmt.assign .act .zero ∈ initStmts g ↔ g.cgd.hasLongestMatch = true)
      ∧ (∀ r v, InitStmt.assign r v ∈ initStmts g →
          (r, v) ∈ [(Reg.cs, InitVal.start), (Reg.top, InitVal.zero),
            (Reg.tokstart, InitVal.nullItem), (Reg.tokend, InitVal.nullItem),
            (Reg.act, InitVal.zero)])
      ∧ (InitStmt.assign .tokstart .nullItem).render h nm
          = "\t" ++ h.TOKSTART ++ " = " ++ h.NULL_ITEM ++ ";\n"
      ∧ (InitStmt.assign .tokend .nullItem).render h nm
          = "\t" ++ h.TOKEND ++ " = " ++ h.NULL_ITEM ++ ";\n"
      ∧ Adapter.NULL_ITEM .C = "0"
      ∧ Adapter.NULL_ITEM .D = "null"
      ∧ Adapter.NULL_ITEM .Java = "-1" := by
  refine ⟨writeOutInit_stmts h nm g, ?_, ?_, ?_, ?_, ?_, ?_, rfl, rfl, rfl, rfl, rfl⟩ <;>
    unfold initStmts <;>
    cases anyActionCalls g || anyActionRets g <;> cases g.cgd.hasLongestMatch <;>
    simp <;> aesop

/-! ## C24: tokens an adapter does not support -/

/-- C24: on the Java adapter the requests `POINTER()`, `PTR_CONST()` and
`UINT()` each fail on the assertion `assert( false )` and yield no token; on
the C and D adapters the same three requests succeed and return a token: ` *`,
`const ` and `unsigned int` on C, `* `, the empty token and `uint` on D. -/
theorem adapter_tokens :
    (Adapter.POINTER .Java = none ∧ Adapter.PTR_CONST .Java = none
        ∧ Adapter.UINT .Java = none)
      ∧ (Adapter.POINTER .C = some " *" ∧ Adapter.PTR_CONST .C = some "const "
        ∧ Adapter.UINT .C = some "unsigned int")
      ∧ (Adapter.POINTER .D = some "* " ∧ Adapter.PTR_CONST .D = some ""
        ∧ Adapter.UINT .D = some "uint")
      ∧ ∀ a : Adapter, a ≠ .Java →
          (a.POINTER).isSome = true ∧ (a.PTR_CONST).isSome = true ∧ (a.UINT).isSome = true := by
  refine ⟨⟨rfl, rfl, rfl⟩, ⟨rfl, rfl, rfl⟩, ⟨rfl, rfl, rfl⟩, ?_⟩
  intro a ha
  cases a
  · exact ⟨rfl, rfl, rfl⟩
  · exact ⟨rfl, rfl, rfl⟩
  · exact absurd rfl ha

namespace Dot

/-! ## C21: the order of the document -/

theorem pseudoDecls_stage (d : InputData) : ∀ s ∈ pseudoDecls d, s.stage = 1 := by
  intro s hs
  unfold pseudoDecls at hs
  simp only [List.mem_append, List.mem_map, List.mem_filter] at hs
  rcases hs with (hs | ⟨en, _, rfl⟩) | ⟨st, _, rfl⟩
  · have hse : s = DotStmt.entryNode := by
      by_cases hstart : d.pd.sectionGraph.startState.isSome = true
      · simpa [hstart] using hs
      · simp [hstart] at hs
    subst hse
    rfl
  · rfl
  · rfl

theorem errDecls_stage (d : InputData) : ∀ s ∈ errDecls d, s.stage = 1 := by
  intro s hs
  unfold errDecls at hs
  simp only [List.mem_map] at hs
  obtain ⟨st, _, rfl⟩ := hs
  rfl

theorem finalDecls_stage (d : InputData) : ∀ s ∈ finalDecls d, s.stage = 2 := by
  intro s hs
  unfold finalDecls at hs
  simp only [List.mem_map] at hs
  obtain ⟨st, _, rfl⟩ := hs
  rfl

theorem edgeStmts_stage (d : InputData) : ∀ s ∈ edgeStmts d, s.stage = 3 := by
  intro s hs
  unfold edgeStmts transStmts at hs
  simp only [List.mem_append, List.mem_map, List.mem_flatten] at hs
  rcases hs with ((⟨l, ⟨st, _, rfl⟩, hs⟩ | hs) | ⟨en, _, rfl⟩) | ⟨st, _, rfl⟩
  · simp only [List.mem_flatten, List.mem_map] at hs
    obtain ⟨l2, ⟨tel, _, rfl⟩, hs⟩ := hs
    simp only [List.mem_map] at hs
    obtain ⟨ctel, _, rfl⟩ := hs
    rfl
  · generalize d.pd.sectionGraph.startState = start at hs
    cases start with
    | none => simp at hs
    | some x =>
      simp only [List.mem_singleton] at hs
      subst hs
      rfl
  · rfl
  · rfl

/-- A run of statements in document order whose parts lie between `lo` and
`hi`. -/
theorem seg_const {l : List DotStmt} {k : Nat} (h : ∀ s ∈ l, s.stage = k) :
    l.Pairwise (fun s t => s.stage ≤ t.stage) ∧ ∀ s ∈ l, k ≤ s.stage ∧ s.stage ≤ k := by
  constructor
  · rw [List.pairwise_iff_forall_sublist]
    intro a b hab
    have ha := h a (hab.subset (List.mem_cons_self _ _))
    have hb := h b (hab.subset (List.mem_cons_of_mem _ (List.mem_cons_self _ _)))
    rw [ha, hb]
  · intro s hs
    rw [h s hs]
    exact ⟨le_refl _, le_refl _⟩

theorem seg_append {l1 l2 : List DotStmt} {a b c e : Nat} (hbc : b ≤ c)
    (h1 : l1.Pairwise (fun s t => s.stage ≤ t.stage) ∧ ∀ s ∈ l1, a ≤ s.stage ∧ s.stage ≤ b)
    (h2 : l2.Pairwise (fun s t => s.stage ≤ t.stage) ∧ ∀ s ∈ l2, c ≤ s.stage ∧ s.stage ≤ e) :
    (l1 ++ l2).Pairwise (fun s t => s.stage ≤ t.stage)
      ∧ ∀ s ∈ l1 ++ l2, min a c ≤ s.stage ∧ s.stage ≤ max b e := by
  constructor
  · rw [List.pairwise_append]
    exact ⟨h1.1, h2.1, fun s hs t ht =>
      le_trans (h1.2 s hs).2 (le_trans hbc (h2.2 t ht).1)⟩
  · intro s hs
    rcases List.mem_append.mp hs with hs | hs
    · exact ⟨le_trans (min_le_left _ _) (h1.2 s hs).1, le_trans (h1.2 s hs).2 (le_max_left _ _)⟩
    · exact ⟨le_trans (min_le_right _ _) (h2.2 s hs).1, le_trans (h2.2 s hs).2 (le_max_right _ _)⟩

/-- The statements of the document come part after part. -/
theorem dotStmts_sorted (d : InputData) :
    (dotStmts d).Pairwise (fun s t => s.stage ≤ t.stage) := by
  unfold dotStmts
  have s0 : ∀ s ∈ [DotStmt.digraph d.pd.sectionName], s.stage = 0 := by
    intro s hs; rw [List.mem_singleton.mp hs]; rfl
  have s1 : ∀ s ∈ [DotStmt.nodeAttr .point], s.stage = 1 := by
    intro s hs; rw [List.mem_singleton.mp hs]; rfl
  have s2 : ∀ s ∈ [DotStmt.nodeAttr .smallCircle], s.stage = 1 := by
    intro s hs; rw [List.mem_singleton.mp hs]; rfl
  have s3 : ∀ s ∈ [DotStmt.nodeAttr .doubleCircle], s.stage = 2 := by
    intro s hs; rw [List.mem_singleton.mp hs]; rfl
  have s4 : ∀ s ∈ [DotStmt.nodeAttr .circle], s.stage = 3 := by
    intro s hs; rw [List.mem_singleton.mp hs]; rfl
  have s5 : ∀ s ∈ [DotStmt.close], s.stage = 4 := by
    intro s hs; rw [List.mem_singleton.mp hs]; rfl
  have a1 := seg_append (by decide) (seg_const s0) (seg_const s1)
  have a2 := seg_append (by decide) a1 (seg_const (pseudoDecls_stage d))
  have a3 := seg_append (by decide) a2 (seg_const s2)
  have a4 := seg_append (by decide) a3 (seg_const (errDecls_stage d))
  have a5 := seg_append (by decide) a4 (seg_const s3)
  have a6 := seg_append (by decide) a5 (seg_const (finalDecls_stage d))
  have a7 := seg_append (by decide) a6 (seg_const s4)
  have a8 := seg_append (by decide) a7 (seg_const (edgeStmts_stage d))
  have a9 := seg_append (by decide) a8 (seg_const s5)
  exact a9.1

/-- In a document whose statements come part after part, a statement of an
earlier part stands before a statement of a later part. -/
theorem before_of_stage (l : List DotStmt) (hl : l.Pairwise (fun s t => s.stage ≤ t.stage))
    (i j : Nat) (s t : DotStmt) (hi : l[i]? = some s) (hj : l[j]? = some t)
    (hst : s.stage < t.stage) : i < j := by
  by_contra hij
  obtain ⟨hi1, hi2⟩ := List.getElem?_eq_some.mp hi
  obtain ⟨hj1, hj2⟩ := List.getElem?_eq_some.mp hj
  rcases Nat.lt_or_eq_of_le (not_lt.mp hij) with hlt | heq
  · have := List.pairwise_iff_getElem.mp hl j i hj1 hi1 hlt
    rw [hi2, hj2] at this
    omega
  · subst heq
    rw [hi2] at hj2
    subst hj2
    omega

theorem stage_pseudo (s : DotStmt) (h : s.isPseudoNode = true) : s.stage = 1 := by
  cases s <;> first
    | rfl
    | simp [DotStmt.isPseudoNode, DotStmt.isPointPseudo, DotStmt.isErrNode] at h

theorem stage_final (s : DotStmt) (h : s.isFinalNode = true) : s.stage = 2 := by
  cases s <;> first
    | rfl
    | simp [DotStmt.isFinalNode] at h

theorem stage_edge (s : DotStmt) (h : s.isEdge = true) : s.stage = 3 := by
  cases s <;> first
    | rfl
    | simp [DotStmt.isEdge] at h

/-- C21: for every machine, the document written by `writeDot`, whose text
is that of the statements `dotStmts`, starts with `digraph <sectionName>`, the
opening brace and the `rankdir=LR;` line and ends with the line of the closing
brace; in between, every declaration of a pseudo-node (`ENTRY`, `en_<id>`,
`eof_<id>`, `err_<id>`) stands before every declaration of a final state,
which stands before every edge (the edges between states, from `ENTRY`, from
the entry points and to the EOF pseudo-nodes). -/
theorem writeDot_order (d : InputData) :
    writeDot d = concat ((dotStmts d).map DotStmt.render)
      ∧ (∃ body : List DotStmt,
          dotStmts d = DotStmt.digraph d.pd.sectionName :: body ++ [DotStmt.close]
            ∧ writeDot d
              = "digraph " ++ d.pd.sectionName ++ " \x7b\n" ++ "\trankdir=LR;\n"
                ++ concat (body.map DotStmt.render) ++ "\x7d\n")
      ∧ ∀ (i j : Nat) (s t : DotStmt),
          (dotStmts d)[i]? = some s → (dotStmts d)[j]? = some t →
            (s.isPseudoNode = true → t.isFinalNode = true → i < j)
              ∧ (s.isFinalNode = true → t.isEdge = true → i < j)
              ∧ (s.isPseudoNode = true → t.isEdge = true → i < j) := by
  refine ⟨writeDot_stmts d, ?_, ?_⟩
  · have heq : dotStmts d = DotStmt.digraph d.pd.sectionName
        :: ([DotStmt.nodeAttr .point] ++ pseudoDecls d ++ [DotStmt.nodeAttr .smallCircle]
          ++ errDecls d ++ [DotStmt.nodeAttr .doubleCircle] ++ finalDecls d
          ++ [DotStmt.nodeAttr .circle] ++ edgeStmts d) ++ [DotStmt.close] := by
      unfold dotStmts
      simp only [List.append_eq, List.append_assoc, List.cons_append, List.nil_append,
        List.singleton_append]
    refine ⟨_, heq, ?_⟩
    rw [writeDot_stmts, heq, List.map_append, List.map_cons, concat_append, concat]
    simp only [List.map_cons, List.map_nil, concat, DotStmt.render, String.append_assoc,
      String.append_empty]
  · intro i j s t hi hj
    have hb := before_of_stage (dotStmts d) (dotStmts_sorted d) i j s t hi hj
    refine ⟨fun hs ht => hb ?_, fun hs ht => hb ?_, fun hs ht => hb ?_⟩
    · rw [stage_pseudo s hs, stage_final t ht]; decide
    · rw [stage_final s hs, stage_edge t ht]; decide
    · rw [stage_pseudo s hs, stage_edge t ht]; decide

/-! ## C28: the error pseudo-nodes and their edges -/

/-- The flag `needsErr` of a state is raised exactly when one of its
condition transitions has no target. -/
theorem needsErr_iff (st : StateAp) :
    needsErr st = true ↔ ∃ tel ∈ st.outList, ∃ ctel ∈ tel.ctList, ctel.toState = none := by
  unfold needsErr
  simp [List.any_eq_true, Option.isNone_iff_eq_none]

/-- The declarations `err_<n>` of the document are those of the states that
need one. -/
theorem errNode_mem (d : InputData) (n : Int) :
    DotStmt.errNode n ∈ dotStmts d
      ↔ ∃ st ∈ d.pd.sectionGraph.stateList, needsErr st = true ∧ st.stateNum = n := by
  unfold dotStmts pseudoDecls errDecls finalDecls edgeStmts
  cases d.pd.sectionGraph.startState <;>
    simp [transStmts, and_assoc]

/-- The edges to `err_<n>` of the document are those written for the
condition transitions without target of the states numbered `n`. -/
theorem errEdge_mem (d : InputData) (n : Int) :
    (∃ label, DotStmt.trans n none label ∈ dotStmts d)
      ↔ ∃ st ∈ d.pd.sectionGraph.stateList, st.stateNum = n
          ∧ ∃ tel ∈ st.outList, ∃ ctel ∈ tel.ctList, ctel.toState = none := by
  unfold dotStmts pseudoDecls errDecls finalDecls edgeStmts
  constructor
  · rintro ⟨label, h⟩
    cases hstart : d.pd.sectionGraph.startState <;> rw [hstart] at h <;>
      simp [transStmts] at h <;>
      obtain ⟨st, hst, tel, htel, ctel, hctel, hnum, hto, _⟩ := h <;>
      exact ⟨st, hst, hnum, tel, htel, ctel, hctel, hto⟩
  · rintro ⟨st, hst, hnum, tel, htel, ctel, hctel, hto⟩
    refine ⟨ONCHAR d tel.lowKey tel.highKey tel.condSpace ctel.lowKey
      ++ TRANS_ACTION st ctel, ?_⟩
    cases d.pd.sectionGraph.startState <;>
      simp [transStmts] <;>
      exact ⟨st, hst, tel, htel, ctel, hctel, hnum, hto, rfl⟩

/-- C28: in the output of `writeDot`, whose text is that of the statements
`dotStmts`, the node `err_N` is declared if and only if some edge of the output
targets `err_N`: no edge refers to an undeclared `err_` node and no `err_`
node is declared without an incoming edge; and, the state numbers being
distinct, `err_N` is declared if and only if the state `N` has at least one
condition transition whose destination state is absent. -/
theorem writeDot_err (d : InputData)
    (hnd : (d.pd.sectionGraph.stateList.map (fun st => st.stateNum)).Nodup) :
    writeDot d = concat ((dotStmts d).map DotStmt.render)
      ∧ (∀ n : Int, DotStmt.errNode n ∈ dotStmts d
          ↔ ∃ label, DotStmt.trans n none label ∈ dotStmts d)
      ∧ ∀ st ∈ d.pd.sectionGraph.stateList,
          (DotStmt.errNode st.stateNum ∈ dotStmts d
            ↔ ∃ tel ∈ st.outList, ∃ ctel ∈ tel.ctList, ctel.toState = none) := by
  refine ⟨writeDot_stmts d, ?_, ?_⟩
  · intro n
    rw [errNode_mem, errEdge_mem]
    constructor
    · rintro ⟨st, hst, hneeds, hnum⟩
      exact ⟨st, hst, hnum, (needsErr_iff st).mp hneeds⟩
    · rintro ⟨st, hst, hnum, h⟩
      exact ⟨st, hst, (needsErr_iff st).mpr h, hnum⟩
  · intro st hst
    rw [errNode_mem, ← needsErr_iff]
    constructor
    · rintro ⟨st2, h2, hneeds, hnum⟩
      rw [← stateNum_inj _ hnd st2 st h2 hst hnum]
      exact hneeds
    · intro hneeds
      exact ⟨st, hst, hneeds, rfl⟩

/-- C28 at a machine whose state 0 has a transition without target and whose
state 1 has none: `err_0` is declared and `err_1` is not. -/
theorem writeDot_err_witness :
    (exDot.pd.sectionGraph.stateList.map (fun st => st.stateNum)).Nodup
      ∧ (writeDot exDot = concat ((dotStmts exDot).map DotStmt.render)
        ∧ (∀ n : Int, DotStmt.errNode n ∈ dotStmts exDot
            ↔ ∃ label, DotStmt.trans n none label ∈ dotStmts exDot)
        ∧ ∀ st ∈ exDot.pd.sectionGraph.stateList,
            (DotStmt.errNode st.stateNum ∈ dotStmts exDot
              ↔ ∃ tel ∈ st.outList, ∃ ctel ∈ tel.ctList, ctel.toState = none)) :=
  ⟨by decide, writeDot_err exDot (by decide)⟩

/-! ## C29: the actions of a transition -/

theorem joinWith_append (sep : String) (l1 l2 : List String) (h1 : l1 ≠ []) (h2 : l2 ≠ []) :
    joinWith sep (l1 ++ l2) = joinWith sep l1 ++ sep ++ joinWith sep l2 := by
  induction l1 with
  | nil => exact absurd rfl h1
  | cons s rest ih =>
    cases rest with
    | nil =>
      cases l2 with
      | nil => exact absurd rfl h2
      | cons t l2 => simp [joinWith]
    | cons t rest =>
      have := ih (by simp)
      simp only [List.cons_append] at this
      simp only [List.cons_append, List.append_eq, joinWith, this, String.append_assoc]

theorem TRANS_ACTION_items_spec (n a : Nat) (table : List Action) (hne : table ≠ []) :
    TRANS_ACTION_items n a table
      = joinWith ", " (table.map (fun x => x.actionName))
        ++ (if a + 1 < n then ", " else "") := by
  induction table with
  | nil => exact absurd rfl hne
  | cons action rest ih =>
    cases rest with
    | nil =>
      by_cases hlt : a + 1 < n <;> simp [TRANS_ACTION_items, joinWith, hlt]
    | cons y ys =>
      have := ih (by simp)
      rw [TRANS_ACTION_items, this]
      simp [joinWith, String.append_assoc]

theorem TRANS_ACTION_tables_spec (n : Nat) (ts : List (List Action)) (a : Nat)
    (hne : ∀ t ∈ ts, t ≠ []) (hlen : a + ts.length = n) :
    TRANS_ACTION_tables n a ts = joinWith ", " (ts.flatten.map (fun x => x.actionName)) := by
  induction ts generalizing a with
  | nil => rfl
  | cons t rest ih =>
    have ht : t ≠ [] := hne t (List.mem_cons_self _ _)
    have hrest : ∀ x ∈ rest, x ≠ [] := fun x hx => hne x (List.mem_cons_of_mem _ hx)
    rw [TRANS_ACTION_tables, TRANS_ACTION_items_spec n a t ht,
      ih (a + 1) hrest (by simp only [List.length_cons] at hlen; omega)]
    cases rest with
    | nil =>
      have hn : ¬ (a + 1 < n) := by simp only [List.length_cons, List.length_nil] at hlen; omega
      simp [hn, joinWith]
    | cons r rs =>
      have hn : a + 1 < n := by simp only [List.length_cons] at hlen; omega
      have hr : r ≠ [] := hrest r (List.mem_cons_self _ _)
      have hflat : (r :: rs).flatten.map (fun x => x.actionName) ≠ [] := by
        cases r with
        | nil => exact absurd rfl hr
        | cons x xs => simp
      have htm : t.map (fun x => x.actionName) ≠ [] := by
        cases t with
        | nil => exact absurd rfl ht
        | cons x xs => simp
      rw [if_pos hn]
      show _ = joinWith ", " (List.map (fun x => x.actionName) (t ++ (r :: rs).flatten))
      rw [List.map_append, joinWith_append _ _ _ htm hflat]

theorem tableEntry_ne (table : List Action) : ∀ t ∈ tableEntry table, t ≠ [] := by
  intro t ht
  unfold tableEntry at ht
  cases table with
  | nil => simp at ht
  | cons x xs =>
    simp at ht
    subst ht
    simp

theorem tableEntry_flatten (table : List Action) : (tableEntry table).flatten = table := by
  cases table <;> simp [tableEntry]

/-- The text of `TRANS_ACTION` for any array `actionTables` of tables that
are not empty. -/
theorem TRANS_ACTION_text (ts : List (List Action)) (hne : ∀ t ∈ ts, t ≠ []) :
    (if ts.length > 0 then " / " else "") ++ TRANS_ACTION_tables ts.length 0 ts
      = if ts.flatten.map (fun x => x.actionName) = [] then ""
        else " / " ++ joinWith ", " (ts.flatten.map (fun x => x.actionName)) := by
  rw [TRANS_ACTION_tables_spec ts.length ts 0 hne (by simp)]
  cases ts with
  | nil => rfl
  | cons t rest =>
    have ht : t ≠ [] := hne t (List.mem_cons_self _ _)
    have : (t :: rest).flatten.map (fun x => x.actionName) ≠ [] := by simpa using fun h => absurd h ht
    rw [if_neg this]
    simp

/-- C29: for every state and condition transition, `TRANS_ACTION` writes
nothing when the from-state action table of the source state, the action table
of the transition and the to-state action table of the destination state are
all empty (an absent destination has no table); otherwise it writes ` / `
followed by the action names of those tables, in the order from-state,
transition, to-state, joined by `, ` with no separator before the first or
after the last.  With the tables `F`, `A B` and `T` the text is
` / F, A, B, T`. -/
theorem TRANS_ACTION_spec (fromState : StateAp) (trans : CondAp) :
    TRANS_ACTION fromState trans = transActionSpec fromState trans
      ∧ (transActionNames fromState trans = [] → TRANS_ACTION fromState trans = "")
      ∧ (transActionNames fromState trans ≠ [] →
          TRANS_ACTION fromState trans
            = " / " ++ joinWith ", " (transActionNames fromState trans))
      ∧ TRANS_ACTION exFrom exCond = " / F, A, B, T"
      ∧ TRANS_ACTION exFrom { exCond with toState := none } = " / F, A, B" := by
  have main : TRANS_ACTION fromState trans = transActionSpec fromState trans := by
    have hentries : ∀ extra : List Action,
        (if (tableEntry fromState.fromStateActionTable ++ tableEntry trans.actionTable
              ++ tableEntry extra).length > 0 then " / " else "")
          ++ TRANS_ACTION_tables
              (tableEntry fromState.fromStateActionTable ++ tableEntry trans.actionTable
                ++ tableEntry extra).length 0
              (tableEntry fromState.fromStateActionTable ++ tableEntry trans.actionTable
                ++ tableEntry extra)
          = if (fromState.fromStateActionTable ++ trans.actionTable ++ extra).map
                (fun x => x.actionName) = [] then ""
            else " / " ++ joinWith ", "
              ((fromState.fromStateActionTable ++ trans.actionTable ++ extra).map
                (fun x => x.actionName)) := by
      intro extra
      rw [TRANS_ACTION_text]
      · simp only [List.flatten_append, tableEntry_flatten]
      · intro t ht
        simp only [List.mem_append] at ht
        rcases ht with (ht | ht) | ht <;> exact tableEntry_ne _ t ht
    unfold TRANS_ACTION transActionSpec transActionNames
    cases trans.toState with
    | none => exact hentries []
    | some targ => exact hentries targ.toStateActionTable
  refine ⟨main, ?_, ?_, by decide, by decide⟩
  · intro h
    rw [main, transActionSpec, if_pos h]
  · intro h
    rw [main, transActionSpec, if_neg h]

end Dot

/-! ## C30: the expander and list concatenation -/

theorem INLINE_LIST_cons (h : Host) (redFsm : RedFsmAp) (targState : Int) (inFinish : Bool)
    (item : InlineItem) (rest : List InlineItem) :
    INLINE_LIST h redFsm targState inFinish (item :: rest)
      = INLINE_ITEM h redFsm targState inFinish item
        ++ INLINE_LIST h redFsm targState inFinish rest := by
  rw [INLINE_LIST]

/-- The writes of the expander on a list of `Text` items. -/
theorem INLINE_LIST_texts (h : Host) (redFsm : RedFsmAp) (targState : Int) (inFinish : Bool)
    (l : List InlineItem) (hl : ∀ item ∈ l, item.type = .Text) :
    INLINE_LIST h redFsm targState inFinish l = l.map (fun item => (Dest.ret, item.data)) := by
  induction l with
  | nil => rw [INLINE_LIST]; rfl
  | cons item rest ih =>
    rw [INLINE_LIST_cons, ih (fun x hx => hl x (List.mem_cons_of_mem _ hx))]
    have ht := hl item (List.mem_cons_self _ _)
    cases item with
    | mk type data targ lmId offset handlesError children =>
      simp only [InlineItem.type] at ht
      subst ht
      simp [INLINE_ITEM, toRet, InlineItem.data]

/-- C30: the inline expander is a homomorphism over list concatenation: for
all inline lists `l1` and `l2` and fixed `targState` and `inFinish`, what
`INLINE_LIST` writes on `l1 ++ l2` is what it writes on `l1` followed by what
it writes on `l2`; the empty list writes nothing, and a list of `Text` items
only writes exactly the concatenation of their literal texts, all of it to
`ret`. -/
theorem INLINE_LIST_append (h : Host) (redFsm : RedFsmAp) (targState : Int) (inFinish : Bool)
    (l1 l2 : List InlineItem) :
    INLINE_LIST h redFsm targState inFinish (l1 ++ l2)
        = INLINE_LIST h redFsm targState inFinish l1
          ++ INLINE_LIST h redFsm targState inFinish l2
      ∧ allText (INLINE_LIST h redFsm targState inFinish (l1 ++ l2))
        = allText (INLINE_LIST h redFsm targState inFinish l1)
          ++ allText (INLINE_LIST h redFsm targState inFinish l2)
      ∧ retText (INLINE_LIST h redFsm targState inFinish (l1 ++ l2))
        = retText (INLINE_LIST h redFsm targState inFinish l1)
          ++ retText (INLINE_LIST h redFsm targState inFinish l2)
      ∧ outText (INLINE_LIST h redFsm targState inFinish (l1 ++ l2))
        = outText (INLINE_LIST h redFsm targState inFinish l1)
          ++ outText (INLINE_LIST h redFsm targState inFinish l2)
      ∧ INLINE_LIST h redFsm targState inFinish [] = []
      ∧ (∀ l : List InlineItem, (∀ item ∈ l, item.type = .Text) →
          retText (INLINE_LIST h redFsm targState inFinish l)
              = concat (l.map (fun item => item.data))
            ∧ allText (INLINE_LIST h redFsm targState inFinish l)
              = concat (l.map (fun item => item.data))
            ∧ outText (INLINE_LIST h redFsm targState inFinish l) = "")
      ∧ allText (INLINE_LIST exHost exLmFsm 5 false
            [InlineItem.text "a = ", InlineItem.text "b", InlineItem.text ";"]) = "a = b;" := by
  have happ : INLINE_LIST h redFsm targState inFinish (l1 ++ l2)
      = INLINE_LIST h redFsm targState inFinish l1
        ++ INLINE_LIST h redFsm targState inFinish l2 := by
    induction l1 with
    | nil => rw [List.nil_append, INLINE_LIST, List.nil_append]
    | cons item rest ih =>
      rw [List.cons_append, INLINE_LIST_cons, INLINE_LIST_cons, ih, List.append_assoc]
  refine ⟨happ, ?_, ?_, ?_, ?_, ?_, by decide⟩
  · rw [happ, allText_append]
  · rw [happ, retText_append]
  · rw [happ, outText_append]
  · rw [INLINE_LIST]
  · intro l hl
    rw [INLINE_LIST_texts h redFsm targState inFinish l hl]
    refine ⟨?_, ?_, ?_⟩
    · simp [retText, List.filter_map, Function.comp_def]
    · simp [allText, Function.comp_def]
    · simp [outText, List.filter_map, Function.comp_def, concat]

/-! ## Proofs: the binary searches -/

/-- The first element of a list that satisfies a predicate, by position. -/
theorem find?_of_first {α : Type} (p : α → Bool) (l : List α) (i : Nat) (hi : i < l.length)
    (hp : p l[i] = true) (hfirst : ∀ j (hj : j < l.length), j < i → p l[j] = false) :
    l.find? p = some l[i] := by
  induction l generalizing i with
  | nil => exact absurd hi (by simp)
  | cons x rest ih =>
    cases i with
    | zero =>
      simp only [List.getElem_cons_zero] at hp
      simp [List.find?, hp]
    | succ k =>
      have hx : p x = false := hfirst 0 (by simp) (by omega)
      have hk : k < rest.length := by simpa using hi
      simp only [List.find?, hx, List.getElem_cons_succ]
      exact ih k hk (by simpa using hp)
        (fun j hj hjk => by simpa using hfirst (j + 1) (by simpa using hj) (by omega))

theorem binSearch_some (keys : List Int) (c : Int) :
    ∀ (fuel lo hi i : Nat), binSearch keys c fuel lo hi = some i →
      lo ≤ i ∧ i < hi ∧ keys.getD i 0 = c := by
  intro fuel
  induction fuel with
  | zero => intro lo hi i h; simp [binSearch] at h
  | succ fuel ih =>
    intro lo hi i h
    rw [binSearch] at h
    by_cases hlt : lo < hi
    · rw [if_pos hlt] at h
      by_cases h1 : c < keys.getD (lo + (hi - lo) / 2) 0
      · rw [if_pos h1] at h
        have := ih _ _ _ h
        omega
      · rw [if_neg h1] at h
        by_cases h2 : c > keys.getD (lo + (hi - lo) / 2) 0
        · rw [if_pos h2] at h
          have := ih _ _ _ h
          omega
        · rw [if_neg h2] at h
          have hi2 : lo + (hi - lo) / 2 = i := Option.some.inj h
          subst hi2
          refine ⟨by omega, by omega, ?_⟩
          omega
    · rw [if_neg hlt] at h
      exact absurd h (by simp)

/-- In an ascending list the keys ascend with the positions. -/
theorem sorted_getD_lt (keys : List Int) (hs : keys.Pairwise (fun a b => a < b))
    (i j : Nat) (hij : i < j) (hj : j < keys.length) : keys.getD i 0 < keys.getD j 0 := by
  have hi : i < keys.length := by omega
  rw [List.getD_eq_getElem _ _ hi, List.getD_eq_getElem _ _ hj]
  exact List.pairwise_iff_getElem.mp hs i j hi hj hij

theorem binSearch_none (keys : List Int) (c : Int) (hs : keys.Pairwise (fun a b => a < b)) :
    ∀ (fuel lo hi : Nat), hi ≤ keys.length → hi - lo < fuel →
      binSearch keys c fuel lo hi = none →
      ∀ i, lo ≤ i → i < hi → keys.getD i 0 ≠ c := by
  intro fuel
  induction fuel with
  | zero => intro lo hi _ hf; omega
  | succ fuel ih =>
    intro lo hi hhi hf h i hli hih
    rw [binSearch, if_pos (by omega : lo < hi)] at h
    by_cases h1 : c < keys.getD (lo + (hi - lo) / 2) 0
    · rw [if_pos h1] at h
      by_cases him : i < lo + (hi - lo) / 2
      · exact ih lo _ (by omega) (by omega) h i hli him
      · rcases Nat.eq_or_lt_of_le (not_lt.mp him) with heq | hgt
        · rw [← heq]; omega
        · have := sorted_getD_lt keys hs _ i hgt (by omega)
          omega
    · rw [if_neg h1] at h
      by_cases h2 : c > keys.getD (lo + (hi - lo) / 2) 0
      · rw [if_pos h2] at h
        by_cases him : lo + (hi - lo) / 2 < i
        · exact ih _ hi hhi (by omega) h i (by omega) hih
        · rcases Nat.eq_or_lt_of_le (not_lt.mp him) with heq | hgt
          · rw [heq]; omega
          · have := sorted_getD_lt keys hs i _ hgt (by omega)
            omega
      · rw [if_neg h2] at h
        exact absurd h (by simp)

theorem rangeSearch_some (ranges : List (Int × Int)) (c : Int) :
    ∀ (fuel lo hi i : Nat), rangeSearch ranges c fuel lo hi = some i →
      lo ≤ i ∧ i < hi ∧ (ranges.getD i (0, 0)).1 ≤ c ∧ c ≤ (ranges.getD i (0, 0)).2 := by
  intro fuel
  induction fuel with
  | zero => intro lo hi i h; simp [rangeSearch] at h
  | succ fuel ih =>
    intro lo hi i h
    rw [rangeSearch] at h
    by_cases hlt : lo < hi
    · rw [if_pos hlt] at h
      by_cases h1 : c < (ranges.getD (lo + (hi - lo) / 2) (0, 0)).1
      · rw [if_pos h1] at h
        have := ih _ _ _ h
        omega
      · rw [if_neg h1] at h
        by_cases h2 : c > (ranges.getD (lo + (hi - lo) / 2) (0, 0)).2
        · rw [if_pos h2] at h
          have := ih _ _ _ h
          omega
        · rw [if_neg h2] at h
          have hi2 : lo + (hi - lo) / 2 = i := Option.some.inj h
          subst hi2
          refine ⟨by omega, by omega, ?_, ?_⟩ <;> omega
    · rw [if_neg hlt] at h
      exact absurd h (by simp)

/-- In an ascending list of ranges without overlap, an earlier range ends
before a later one starts. -/
theorem ranges_getD_lt (ranges : List (Int × Int))
    (hs : ranges.Pairwise (fun a b => a.2 < b.1))
    (i j : Nat) (hij : i < j) (hj : j < ranges.length) :
    (ranges.getD i (0, 0)).2 < (ranges.getD j (0, 0)).1 := by
  have hi : i < ranges.length := by omega
  rw [List.getD_eq_getElem _ _ hi, List.getD_eq_getElem _ _ hj]
  exact List.pairwise_iff_getElem.mp hs i j hi hj hij

theorem rangeSearch_none (ranges : List (Int × Int)) (c : Int)
    (hs : ranges.Pairwise (fun a b => a.2 < b.1)) (hle : ∀ r ∈ ranges, r.1 ≤ r.2) :
    ∀ (fuel lo hi : Nat), hi ≤ ranges.length → hi - lo < fuel →
      rangeSearch ranges c fuel lo hi = none →
      ∀ i, lo ≤ i → i < hi →
        ¬ ((ranges.getD i (0, 0)).1 ≤ c ∧ c ≤ (ranges.getD i (0, 0)).2) := by
  have hle2 : ∀ i, i < ranges.length → (ranges.getD i (0, 0)).1 ≤ (ranges.getD i (0, 0)).2 := by
    intro i hi
    rw [List.getD_eq_getElem _ _ hi]
    exact hle _ (List.getElem_mem _)
  intro fuel
  induction fuel with
  | zero => intro lo hi _ hf; omega
  | succ fuel ih =>
    intro lo hi hhi hf h i hli hih
    rw [rangeSearch, if_pos (by omega : lo < hi)] at h
    by_cases h1 : c < (ranges.getD (lo + (hi - lo) / 2) (0, 0)).1
    · rw [if_pos h1] at h
      by_cases him : i < lo + (hi - lo) / 2
      · exact ih lo _ (by omega) (by omega) h i hli him
      · rcases Nat.eq_or_lt_of_le (not_lt.mp him) with heq | hgt
        · rw [← heq]; omega
        · have := ranges_getD_lt ranges hs _ i hgt (by omega)
          have := hle2 (lo + (hi - lo) / 2) (by omega)
          omega
    · rw [if_neg h1] at h
      by_cases h2 : c > (ranges.getD (lo + (hi - lo) / 2) (0, 0)).2
      · rw [if_pos h2] at h
        by_cases him : lo + (hi - lo) / 2 < i
        · exact ih _ hi hhi (by omega) h i (by omega) hih
        · rcases Nat.eq_or_lt_of_le (not_lt.mp him) with heq | hgt
          · rw [heq]; omega
          · have := ranges_getD_lt ranges hs i _ hgt (by omega)
            have := hle2 i (by omega)
            omega
      · rw [if_neg h2] at h
        exact absurd h (by simp)

/-! ## Proofs: the dispatch of a state -/

theorem getD_slots (fsm : RedFsmAp) (st : RedStateAp) :
    (∀ i (hi : i < st.outSingle.length),
        (makeTable fsm st).targs.getD i (errorId fsm)
          = slotTarg fsm (some st.outSingle[i].value))
      ∧ (∀ j (hj : j < st.outRange.length),
        (makeTable fsm st).targs.getD (st.outSingle.length + j) (errorId fsm)
          = slotTarg fsm (some st.outRange[j].value))
      ∧ (makeTable fsm st).targs.getD (st.outSingle.length + st.outRange.length) (errorId fsm)
          = slotTarg fsm st.defTrans := by
  unfold makeTable
  refine ⟨?_, ?_, ?_⟩
  · intro i hi
    simp only
    rw [List.append_assoc, List.getD_append _ _ _ _ (by simpa using hi),
      List.getD_eq_getElem _ _ (by simpa using hi)]
    simp
  · intro j hj
    simp only
    rw [List.append_assoc, List.getD_append_right _ _ _ _ (by simp),
      List.getD_append _ _ _ _ (by simpa using hj),
      List.getD_eq_getElem _ _ (by simpa using hj)]
    simp
  · simp only
    rw [List.getD_append_right _ _ _ _ (by simp)]
    simp

theorem dispatch_makeTable (fsm : RedFsmAp) (st : RedStateAp) (c : Int)
    (h1 : (st.outSingle.map (fun el => el.lowKey)).Pairwise (fun a b => a < b))
    (h2 : st.outRange.Pairwise (fun a b => a.highKey < b.lowKey))
    (h3 : ∀ el ∈ st.outRange, el.lowKey ≤ el.highKey) :
    dispatch (errorId fsm) (makeTable fsm st) c = slotTarg fsm (st.transOn c) := by
  obtain ⟨hs1, hs2, hs3⟩ := getD_slots fsm st
  have hk : (makeTable fsm st).singleKeys = st.outSingle.map (fun el => el.lowKey) := rfl
  have hr : (makeTable fsm st).rangeKeys
      = st.outRange.map (fun el => (el.lowKey, el.highKey)) := rfl
  have hkey : ∀ i (hi : i < st.outSingle.length),
      (st.outSingle.map (fun el => el.lowKey)).getD i 0 = st.outSingle[i].lowKey := by
    intro i hi
    rw [List.getD_eq_getElem _ _ (by simpa using hi)]
    simp
  have hrange : ∀ i (hi : i < st.outRange.length),
      (st.outRange.map (fun el => (el.lowKey, el.highKey))).getD i (0, 0)
        = (st.outRange[i].lowKey, st.outRange[i].highKey) := by
    intro i hi
    rw [List.getD_eq_getElem _ _ (by simpa using hi)]
    simp
  have hrs : (st.outRange.map (fun el => (el.lowKey, el.highKey))).Pairwise
      (fun a b => a.2 < b.1) := by
    rw [List.pairwise_map]
    exact h2
  have hrle : ∀ r ∈ st.outRange.map (fun el => (el.lowKey, el.highKey)), r.1 ≤ r.2 := by
    intro r hr
    obtain ⟨el, hel, rfl⟩ := List.mem_map.mp hr
    exact h3 el hel
  unfold dispatch RedStateAp.transOn
  rw [hk, hr, List.length_map, List.length_map]
  cases hb : binSearch (st.outSingle.map (fun el => el.lowKey)) c
      (st.outSingle.length + 1) 0 st.outSingle.length with
  | some i =>
    obtain ⟨_, hi, hki⟩ := binSearch_some _ _ _ _ _ _ hb
    rw [hkey i hi] at hki
    have hfind : st.outSingle.find? (fun el => decide (el.lowKey = c))
        = some st.outSingle[i] := by
      apply find?_of_first _ _ i hi (by simpa using hki)
      intro j hj hji
      have := sorted_getD_lt _ h1 j i hji (by simpa using hi)
      rw [hkey j hj, hkey i hi] at this
      simp only [decide_eq_false_iff_not]
      omega
    rw [hfind]
    exact hs1 i hi
  | none =>
    have hnone : st.outSingle.find? (fun el => decide (el.lowKey = c)) = none := by
      rw [List.find?_eq_none]
      intro el hel
      obtain ⟨i, hi, rfl⟩ := List.mem_iff_getElem.mp hel
      have := binSearch_none _ c h1 _ 0 st.outSingle.length (by simp) (by omega) hb i
        (by omega) hi
      rw [hkey i hi] at this
      simpa using this
    rw [hnone]
    simp only
    cases hb2 : rangeSearch (st.outRange.map (fun el => (el.lowKey, el.highKey))) c
        (st.outRange.length + 1) 0 st.outRange.length with
    | some j =>
      obtain ⟨_, hj, hlo, hhi⟩ := rangeSearch_some _ _ _ _ _ _ hb2
      rw [hrange j hj] at hlo hhi
      have hfind : st.outRange.find? (fun el => decide (el.lowKey ≤ c ∧ c ≤ el.highKey))
          = some st.outRange[j] := by
        apply find?_of_first _ _ j hj (by simpa using ⟨hlo, hhi⟩)
        intro k hk hkj
        have := ranges_getD_lt _ hrs k j hkj (by simpa using hj)
        rw [hrange k hk, hrange j hj] at this
        simp only [decide_eq_false_iff_not, not_and, not_le]
        intro _
        simp only at this hlo
        omega
      rw [hfind]
      exact hs2 j hj
    | none =>
      have hnone2 : st.outRange.find? (fun el => decide (el.lowKey ≤ c ∧ c ≤ el.highKey))
          = none := by
        rw [List.find?_eq_none]
        intro el hel
        obtain ⟨j, hj, rfl⟩ := List.mem_iff_getElem.mp hel
        have := rangeSearch_none _ c hrs hrle _ 0 st.outRange.length (by simp) (by omega) hb2 j
          (by omega) hj
        rw [hrange j hj] at this
        simpa using this
      rw [hnone2]
      exact hs3

/-! ## Proofs: the loop of the recognizer and the run of the interpreter -/

theorem dense_id (l : List RedStateAp)
    (h : l.map (fun st => st.id) = (List.range l.length).map (fun (i : Nat) => (i : Int)))
    (i : Nat) (hi : i < l.length) : l[i].id = (i : Int) := by
  have h1 : (l.map (fun st => st.id))[i]? = some l[i].id := by
    rw [List.getElem?_map, List.getElem?_eq_getElem hi]
    rfl
  rw [h, List.getElem?_map, List.getElem?_range hi] at h1
  exact (Option.some.inj h1).symm

/-- With dense ids in list order, the state with id `cs` is the state at
position `cs`, and its tables are the tables at that position. -/
theorem find_state (fsm : RedFsmAp)
    (hd : fsm.stateList.map (fun st => st.id)
      = (List.range fsm.stateList.length).map (fun (i : Nat) => (i : Int)))
    (cs : Int) (h0 : 0 ≤ cs) (h1 : cs < fsm.stateList.length) :
    ∃ st, fsm.stateList.find? (fun st => decide (st.id = cs)) = some st
      ∧ st ∈ fsm.stateList ∧ st.id = cs
      ∧ (fsm.stateList.map (makeTable fsm)).getD cs.toNat ⟨[], [], []⟩ = makeTable fsm st := by
  have hi : cs.toNat < fsm.stateList.length := by omega
  have hcs : ((cs.toNat : Nat) : Int) = cs := Int.toNat_of_nonneg h0
  refine ⟨fsm.stateList[cs.toNat], ?_, List.getElem_mem _, ?_, ?_⟩
  · apply find?_of_first _ _ _ hi
    · rw [dense_id _ hd _ hi, hcs]
      simp
    · intro j hj hji
      rw [dense_id _ hd _ hj]
      simp only [decide_eq_false_iff_not]
      omega
  · rw [dense_id _ hd _ hi, hcs]
  · rw [List.getD_eq_getElem _ _ (by simpa using hi)]
    simp

theorem error_not_final (fsm : RedFsmAp) (hwf : fsm.WellFormed) :
    decide (errorId fsm ≥ firstFinalId fsm) = false := by
  obtain ⟨_, hn, _, hfirst, _, herr⟩ := hwf
  simp only [decide_eq_false_iff_not, ge_iff_le, not_le]
  unfold errorId firstFinalId
  cases he : fsm.errState with
  | none =>
    cases hf : fsm.firstFinState with
    | none => simp only; omega
    | some first => have := hfirst first hf; simp only; omega
  | some err =>
    obtain ⟨_, hlt, hef, _⟩ := herr err he
    cases hf : fsm.firstFinState with
    | none => simp only; omega
    | some first => exact hef first hf

theorem final_test (fsm : RedFsmAp) (cs : Int) (h1 : cs < fsm.nextStateId) :
    decide (cs ≥ firstFinalId fsm) = fsm.isFinal cs := by
  unfold firstFinalId RedFsmAp.isFinal
  cases fsm.firstFinState with
  | none => simp only [decide_eq_false_iff_not]; omega
  | some first => rfl

/-- The run of the interpreter from the error state is not accepted. -/
theorem refRun_error (fsm : RedFsmAp) (hwf : fsm.WellFormed) (err : Int)
    (he : fsm.errState = some err) (rest : List Int) :
    (match refRun fsm err rest with
      | none => false
      | some q => fsm.isFinal q) = false := by
  have hnf := error_not_final fsm hwf
  obtain ⟨hd, hn, _, _, _, herr⟩ := hwf
  obtain ⟨h0, hlt, _, hdead⟩ := herr err he
  cases rest with
  | nil =>
    simp only [refRun]
    rw [← final_test fsm err hlt]
    have : errorId fsm = err := by unfold errorId; rw [he]
    rw [← this]
    exact hnf
  | cons c rest =>
    obtain ⟨st, hfind, hmem, hid, _⟩ := find_state fsm hd err h0 (by omega)
    obtain ⟨hs, hr, hdt⟩ := hdead st hmem hid
    have : refStep fsm err c = none := by
      unfold refStep RedStateAp.transOn
      rw [hfind]
      simp [hs, hr, hdt]
    simp only [refRun, this]

theorem slotTarg_transOn (fsm : RedFsmAp) (hwf : fsm.WellFormed) (st : RedStateAp)
    (hmem : st ∈ fsm.stateList) (c : Int) :
    (st.transOn c).bind (fun t => t.targ) = none ∧ slotTarg fsm (st.transOn c) = errorId fsm
      ∨ ∃ q, (st.transOn c).bind (fun t => t.targ) = some q ∧ slotTarg fsm (st.transOn c) = q
          ∧ 0 ≤ q ∧ q < fsm.nextStateId := by
  obtain ⟨_, _, _, _, hst, _⟩ := hwf
  obtain ⟨_, _, _, htargs⟩ := hst st hmem
  have hall : ∀ t, st.transOn c = some t → t ∈ st.allTrans := by
    intro t ht
    unfold RedStateAp.transOn at ht
    unfold RedStateAp.allTrans
    cases h1 : st.outSingle.find? (fun el => decide (el.lowKey = c)) with
    | some el =>
      rw [h1] at ht
      have := List.mem_of_find?_eq_some h1
      simp only [Option.some.injEq] at ht
      subst ht
      simp only [List.mem_append, List.mem_map]
      exact Or.inl (Or.inl ⟨el, this, rfl⟩)
    | none =>
      rw [h1] at ht
      simp only at ht
      cases h2 : st.outRange.find? (fun el => decide (el.lowKey ≤ c ∧ c ≤ el.highKey)) with
      | some el =>
        rw [h2] at ht
        have := List.mem_of_find?_eq_some h2
        simp only [Option.some.injEq] at ht
        subst ht
        simp only [List.mem_append, List.mem_map]
        exact Or.inl (Or.inr ⟨el, this, rfl⟩)
      | none =>
        rw [h2] at ht
        simp only at ht
        rw [ht]
        simp
  cases ht : st.transOn c with
  | none => exact Or.inl ⟨rfl, rfl⟩
  | some t =>
    cases htq : t.targ with
    | none =>
      left
      simp [slotTarg, htq]
    | some q =>
      right
      have := htargs t (hall t ht) q htq
      exact ⟨q, by simp [htq], by simp [slotTarg, htq], this.1, this.2⟩

theorem execLoop_equiv (fsm : RedFsmAp) (hwf : fsm.WellFormed) :
    ∀ (input : List Int) (cs : Int), 0 ≤ cs → cs < fsm.nextStateId →
      decide (execLoop (errorId fsm) (fsm.stateList.map (makeTable fsm)) cs input
          ≥ firstFinalId fsm)
        = (match refRun fsm cs input with
            | none => false
            | some q => fsm.isFinal q) := by
  have hwf2 := hwf
  obtain ⟨hd, hn, _, _, hst, herr⟩ := hwf
  intro input
  induction input with
  | nil =>
    intro cs _ h1
    simp only [execLoop, refRun]
    exact final_test fsm cs h1
  | cons c rest ih =>
    intro cs h0 h1
    obtain ⟨st, hfind, hmem, hid, htab⟩ := find_state fsm hd cs h0 (by omega)
    obtain ⟨hs1, hs2, hs3, _⟩ := hst st hmem
    have hdisp := dispatch_makeTable fsm st c hs1 hs2 hs3
    have hstep : refStep fsm cs c = (st.transOn c).bind (fun t => t.targ) := by
      unfold refStep
      rw [hfind]
      simp only
      cases st.transOn c <;> rfl
    rw [execLoop, htab, hdisp]
    simp only [refRun, hstep]
    rcases slotTarg_transOn fsm hwf2 st hmem c with ⟨hnone, hslot⟩ | ⟨q, hsome, hslot, hq0, hq1⟩
    · rw [hnone, hslot, if_pos rfl]
      exact error_not_final fsm hwf2
    · rw [hsome, hslot]
      by_cases hqe : q = errorId fsm
      · rw [if_pos hqe, error_not_final fsm hwf2]
        have he : fsm.errState = some q := by
          unfold errorId at hqe
          cases hes : fsm.errState with
          | none => rw [hes] at hqe; simp only at hqe; omega
          | some err => rw [hes] at hqe; simp only at hqe; rw [hqe]
        exact (refRun_error fsm hwf2 q he rest).symm
      · rw [if_neg hqe]
        exact ih q hq0 hq1

/-- The emitted recognizer and the reference interpreter agree on a
well-formed machine. -/
theorem emitted_eq_ref (fsm : RedFsmAp) (hwf : fsm.WellFormed) (input : List Int) :
    emittedAccepts fsm input = refAccepts fsm input := by
  have hwf2 := hwf
  obtain ⟨_, _, ⟨start, hstart, h0, h1⟩, _⟩ := hwf
  unfold emittedAccepts refAccepts
  rw [hstart]
  exact execLoop_equiv fsm hwf2 input start h0 h1

/-! ## C25: the emitted recognizer and the reference interpreter -/

/-- C25: for every reduced machine that satisfies the invariants of the data
model and every input string, the recognizer emitted by the code back end
(the table-driven loop with binary search of the specification, its constants
`error` and `first_final` being the integers `ERROR_STATE` and
`FIRST_FINAL_STATE` write) accepts the string if and only if the reference
interpreter running over the same reduced machine accepts it; for `/a/` the
recognizer accepts `a` and neither the empty string nor `b` nor `aa`. -/
theorem emitted_equiv_reference (fsm : RedFsmAp) (hwf : fsm.WellFormed) (input : List Int) :
    (emittedAccepts fsm input = true ↔ refAccepts fsm input = true)
      ∧ (∀ g : FsmCodeGen, g.redFsm = fsm →
          readInts (ERROR_STATE g).toList = some [errorId fsm]
            ∧ readInts (FIRST_FINAL_STATE g).toList = some [firstFinalId fsm])
      ∧ emittedAccepts exA.redFsm [97] = true
      ∧ emittedAccepts exA.redFsm [] = false
      ∧ emittedAccepts exA.redFsm [98] = false
      ∧ emittedAccepts exA.redFsm [97, 97] = false := by
  refine ⟨by rw [emitted_eq_ref fsm hwf input], ?_, by decide, by decide, by decide, by decide⟩
  intro g hg
  subst hg
  constructor
  · unfold ERROR_STATE errorId
    cases g.redFsm.errState with
    | none => decide
    | some err => exact readInts_intChars err
  · unfold FIRST_FINAL_STATE firstFinalId
    cases g.redFsm.firstFinState with
    | none => exact readInts_intChars _
    | some first => exact readInts_intChars first

/-- C25 at the machine for digits, `a` and lower-case letters, which is
well formed, on the input `0ab`, which both accept. -/
theorem emitted_equiv_reference_witness :
    exRecog.WellFormed
      ∧ ((emittedAccepts exRecog [48, 97, 98] = true ↔ refAccepts exRecog [48, 97, 98] = true)
        ∧ (∀ g : FsmCodeGen, g.redFsm = exRecog →
            readInts (ERROR_STATE g).toList = some [errorId exRecog]
              ∧ readInts (FIRST_FINAL_STATE g).toList = some [firstFinalId exRecog])
        ∧ emittedAccepts exA.redFsm [97] = true
        ∧ emittedAccepts exA.redFsm [] = false
        ∧ emittedAccepts exA.redFsm [98] = false
        ∧ emittedAccepts exA.redFsm [97, 97] = false) :=
  ⟨by decide, emitted_equiv_reference exRecog (by decide) [48, 97, 98]⟩

namespace Dot

/-! ## C31: the name of an entry point -/

theorem joinWith_snoc (sep : String) (l : List String) (s : String) :
    joinWith sep (l ++ [s]) = if l = [] then s else joinWith sep l ++ sep ++ s := by
  by_cases hl : l = []
  · subst hl
    rfl
  · rw [if_neg hl, joinWith_append sep l [s] hl (by simp)]
    rfl

theorem names_mk (name : Option String) (parent : NameInst) :
    (NameInst.mk name (some parent)).names
      = parent.names ++ (match name with
          | some nm => [nm]
          | none => []) := by
  unfold NameInst.names
  rw [NameInst.path, List.filterMap_append]
  cases name <;> rfl

/-- The string and the flag `makeNameInst` leaves. -/
theorem makeNameInst_eq (res : String) :
    ∀ nameInst : NameInst,
      makeNameInst res nameInst
        = (res ++ joinWith "_" nameInst.names, !nameInst.names.isEmpty)
  | .mk name none => by
    cases name with
    | none => simp [makeNameInst, NameInst.names, NameInst.path, joinWith]
    | some nm => simp [makeNameInst, NameInst.names, NameInst.path, joinWith]
  | .mk name (some parent) => by
    have ih := makeNameInst_eq res parent
    rw [names_mk]
    cases name with
    | none =>
      rw [makeNameInst, ih]
      simp
    | some nm =>
      rw [makeNameInst, ih]
      simp only [joinWith_snoc]
      by_cases hp : parent.names = []
      · simp [hp, joinWith]
      · simp [hp, String.append_assoc]

theorem names_ne_nil_iff (nameInst : NameInst) :
    nameInst.names ≠ [] ↔ ∃ name ∈ nameInst.path, name ≠ none := by
  unfold NameInst.names
  constructor
  · intro h
    obtain ⟨s, hs⟩ := List.exists_mem_of_ne_nil _ h
    obtain ⟨name, hname, hsome⟩ := List.mem_filterMap.mp hs
    exact ⟨name, hname, by rw [hsome]; simp⟩
  · rintro ⟨name, hname, hne⟩ h
    cases name with
    | none => exact hne rfl
    | some nm =>
      have : nm ∈ nameInst.path.filterMap (fun name => name) :=
        List.mem_filterMap.mpr ⟨some nm, hname, rfl⟩
      rw [h] at this
      simp at this

/-- C31: for every chain of name instances, `makeNameInst` appends to `res`
the names that are not null on the path from the root ancestor down to the
given instance, in that order, joined by single `_` characters, with no `_`
before the first or after the last of them; it returns true if and only if at
least one instance on the path has a name, and when it returns false the
string is unchanged.  In `writeDot`, where `res` starts empty, the label is
the joined names: `main_a_c` for the chain `main`, `a`, a nameless instance
and `c`. -/
theorem makeNameInst_spec (res : String) (nameInst : NameInst) :
    (makeNameInst res nameInst).1 = res ++ joinWith "_" nameInst.names
      ∧ ((makeNameInst res nameInst).2 = true ↔ ∃ name ∈ nameInst.path, name ≠ none)
      ∧ ((makeNameInst res nameInst).2 = false → (makeNameInst res nameInst).1 = res)
      ∧ (makeNameInst "" nameInst).1 = joinWith "_" nameInst.names
      ∧ makeNameInst "en_" exNameInst = ("en_main_a_c", true)
      ∧ makeNameInst "x" exNoName = ("x", false) := by
  have h := makeNameInst_eq res nameInst
  have hflag : (makeNameInst res nameInst).2 = true ↔ nameInst.names ≠ [] := by
    rw [h]
    cases nameInst.names <;> simp
  refine ⟨by rw [h], ?_, ?_, ?_, by decide, by decide⟩
  · rw [hflag, names_ne_nil_iff]
  · intro hf
    have hnil : nameInst.names = [] := by
      by_contra hne
      rw [hflag.mpr hne] at hf
      exact absurd hf (by decide)
    rw [h, hnil]
    simp [joinWith]
  · rw [makeNameInst_eq]
    simp

end Dot

end Ragel
